import Mathlib

/-! # Spaced-repetition scheduling and due-card selection

Sources: `internal/pkg/srs/sm2.go`, `internal/repository/srs.go`,
`internal/api/srs.go` and `internal/api/flashcards.go`; for the folders,
`internal/models/folder.go`, `internal/repository/folder.go` and
`internal/api/folders.go`.

The scheduling function works on Go `float64` and `int` values.  Both are
embedded exactly:

* `F64` is an IEEE-754 binary64 datum (NaN, the two infinities, or a signed
  finite value `m * 2 ^ e`); every arithmetic operation computes the exact
  result and rounds it once to nearest, ties to even (`F64.roundNE`), which is
  what the Go compiler emits for the default `amd64` target (no fused
  multiply-add);
* `int` is a 64-bit two's-complement integer: sums are wrapped by `wrap64`;
* a `float64 -> int` conversion whose operand is NaN or out of range yields
  `-2 ^ 63`, the value the `amd64` conversion instruction produces (the Go
  specification leaves it to the implementation).
-/

namespace SRS

/-! ## binary64 -/

/-- An IEEE-754 binary64 datum.  `fin neg m e` stands for
`(-1) ^ neg * m * 2 ^ e`; the data a `float64` can hold are the `fin` terms
accepted by `F64.canonical`, the infinities and `nan`. -/
inductive F64 where
  | nan : F64
  | inf (neg : Bool) : F64
  | fin (neg : Bool) (m : Nat) (e : Int) : F64
  deriving DecidableEq, Repr

namespace F64

/-- The unique representation of a finite binary64 value: a 53-bit
significand, the quantum exponent in range, and normalised unless
subnormal. -/
def canonical : F64 → Bool
  | nan => true
  | inf _ => true
  | fin _ m e => decide (m < 2 ^ 53 ∧ -1074 ≤ e ∧ e ≤ 971 ∧ (2 ^ 52 ≤ m ∨ e = -1074))

/-- Position of the leading one bit of `n`, by halving at most `fuel`
times. -/
def ilog2Aux : Nat → Nat → Nat
  | 0, _ => 0
  | fuel + 1, n => if n < 2 then 0 else ilog2Aux fuel (n / 2) + 1

/-- The exponent of the leading bit: `2 ^ ilog2 n ≤ n < 2 ^ (ilog2 n + 1)`
for `n ≠ 0`. -/
def ilog2 (n : Nat) : Nat := ilog2Aux n n

/-- Round the exact value `(-1) ^ neg * m * 2 ^ e` to binary64: to nearest,
ties to even, overflowing to an infinity. -/
def roundNE (neg : Bool) (m : Nat) (e : Int) : F64 :=
  if m = 0 then fin neg 0 (-1074) else
  let b : Int := (ilog2 m : Nat)
  let q : Int := max (e + b - 52) (-1074)
  if q ≤ e then
    if q > 971 then inf neg else fin neg (m * 2 ^ (e - q).toNat) q
  else
    let s : Nat := (q - e).toNat
    let t : Nat := m / 2 ^ s
    let r : Nat := m % 2 ^ s
    let half : Nat := 2 ^ (s - 1)
    let t1 : Nat := if half < r ∨ (r = half ∧ t % 2 = 1) then t + 1 else t
    let m1 : Nat := if t1 = 2 ^ 53 then 2 ^ 52 else t1
    let q1 : Int := if t1 = 2 ^ 53 then q + 1 else q
    if q1 > 971 then inf neg else fin neg m1 q1

/-- The signed integer `(-1) ^ neg * m`. -/
def signed (neg : Bool) (m : Nat) : Int :=
  if neg then -(m : Int) else (m : Int)

/-- Go `x + y` on `float64`. -/
def add : F64 → F64 → F64
  | nan, _ => nan
  | _, nan => nan
  | inf a, inf b => if a = b then inf a else nan
  | inf a, fin _ _ _ => inf a
  | fin _ _ _, inf b => inf b
  | fin n1 m1 e1, fin n2 m2 e2 =>
    let e : Int := min e1 e2
    let s : Int := signed n1 (m1 * 2 ^ (e1 - e).toNat) + signed n2 (m2 * 2 ^ (e2 - e).toNat)
    if s = 0 then fin (n1 && n2) 0 (-1074)
    else roundNE (decide (s < 0)) s.natAbs e

/-- Go unary `-x` on `float64`. -/
def neg : F64 → F64
  | nan => nan
  | inf a => inf (!a)
  | fin n m e => fin (!n) m e

/-- Go `x - y` on `float64`. -/
def sub (x y : F64) : F64 := add x (neg y)

/-- Go `x * y` on `float64`. -/
def mul : F64 → F64 → F64
  | nan, _ => nan
  | _, nan => nan
  | inf a, inf b => inf (a != b)
  | inf a, fin n m _ => if m = 0 then nan else inf (a != n)
  | fin n m _, inf b => if m = 0 then nan else inf (n != b)
  | fin n1 m1 e1, fin n2 m2 e2 => roundNE (n1 != n2) (m1 * m2) (e1 + e2)

/-- Go `x < y` on `float64` (false when either side is NaN). -/
def lt : F64 → F64 → Bool
  | nan, _ => false
  | _, nan => false
  | inf a, inf b => a && !b
  | inf a, fin _ _ _ => a
  | fin _ _ _, inf b => !b
  | fin n1 m1 e1, fin n2 m2 e2 =>
    let e : Int := min e1 e2
    decide (signed n1 (m1 * 2 ^ (e1 - e).toNat) < signed n2 (m2 * 2 ^ (e2 - e).toNat))

/-- Go `x <= y` on `float64` (false when either side is NaN). -/
def le : F64 → F64 → Bool
  | nan, _ => false
  | _, nan => false
  | inf a, inf b => a || !b
  | inf a, fin _ _ _ => a
  | fin _ _ _, inf b => !b
  | fin n1 m1 e1, fin n2 m2 e2 =>
    let e : Int := min e1 e2
    decide (signed n1 (m1 * 2 ^ (e1 - e).toNat) ≤ signed n2 (m2 * 2 ^ (e2 - e).toNat))

/-- Go `float64(i)` for an `int`: the nearest binary64 value. -/
def ofInt (i : Int) : F64 := roundNE (decide (i < 0)) i.natAbs 0

/-- Go `int(x)`: truncation toward zero; NaN and values outside the `int`
range give `-2 ^ 63` (the `amd64` result). -/
def toInt : F64 → Int
  | nan => -(2 ^ 63)
  | inf _ => -(2 ^ 63)
  | fin n m e =>
    let v : Int := signed n (if 0 ≤ e then m * 2 ^ e.toNat else m / 2 ^ (-e).toNat)
    if -(2 ^ 63) ≤ v ∧ v < 2 ^ 63 then v else -(2 ^ 63)

/-- Go `math.Max(x, y)`: `+Inf` if either is `+Inf`, NaN if either is NaN,
`+0` for zeros of opposite sign, else the larger. -/
def max (x y : F64) : F64 :=
  if x = inf false ∨ y = inf false then inf false
  else if x = nan ∨ y = nan then nan
  else
    match x, y with
    | fin n1 m1 _, fin _ m2 _ =>
      if m1 = 0 ∧ m2 = 0 then (if n1 then y else x)
      else if lt y x then x else y
    | _, _ => if lt y x then x else y

/-- Go `math.Round(x)`: the nearest integer, halves away from zero;
`Round(±0) = ±0`, `Round(±Inf) = ±Inf`, `Round(NaN) = NaN`. -/
def round : F64 → F64
  | nan => nan
  | inf a => inf a
  | fin n m e =>
    if 0 ≤ e then fin n m e
    else
      let d : Nat := 2 ^ (-e).toNat
      let k : Nat := m / d
      let k1 : Nat := if d ≤ 2 * (m % d) then k + 1 else k
      roundNE n k1 0

/-- The `float64` constant `5`. -/
def c5 : F64 := fin false (5 * 2 ^ 50) (-50)
/-- The `float64` constant `3`. -/
def c3 : F64 := fin false (3 * 2 ^ 51) (-51)
/-- The `float64` constant `2`. -/
def c2 : F64 := fin false (2 ^ 52) (-51)
/-- The `float64` constant `1`. -/
def c1 : F64 := fin false (2 ^ 52) (-52)
/-- The `float64` constant `0`. -/
def c0 : F64 := fin false 0 (-1074)
/-- The `float64` nearest to `0.1`. -/
def c0_1 : F64 := fin false 7205759403792794 (-56)
/-- The `float64` nearest to `0.08`. -/
def c0_08 : F64 := fin false 5764607523034235 (-56)
/-- The `float64` nearest to `0.02`. -/
def c0_02 : F64 := fin false 5764607523034235 (-58)
/-- The `float64` nearest to `1.3`. -/
def c1_3 : F64 := fin false 5854679515581645 (-52)
/-- The `float64` nearest to `0.8`. -/
def c0_8 : F64 := fin false 7205759403792794 (-53)
/-- The `float64` constant `2.5`. -/
def c2_5 : F64 := fin false (5 * 2 ^ 50) (-51)
/-- The `float64` nearest to `2.36`. -/
def c2_36 : F64 := fin false 5314247560297185 (-51)
/-- The `float64` nearest to `1.7`. -/
def c1_7 : F64 := fin false 7656119366529843 (-52)
/-- The `float64` nearest to `2.08`. -/
def c2_08 : F64 := fin false 4683743612465316 (-51)
/-- The `float64` nearest to `1.8`. -/
def c1_8 : F64 := fin false 8106479329266893 (-52)
/-- The `float64` nearest to `2.9`. -/
def c2_9 : F64 := fin false 6530219459687219 (-51)

/-- The exact value of a finite datum as a rational (`0` for NaN and the
infinities, which have none). -/
def toRat : F64 → ℚ
  | nan => 0
  | inf _ => 0
  | fin n m e => (signed n m : ℚ) * (2 : ℚ) ^ e

/-- Whether `x` is a finite datum of positive sign whose value is at most
`hi`. -/
def nonnegLe (x : F64) (hi : ℚ) : Prop :=
  ∃ m e, x = fin false m e ∧ (m : ℚ) * (2 : ℚ) ^ e ≤ hi

/-- Whether `x` is a finite datum lying within half a unit in the last place
of the rational `q`, which is how a decimal constant is converted. -/
def nearest (x : F64) (q : ℚ) : Prop :=
  match x with
  | fin _ _ e => |toRat x - q| ≤ (2 : ℚ) ^ (e - 1)
  | _ => False

end F64

/-- The significand kept when the low `s` bits of `m` are rounded away: to
nearest, ties to even.  This is the `t1` of `F64.roundNE`. -/
def F64.roundShift (m s : Nat) : Nat :=
  if 2 ^ (s - 1) < m % 2 ^ s ∨ (m % 2 ^ s = 2 ^ (s - 1) ∧ m / 2 ^ s % 2 = 1) then m / 2 ^ s + 1
  else m / 2 ^ s

/-- Wrap an integer into the range of a Go `int` (64-bit two's
complement). -/
def wrap64 (x : Int) : Int := (x + 2 ^ 63) % 2 ^ 64 - 2 ^ 63

/-! ## `sm2.go` -/

/-- Go `type Rating int`. -/
abbrev Rating := Int

/-- Complete blackout, wrong response. -/
def Again : Rating := 0
/-- Correct but with serious difficulty. -/
def Hard : Rating := 1
/-- Correct with some hesitation. -/
def Good : Rating := 2
/-- Perfect response with no hesitation. -/
def Easy : Rating := 3

/-- SRS state of a flashcard. -/
structure CardState where
  EaseFactor : F64
  Interval : Int
  Repetitions : Int
  deriving DecidableEq, Repr

/-- Initial state for a new card. -/
def DefaultCardState : CardState :=
  { EaseFactor := F64.c2_5, Interval := 0, Repetitions := 0 }

/-- The `switch rating` of `CalculateNextReview` choosing `quality`. -/
def quality (rating : Rating) : F64 :=
  if rating = Again then F64.c0
  else if rating = Hard then F64.c2
  else if rating = Good then F64.c3
  else if rating = Easy then F64.c5
  else F64.c0

/-- The candidate ease factor
`card.EaseFactor + (0.1 - (5-quality)*(0.08+(5-quality)*0.02))`. -/
def newEF (ef : F64) (rating : Rating) : F64 :=
  let q := quality rating
  F64.add ef
    (F64.sub F64.c0_1
      (F64.mul (F64.sub F64.c5 q) (F64.add F64.c0_08 (F64.mul (F64.sub F64.c5 q) F64.c0_02))))

/-- The change of the ease factor as the specification writes it,
`0.1 - (5 - q) * (0.08 + (5 - q) * 0.02)`, evaluated in `float64`. -/
def specEaseChange (q : F64) : F64 :=
  F64.sub F64.c0_1 (F64.mul (F64.sub F64.c5 q) (F64.add F64.c0_08 (F64.mul (F64.sub F64.c5 q) F64.c0_02)))

/-- The `switch newState.Repetitions` of `CalculateNextReview`: the interval
before the rating modifiers, from the new repetition count `reps`, the prior
interval and the new ease factor `ef`. -/
def baseInterval (reps : Int) (interval : Int) (ef : F64) : Int :=
  if reps = 1 then 1
  else if reps = 2 then 6
  else F64.toInt (F64.round (F64.mul (F64.ofInt interval) ef))

/-- The SM-2 step of `sm2.go`. -/
def CalculateNextReview (card : CardState) (rating : Rating) : CardState :=
  let ef : F64 := F64.max F64.c1_3 (newEF card.EaseFactor rating)
  let reps : Int := if rating = Again then 0 else wrap64 (card.Repetitions + 1)
  let interval : Int :=
    if rating = Again then 1
    else
      let base : Int := baseInterval reps card.Interval ef
      if rating = Hard then
        F64.toInt (F64.max F64.c1 (F64.mul (F64.ofInt base) F64.c0_8))
      else if rating = Easy then
        F64.toInt (F64.mul (F64.ofInt base) F64.c1_3)
      else base
  { EaseFactor := ef
    Interval := if interval > 365 then 365 else interval
    Repetitions := reps }

/-- The state after the reviews `ratings`, applied in order. -/
def applyRatings (card : CardState) (ratings : List Rating) : CardState :=
  ratings.foldl CalculateNextReview card

/-- Number of ratings after the last `Again` of the sequence (its length when
it has none). -/
def sinceLastAgain (ratings : List Rating) : Nat :=
  (ratings.reverse.takeWhile (fun r => decide (r ≠ Again))).length

/-! ## `repository/srs.go` -/

/-- A row of `flashcards`: the key, the owning material, the text and the
scheduling columns.  `NextReviewDate` is a day number and `LastReviewedAt` a
time stamp in seconds, `none` for SQL `NULL`. -/
structure Flashcard where
  ID : Nat
  StudyMaterialID : Nat
  EaseFactor : F64
  IntervalDays : Int
  Repetitions : Int
  NextReviewDate : Option Int
  Question : String := ""
  Answer : String := ""
  LastReviewedAt : Option Int := none
  deriving DecidableEq, Repr

/-- A row of `study_materials`: its key and its owner. -/
structure StudyMaterial where
  ID : Nat
  UserID : Nat
  deriving DecidableEq, Repr

/-- A row of `daily_activity`: the reviews a user made on one day. -/
structure DailyActivity where
  UserID : Nat
  Date : Int
  CardsReviewed : Int
  deriving DecidableEq, Repr

/-- The tables the scheduling code reads and writes, each in storage
order. -/
structure DB where
  flashcards : List Flashcard
  study_materials : List StudyMaterial
  daily_activity : List DailyActivity := []
  deriving DecidableEq, Repr

/-- SQL `f.next_review_date <= CURRENT_DATE` (not satisfied by `NULL`). -/
def isDue (f : Flashcard) (today : Int) : Bool :=
  match f.NextReviewDate with
  | some d => decide (d ≤ today)
  | none => false

/-- SQL ascending order on a floating-point column: numeric order, with NaN
after every other value. -/
def easeLe (x y : F64) : Bool :=
  y = F64.nan || (x != F64.nan && F64.le x y)

/-- SQL ascending order on a nullable date column: `NULL` after every
date. -/
def dateLt : Option Int → Option Int → Bool
  | some a, some b => decide (a < b)
  | some _, none => true
  | none, _ => false

/-- The order of `ORDER BY f.next_review_date, f.ease_factor ASC`. -/
def orderLe (a b : Flashcard) : Prop :=
  dateLt a.NextReviewDate b.NextReviewDate = true ∨
    (a.NextReviewDate = b.NextReviewDate ∧ easeLe a.EaseFactor b.EaseFactor = true)

instance : DecidableRel orderLe := fun a b => by
  unfold orderLe
  exact inferInstance

/-- The rows of
`flashcards f JOIN study_materials sm ON f.study_material_id = sm.id
WHERE sm.user_id = $1 AND f.next_review_date <= CURRENT_DATE`. -/
def dueRows (db : DB) (userID : Nat) (today : Int) : List Flashcard :=
  db.flashcards.flatMap fun f =>
    (db.study_materials.filter fun sm =>
      decide (f.StudyMaterialID = sm.ID) && decide (sm.UserID = userID) && isDue f today).map
      fun _ => f

/-- The rows of the material-scoped query, which adds
`AND f.study_material_id = $2`. -/
def dueRowsByMaterial (db : DB) (userID materialID : Nat) (today : Int) : List Flashcard :=
  db.flashcards.flatMap fun f =>
    (db.study_materials.filter fun sm =>
      decide (f.StudyMaterialID = sm.ID) && decide (sm.UserID = userID) &&
        decide (f.StudyMaterialID = materialID) && isDue f today).map
      fun _ => f

/-- The query of `SRSRepository.GetDueCards`, run on day `today`: the due
rows of the user, ordered, cut at `LIMIT $2`.  A negative limit is rejected by
the database (`none`); rows that tie on both keys keep their storage
order. -/
def GetDueCards (db : DB) (userID : Nat) (today : Int) (limit : Int) :
    Option (List Flashcard) :=
  if limit < 0 then none
  else some (((dueRows db userID today).insertionSort orderLe).take limit.toNat)

/-- The query of `SRSRepository.GetDueCardsByMaterial`. -/
def GetDueCardsByMaterial (db : DB) (userID materialID : Nat) (today : Int) (limit : Int) :
    Option (List Flashcard) :=
  if limit < 0 then none
  else some (((dueRowsByMaterial db userID materialID today).insertionSort orderLe).take
    limit.toNat)

/-- The count of `SRSRepository.CountDueCards`: `COUNT(*)` over the rows of
the user-wide due query. -/
def CountDueCards (db : DB) (userID : Nat) (today : Int) : Int :=
  ((dueRows db userID today).length : Int)

/-- The count of `SRSRepository.CountDueCardsByMaterial`:
`SELECT COUNT(*) FROM flashcards WHERE study_material_id = $1 AND
next_review_date <= CURRENT_DATE`. -/
def CountDueCardsByMaterial (db : DB) (materialID : Nat) (today : Int) : Int :=
  ((db.flashcards.filter fun f =>
    decide (f.StudyMaterialID = materialID) && isDue f today).length : Int)

/-- The update of `SRSRepository.UpdateCardSRS`, run at time `now`:
`UPDATE flashcards SET ease_factor = $2, interval_days = $3, repetitions = $4,
next_review_date = $5, last_reviewed_at = NOW() WHERE id = $1`. -/
def UpdateCardSRS (db : DB) (cardID : Nat) (easeFactor : F64) (interval repetitions : Int)
    (nextReview : Int) (now : Int) : DB :=
  { db with
    flashcards := db.flashcards.map fun f =>
      if f.ID = cardID then
        { f with
          EaseFactor := easeFactor
          IntervalDays := interval
          Repetitions := repetitions
          NextReviewDate := some nextReview
          LastReviewedAt := some now }
      else f }

/-! ## `repository/material.go` and `repository/analytics.go` -/

/-- The query of `MaterialRepository.GetByID`: the row of `study_materials`
with the key `id`, if any. -/
def GetByID (db : DB) (id : Nat) : Option StudyMaterial :=
  db.study_materials.find? fun sm => decide (sm.ID = id)

/-- The query of `MaterialRepository.GetFlashcardByID`: the row of
`flashcards` with the key `id`, if any. -/
def GetFlashcardByID (db : DB) (id : Nat) : Option Flashcard :=
  db.flashcards.find? fun f => decide (f.ID = id)

/-- The update of `MaterialRepository.UpdateFlashcard`:
`UPDATE flashcards SET question = $2, answer = $3, ease_factor = $4,
interval_days = $5, repetitions = $6, next_review_date = $7,
last_reviewed_at = $8 WHERE id = $1`, all taken from `fc`. -/
def UpdateFlashcard (db : DB) (fc : Flashcard) : DB :=
  { db with
    flashcards := db.flashcards.map fun f =>
      if f.ID = fc.ID then
        { f with
          Question := fc.Question
          Answer := fc.Answer
          EaseFactor := fc.EaseFactor
          IntervalDays := fc.IntervalDays
          Repetitions := fc.Repetitions
          NextReviewDate := fc.NextReviewDate
          LastReviewedAt := fc.LastReviewedAt }
      else f }

/-- The upsert of `AnalyticsRepository.IncrementCardsReviewed`, run on day
`today`: `INSERT INTO daily_activity (user_id, date, cards_reviewed) VALUES
($1, CURRENT_DATE, $2) ON CONFLICT (user_id, date) DO UPDATE SET
cards_reviewed = daily_activity.cards_reviewed + $2`. -/
def IncrementCardsReviewed (db : DB) (userID : Nat) (today : Int) (count : Int) : DB :=
  if db.daily_activity.any fun a => decide (a.UserID = userID) && decide (a.Date = today) then
    { db with
      daily_activity := db.daily_activity.map fun a =>
        if a.UserID = userID ∧ a.Date = today then
          { a with CardsReviewed := a.CardsReviewed + count }
        else a }
  else
    { db with
      daily_activity := db.daily_activity ++
        [{ UserID := userID, Date := today, CardsReviewed := count }] }

/-- The cards-reviewed counter of a user on a day (0 when there is no
row). -/
def cardsReviewed (db : DB) (userID : Nat) (day : Int) : Int :=
  ((db.daily_activity.filter fun a =>
    decide (a.UserID = userID) && decide (a.Date = day)).map fun a => a.CardsReviewed).sum

/-- The rows of `flashcards f JOIN study_materials sm ON f.study_material_id =
sm.id WHERE sm.user_id = $1`, the population of every statistic. -/
def userRows (db : DB) (userID : Nat) : List Flashcard :=
  db.flashcards.flatMap fun f =>
    (db.study_materials.filter fun sm =>
      decide (f.StudyMaterialID = sm.ID) && decide (sm.UserID = userID)).map fun _ => f

/-- SQL `DATE(ts)` of a time stamp in seconds. -/
def dateOf (ts : Int) : Int := ts / 86400

/-- The statistics `GetSRSStats` puts in its map, under the same keys. -/
structure SRSStats where
  total_cards : Int
  due_today : Int
  new_cards : Int
  learned_cards : Int
  mature_cards : Int
  average_ease : F64
  reviewed_today : Int
  deriving DecidableEq, Repr

/-- The seven queries of `SRSRepository.GetSRSStats`, run on day `today`.
`avg` is the value the database computes for `AVG(f.ease_factor)` over a
non-empty set of rows; over no rows `AVG` is `NULL` and
`COALESCE(AVG(f.ease_factor), 2.5)` is 2.5.  The function returns no
error. -/
def GetSRSStats (avg : List F64 → F64) (db : DB) (userID : Nat) (today : Int) : SRSStats :=
  let rows := userRows db userID
  { total_cards := (rows.length : Int)
    due_today := ((rows.filter fun f => isDue f today).length : Int)
    new_cards := ((rows.filter fun f => decide (f.Repetitions = 0)).length : Int)
    learned_cards := ((rows.filter fun f => decide (f.Repetitions > 0)).length : Int)
    mature_cards := ((rows.filter fun f => decide (f.IntervalDays > 21)).length : Int)
    average_ease := if rows = [] then F64.c2_5 else avg (rows.map fun f => f.EaseFactor)
    reviewed_today := ((rows.filter fun f =>
      match f.LastReviewedAt with
      | some ts => decide (dateOf ts = today)
      | none => false).length : Int) }

/-! ## `api/srs.go` and `api/flashcards.go` -/

/-- The outcome of a handler: the status it answers with, and the body of a
200 answer. -/
inductive HttpResult (α : Type) where
  | ok (body : α) : HttpResult α
  | badRequest : HttpResult α
  | notFound : HttpResult α
  | internalError : HttpResult α
  deriving DecidableEq, Repr

/-- The body `models.DueCardsResponse`. -/
structure DueCardsResponse where
  Cards : List Flashcard
  TotalDue : Int
  MaterialID : Option Nat
  deriving DecidableEq, Repr

/-- The handler `GET /srs/due`: at most 100 due cards of the caller and the
count of all of them. -/
def HandlerGetDueCards (db : DB) (userID : Nat) (today : Int) : HttpResult DueCardsResponse :=
  match GetDueCards db userID today 100 with
  | none => HttpResult.internalError
  | some cards =>
    HttpResult.ok
      { Cards := cards, TotalDue := CountDueCards db userID today, MaterialID := none }

/-- The handler `GET /srs/due/:materialId`; `materialId` is `none` when the
path parameter is not a UUID. -/
def HandlerGetDueCardsByMaterial (db : DB) (userID : Nat) (materialId : Option Nat)
    (today : Int) : HttpResult DueCardsResponse :=
  match materialId with
  | none => HttpResult.badRequest
  | some materialID =>
    match GetByID db materialID with
    | none => HttpResult.notFound
    | some material =>
      if material.UserID ≠ userID then HttpResult.notFound
      else
        match GetDueCardsByMaterial db userID materialID today 100 with
        | none => HttpResult.internalError
        | some cards =>
          HttpResult.ok
            { Cards := cards
              TotalDue := CountDueCardsByMaterial db materialID today
              MaterialID := some materialID }


/-- The JSON body of `POST /srs/review` as sent: each key may be absent (or
`null`); `card_id` 0 stands for the all-zero UUID. -/
structure ReviewBody where
  card_id : Option Nat
  rating : Option Int
  deriving DecidableEq, Repr

/-- The request `models.ReviewRequest` after binding. -/
structure ReviewRequest where
  CardID : Nat
  Rating : Int
  deriving DecidableEq, Repr

/-- The binding `c.ShouldBindJSON(&req)`; `body` is `none` when it is not a
JSON object of the right shape.  An absent key leaves the zero value, a
rating that does not fit an `int` is a decoding error, and
`binding:"required"` rejects a field holding its zero value. -/
def bindReviewRequest (body : Option ReviewBody) : Option ReviewRequest :=
  match body with
  | none => none
  | some b =>
    let cardID : Nat := b.card_id.getD 0
    let rating : Int := b.rating.getD 0
    if rating < -(2 ^ 63) ∨ 2 ^ 63 ≤ rating then none
    else if cardID = 0 ∨ rating = 0 then none
    else some { CardID := cardID, Rating := rating }

/-- The body of the 200 answer of `SubmitReview`; `next_review_date` is the
day that `nextReview.Format("2006-01-02")` prints. -/
structure ReviewResponse where
  card_id : Nat
  ease_factor : F64
  interval_days : Int
  repetitions : Int
  next_review_date : Int
  deriving DecidableEq, Repr

/-- A call a handler makes to a repository. -/
inductive StorageOp where
  | getFlashcardByID (id : Nat) : StorageOp
  | getByID (id : Nat) : StorageOp
  | updateCardSRS (id : Nat) : StorageOp
  | incrementCardsReviewed (userID : Nat) : StorageOp
  deriving DecidableEq, Repr

/-- What `SubmitReview` holds after its reads: the card to update, the state
`CalculateNextReview` returned and the day `time.Now().AddDate(0, 0,
newState.Interval)`. -/
structure PendingReview where
  CardID : Nat
  NewState : CardState
  NextReview : Int
  deriving DecidableEq, Repr

/-- The first half of `SubmitReview` either answers at once or goes on to
the writes. -/
inductive LoadOutcome where
  | rejected (r : HttpResult ReviewResponse) : LoadOutcome
  | ready (p : PendingReview) : LoadOutcome
  deriving DecidableEq, Repr

/-- The first half of `SubmitReview`, on day `today`: bind the request, load
the card, verify ownership through its material, compute the new state and
the next review day.  Returns the repository calls made as well. -/
def submitLoad (db : DB) (userID : Nat) (today : Int) (body : Option ReviewBody) :
    List StorageOp × LoadOutcome :=
  match bindReviewRequest body with
  | none => ([], LoadOutcome.rejected HttpResult.badRequest)
  | some req =>
    match GetFlashcardByID db req.CardID with
    | none => ([StorageOp.getFlashcardByID req.CardID], LoadOutcome.rejected HttpResult.notFound)
    | some card =>
      match GetByID db card.StudyMaterialID with
      | none =>
        ([StorageOp.getFlashcardByID req.CardID, StorageOp.getByID card.StudyMaterialID],
          LoadOutcome.rejected HttpResult.notFound)
      | some material =>
        if material.UserID ≠ userID then
          ([StorageOp.getFlashcardByID req.CardID, StorageOp.getByID card.StudyMaterialID],
            LoadOutcome.rejected HttpResult.notFound)
        else
          let newState := CalculateNextReview
            { EaseFactor := card.EaseFactor
              Interval := card.IntervalDays
              Repetitions := card.Repetitions } req.Rating
          ([StorageOp.getFlashcardByID req.CardID, StorageOp.getByID card.StudyMaterialID],
            LoadOutcome.ready
              { CardID := req.CardID
                NewState := newState
                NextReview := today + newState.Interval })

/-- The second half of `SubmitReview`, at time `now` of day `today`: update
the card, count the review, answer. -/
def submitPersist (db : DB) (userID : Nat) (today now : Int) (p : PendingReview) :
    DB × ReviewResponse :=
  let db1 := UpdateCardSRS db p.CardID p.NewState.EaseFactor p.NewState.Interval
    p.NewState.Repetitions p.NextReview now
  let db2 := IncrementCardsReviewed db1 userID today 1
  (db2,
    { card_id := p.CardID
      ease_factor := p.NewState.EaseFactor
      interval_days := p.NewState.Interval
      repetitions := p.NewState.Repetitions
      next_review_date := p.NextReview })

/-- A run of a handler that writes: the tables afterwards, the repository
calls made, in order, and the answer. -/
structure Run (α : Type) where
  db : DB
  ops : List StorageOp
  result : HttpResult α
  deriving DecidableEq, Repr

/-- The handler `POST /srs/review` for the caller `userID`. -/
def SubmitReview (db : DB) (userID : Nat) (today now : Int) (body : Option ReviewBody) :
    Run ReviewResponse :=
  match submitLoad db userID today body with
  | (ops, LoadOutcome.rejected r) => { db := db, ops := ops, result := r }
  | (ops, LoadOutcome.ready p) =>
    { db := (submitPersist db userID today now p).1
      ops := ops ++ [StorageOp.updateCardSRS p.CardID, StorageOp.incrementCardsReviewed userID]
      result := HttpResult.ok (submitPersist db userID today now p).2 }

/-- The request `models.UpdateFlashcardRequest` after binding. -/
structure UpdateFlashcardRequest where
  Question : Option String
  Answer : Option String
  deriving DecidableEq, Repr

/-- The handler `PATCH /materials/:id/flashcards/:cardId`; a path parameter
is `none` when it is not a UUID, the body when it does not bind.  Returns the
tables afterwards and the answer. -/
def HandlerUpdateFlashcard (db : DB) (userID : Nat) (id cardId : Option Nat)
    (body : Option UpdateFlashcardRequest) : DB × HttpResult Flashcard :=
  match id with
  | none => (db, HttpResult.badRequest)
  | some materialID =>
    match cardId with
    | none => (db, HttpResult.badRequest)
    | some cardID =>
      match GetByID db materialID with
      | none => (db, HttpResult.notFound)
      | some material =>
        if material.UserID ≠ userID then (db, HttpResult.notFound)
        else
          match GetFlashcardByID db cardID with
          | none => (db, HttpResult.notFound)
          | some flashcard =>
            if flashcard.StudyMaterialID ≠ materialID then (db, HttpResult.notFound)
            else
              match body with
              | none => (db, HttpResult.badRequest)
              | some req =>
                let fc1 : Flashcard :=
                  match req.Question with
                  | some q => { flashcard with Question := q }
                  | none => flashcard
                let fc2 : Flashcard :=
                  match req.Answer with
                  | some a => { fc1 with Answer := a }
                  | none => fc1
                (UpdateFlashcard db fc2, HttpResult.ok fc2)

/-- Where one of two concurrent `SubmitReview` calls stands. -/
inductive CallState where
  | idle : CallState
  | loaded (p : PendingReview) : CallState
  | finished (r : HttpResult ReviewResponse) : CallState
  deriving DecidableEq, Repr

/-- Two `SubmitReview` calls of one caller running against the same
tables. -/
structure Race where
  db : DB
  first : CallState
  second : CallState
  deriving DecidableEq, Repr

/-- One call takes its next step: its reads (`submitLoad`) when idle, its
writes (`submitPersist`) when it has read. -/
def stepCall (userID : Nat) (today now : Int) (body : Option ReviewBody) (db : DB)
    (s : CallState) : DB × CallState :=
  match s with
  | CallState.idle =>
    match (submitLoad db userID today body).2 with
    | LoadOutcome.rejected r => (db, CallState.finished r)
    | LoadOutcome.ready p => (db, CallState.loaded p)
  | CallState.loaded p =>
    ((submitPersist db userID today now p).1,
      CallState.finished (HttpResult.ok (submitPersist db userID today now p).2))
  | CallState.finished r => (db, CallState.finished r)

/-- The call named by `second` (the second one when true) takes a step. -/
def raceStep (userID : Nat) (today now : Int) (bodyA bodyB : Option ReviewBody) (r : Race)
    (second : Bool) : Race :=
  if second then
    { r with
      db := (stepCall userID today now bodyB r.db r.second).1
      second := (stepCall userID today now bodyB r.db r.second).2 }
  else
    { r with
      db := (stepCall userID today now bodyA r.db r.first).1
      first := (stepCall userID today now bodyA r.db r.first).2 }

/-- The two calls run from `db` with their steps interleaved as `schedule`
says. -/
def runRace (userID : Nat) (today now : Int) (bodyA bodyB : Option ReviewBody) (db : DB)
    (schedule : List Bool) : Race :=
  schedule.foldl (raceStep userID today now bodyA bodyB)
    { db := db, first := CallState.idle, second := CallState.idle }

/-! ## `models/folder.go`, `repository/folder.go` and `api/folders.go` -/

/-- A row of `folders`: the key, the owner, the key of the parent folder
(`none` for SQL `NULL`), the name and the colour. -/
structure FolderRow where
  ID : Nat
  UserID : Nat
  ParentID : Option Nat
  Name : String
  Color : String := ""
  deriving DecidableEq, Repr

/-- A value of `models.Folder`: the columns of a row and the slice `Children`.
A Go assignment or `append` of a `Folder` copies the value; the copy keeps the
children it had at that moment. -/
inductive Folder where
  | mk (ID UserID : Nat) (ParentID : Option Nat) (Name Color : String)
      (Children : List Folder) : Folder

/-- The field `ID`. -/
def Folder.ID : Folder → Nat
  | Folder.mk id _ _ _ _ _ => id

/-- The field `UserID`. -/
def Folder.UserID : Folder → Nat
  | Folder.mk _ userID _ _ _ _ => userID

/-- The field `ParentID`, `none` for a nil pointer. -/
def Folder.ParentID : Folder → Option Nat
  | Folder.mk _ _ parentID _ _ _ => parentID

/-- The field `Name`. -/
def Folder.Name : Folder → String
  | Folder.mk _ _ _ name _ _ => name

/-- The field `Color`. -/
def Folder.Color : Folder → String
  | Folder.mk _ _ _ _ color _ => color

/-- The field `Children`. -/
def Folder.Children : Folder → List Folder
  | Folder.mk _ _ _ _ _ children => children

/-- The statement `rows.Scan(&f.ID, &f.UserID, &f.ParentID, &f.Name, &f.Color,
...)` on a fresh `models.Folder`: `Children` stays nil. -/
def scanFolder (r : FolderRow) : Folder :=
  Folder.mk r.ID r.UserID r.ParentID r.Name r.Color []

/-- SQL `ORDER BY name`, the names compared code point by code point. -/
def nameLe (a b : FolderRow) : Prop := a.Name.toList ≤ b.Name.toList

instance : DecidableRel nameLe := fun a b => by
  unfold nameLe
  infer_instance

/-- The query of `FolderRepository.ListByUser`: `SELECT ... FROM folders WHERE
user_id = $1 ORDER BY name`, each row scanned into a `models.Folder`.  Rows of
equal name keep their storage order. -/
def FolderRepository.ListByUser (folders : List FolderRow) (userID : Nat) : List Folder :=
  ((folders.filter fun r => decide (r.UserID = userID)).insertionSort nameLe).map scanFolder

/-- The map `folderMap` after the first loop of `GetFolderTree`,
`folderMap[folders[i].ID] = &folders[i]` for `i` ascending: the position of
the last element with the key `id`, if there is one. -/
def folderMap (folders : List Folder) (id : Nat) : Option Nat :=
  ((folders.enum.filter fun p => decide (p.2.ID = id)).getLast?).map Prod.fst

/-- The assignment `parent.Children = append(parent.Children, child)`. -/
def appendChild (parent child : Folder) : Folder :=
  Folder.mk parent.ID parent.UserID parent.ParentID parent.Name parent.Color
    (parent.Children ++ [child])

/-- One round `i` of the second loop of `GetFolderTree` on the array `folders`
(written to through the pointers of `folderMap`) and the slice `roots`:
a folder without parent is copied to the end of `roots`; otherwise, when the
parent is in the map, a copy of the folder is put at the end of the children of
the parent's array element. -/
def treeStep (fmap : Nat → Option Nat) (st : List Folder × List Folder) (i : Nat) :
    List Folder × List Folder :=
  match st.1.get? i with
  | none => st
  | some f =>
    match f.ParentID with
    | none => (st.1, st.2 ++ [f])
    | some parentID =>
      match fmap parentID with
      | none => st
      | some j =>
        (st.1.enum.map fun p => if p.1 = j then appendChild p.2 f else p.2, st.2)

/-- The two loops of `GetFolderTree` on the folders listed: the slice `roots`
at the end. -/
def buildTree (folders : List Folder) : List Folder :=
  ((List.range folders.length).foldl (treeStep (folderMap folders)) (folders, [])).2

/-- The method `FolderRepository.GetFolderTree`. -/
def FolderRepository.GetFolderTree (folders : List FolderRow) (userID : Nat) : List Folder :=
  buildTree (FolderRepository.ListByUser folders userID)

/-- The query of `FolderRepository.GetByID`: the row of `folders` with the key
`id`, if any, scanned into a `models.Folder`. -/
def FolderRepository.GetByID (folders : List FolderRow) (id : Nat) : Option Folder :=
  (folders.find? fun r => decide (r.ID = id)).map scanFolder

/-- The update of `FolderRepository.Update`: `UPDATE folders SET name = $2,
parent_id = $3, color = $4 WHERE id = $1`, all taken from `folder`. -/
def FolderRepository.Update (folders : List FolderRow) (folder : Folder) : List FolderRow :=
  folders.map fun r =>
    if r.ID = folder.ID then
      { r with Name := folder.Name, ParentID := folder.ParentID, Color := folder.Color }
    else r

/-- The request `models.UpdateFolderRequest` after binding: a field is `none`
when the body does not give it. -/
structure UpdateFolderRequest where
  Name : Option String := none
  ParentID : Option Nat := none
  Color : Option String := none
  deriving DecidableEq, Repr

/-- The handler `PATCH /folders/:id`; `id` is `none` when the path parameter
is not a UUID, the body when it does not bind.  Returns the table afterwards
and the answer. -/
def HandlerUpdateFolder (folders : List FolderRow) (userID : Nat) (id : Option Nat)
    (body : Option UpdateFolderRequest) : List FolderRow × HttpResult Folder :=
  match id with
  | none => (folders, HttpResult.badRequest)
  | some folderID =>
    match FolderRepository.GetByID folders folderID with
    | none => (folders, HttpResult.notFound)
    | some folder =>
      if folder.UserID ≠ userID then (folders, HttpResult.notFound)
      else
        match body with
        | none => (folders, HttpResult.badRequest)
        | some req =>
          let f1 : Folder :=
            match req.Name with
            | some name =>
              Folder.mk folder.ID folder.UserID folder.ParentID name folder.Color folder.Children
            | none => folder
          match req.ParentID with
          | some parentID =>
            if parentID = folderID then (folders, HttpResult.badRequest)
            else
              let f2 : Folder :=
                Folder.mk f1.ID f1.UserID (some parentID) f1.Name f1.Color f1.Children
              let f3 : Folder :=
                match req.Color with
                | some color => Folder.mk f2.ID f2.UserID f2.ParentID f2.Name color f2.Children
                | none => f2
              (FolderRepository.Update folders f3, HttpResult.ok f3)
          | none =>
            let f3 : Folder :=
              match req.Color with
              | some color => Folder.mk f1.ID f1.UserID f1.ParentID f1.Name color f1.Children
              | none => f1
            (FolderRepository.Update folders f3, HttpResult.ok f3)

/-- The parent key stored for the folder `id`, if the folder exists and has
one. -/
def parentOf (folders : List FolderRow) (id : Nat) : Option Nat :=
  (folders.find? fun r => decide (r.ID = id)).bind FolderRow.ParentID

/-- The keys met by going from the folder `id` to its parent, at most `n`
times: the ancestors of `id`, nearest first. -/
def ancestors (folders : List FolderRow) : Nat → Nat → List Nat
  | 0, _ => []
  | n + 1, id =>
    match parentOf folders id with
    | none => []
    | some p => p :: ancestors folders n p

/-- No folder of the table is its own ancestor.  A folder on a cycle comes
back to itself in at most as many steps as there are rows. -/
def Acyclic (folders : List FolderRow) : Prop :=
  ∀ r ∈ folders, r.ID ∉ ancestors folders folders.length r.ID

instance (folders : List FolderRow) : Decidable (Acyclic folders) := by
  unfold Acyclic
  infer_instance

/-- Every parent key of the table names a folder of the same user. -/
def ParentsOwned (folders : List FolderRow) : Prop :=
  ∀ r ∈ folders, ∀ p ∈ r.ParentID, ∃ q ∈ folders, q.ID = p ∧ q.UserID = r.UserID

instance (folders : List FolderRow) : Decidable (ParentsOwned folders) := by
  unfold ParentsOwned
  infer_instance

/-! ## Example data -/

/-- A new card, used in examples: key 5, in material 10, with the default
schedule and due on day 100. -/
def sampleCard : Flashcard :=
  { ID := 5
    StudyMaterialID := 10
    EaseFactor := F64.c2_5
    IntervalDays := 0
    Repetitions := 0
    NextReviewDate := some 100 }

/-- Tables holding `sampleCard` alone, its material owned by `owner`. -/
def sampleDB (owner : Nat) : DB :=
  { flashcards := [sampleCard], study_materials := [{ ID := 10, UserID := owner }] }

/-- A review request for `sampleCard` with the given rating. -/
def sampleReview (rating : Int) : Option ReviewBody :=
  some { card_id := some 5, rating := some rating }

/-- Two folders of user 1: the root `a` and its child `b`. -/
def parentFirst : List FolderRow :=
  [{ ID := 1, UserID := 1, ParentID := none, Name := "a" },
   { ID := 2, UserID := 1, ParentID := some 1, Name := "b" }]

/-- Two folders of user 1: the root `b` and its child `a`. -/
def childFirst : List FolderRow :=
  [{ ID := 1, UserID := 1, ParentID := none, Name := "b" },
   { ID := 2, UserID := 1, ParentID := some 1, Name := "a" }]

/-- The folders of `parentFirst` after folder 1 was given the parent 2: each
of the two is the parent of the other. -/
def cyclicFolders : List FolderRow :=
  [{ ID := 1, UserID := 1, ParentID := some 2, Name := "a" },
   { ID := 2, UserID := 1, ParentID := some 1, Name := "b" }]

/-! # Theorems -/

/-! ## Facts about binary64 arithmetic -/

theorem F64.ilog2Aux_spec (fuel : Nat) : ∀ n : Nat, n ≠ 0 → n ≤ fuel →
    2 ^ F64.ilog2Aux fuel n ≤ n ∧ n < 2 ^ (F64.ilog2Aux fuel n + 1) := by
  induction fuel with
  | zero => intro n h0 h; omega
  | succ f ih =>
    intro n h0 h
    unfold F64.ilog2Aux
    split_ifs with h2
    · constructor <;> simp <;> omega
    · obtain ⟨h3, h4⟩ := ih (n / 2) (by omega) (by omega)
      rw [pow_succ] at h4 ⊢
      rw [pow_succ]
      constructor <;> omega

theorem F64.ilog2_le (n : Nat) (h : n ≠ 0) : 2 ^ F64.ilog2 n ≤ n :=
  (F64.ilog2Aux_spec n n h le_rfl).1

theorem F64.lt_ilog2 (n : Nat) (h : n ≠ 0) : n < 2 ^ (F64.ilog2 n + 1) :=
  (F64.ilog2Aux_spec n n h le_rfl).2

/-- The significand scaling used to align two exponents is a power of two. -/
theorem F64.cast_shift (a e : Int) (h : e ≤ a) :
    (((2 : Nat) ^ (a - e).toNat : Nat) : ℚ) * (2 : ℚ) ^ e = (2 : ℚ) ^ a := by
  have h1 : ((a - e).toNat : Int) = a - e := Int.toNat_of_nonneg (by omega)
  have h2 : (((2 : Nat) ^ (a - e).toNat : Nat) : ℚ) = (2 : ℚ) ^ (a - e) := by
    rw [← h1, zpow_natCast]; push_cast; rw [h1]
  rw [h2, ← zpow_add₀ (by norm_num : (2 : ℚ) ≠ 0)]
  congr 1; omega

theorem F64.signed_mul (n : Bool) (m c : Nat) :
    F64.signed n (m * c) = F64.signed n m * (c : Int) := by
  cases n <;> simp [F64.signed]

/-- An aligned significand has the value of the datum. -/
theorem F64.aligned_val (n : Bool) (m : Nat) (a e : Int) (h : e ≤ a) :
    ((F64.signed n (m * 2 ^ (a - e).toNat) : Int) : ℚ) * (2 : ℚ) ^ e =
      F64.toRat (F64.fin n m a) := by
  rw [F64.signed_mul]
  push_cast
  rw [mul_assoc]
  have := F64.cast_shift a e h
  push_cast at this
  rw [this, F64.toRat]

theorem F64.le_fin_iff (n1 : Bool) (m1 : Nat) (e1 : Int) (n2 : Bool) (m2 : Nat) (e2 : Int) :
    F64.le (F64.fin n1 m1 e1) (F64.fin n2 m2 e2) = true ↔
      F64.toRat (F64.fin n1 m1 e1) ≤ F64.toRat (F64.fin n2 m2 e2) := by
  simp only [F64.le, decide_eq_true_eq]
  rw [← F64.aligned_val n1 m1 e1 (min e1 e2) (min_le_left _ _),
    ← F64.aligned_val n2 m2 e2 (min e1 e2) (min_le_right _ _)]
  have hp : (0 : ℚ) < (2 : ℚ) ^ (min e1 e2) := by positivity
  rw [mul_le_mul_right hp]
  exact Int.cast_le.symm

theorem F64.lt_fin_iff (n1 : Bool) (m1 : Nat) (e1 : Int) (n2 : Bool) (m2 : Nat) (e2 : Int) :
    F64.lt (F64.fin n1 m1 e1) (F64.fin n2 m2 e2) = true ↔
      F64.toRat (F64.fin n1 m1 e1) < F64.toRat (F64.fin n2 m2 e2) := by
  simp only [F64.lt, decide_eq_true_eq]
  rw [← F64.aligned_val n1 m1 e1 (min e1 e2) (min_le_left _ _),
    ← F64.aligned_val n2 m2 e2 (min e1 e2) (min_le_right _ _)]
  have hp : (0 : ℚ) < (2 : ℚ) ^ (min e1 e2) := by positivity
  rw [mul_lt_mul_right hp]
  exact Int.cast_lt.symm

theorem two_zpow_pos (a : Int) : (0 : ℚ) < (2 : ℚ) ^ a := by positivity

/-- Comparing two multiples of powers of two whose exponents differ by a
natural number. -/
theorem grid_le (c m : Nat) (q e : Int) (h : e ≤ q) :
    (c : ℚ) * (2 : ℚ) ^ q ≤ (m : ℚ) * (2 : ℚ) ^ e ↔ c * 2 ^ (q - e).toNat ≤ m := by
  rw [← F64.cast_shift q e h, ← mul_assoc, mul_le_mul_right (two_zpow_pos e)]
  exact_mod_cast Iff.rfl

theorem le_grid (c m : Nat) (q e : Int) (h : e ≤ q) :
    (m : ℚ) * (2 : ℚ) ^ e ≤ (c : ℚ) * (2 : ℚ) ^ q ↔ m ≤ c * 2 ^ (q - e).toNat := by
  rw [← F64.cast_shift q e h, ← mul_assoc, mul_le_mul_right (two_zpow_pos e)]
  exact_mod_cast Iff.rfl

theorem roundNE_exact (n : Bool) (m : Nat) (e q : Int) (hm : m ≠ 0)
    (hq : q = max (e + (F64.ilog2 m : Nat) - 52) (-1074)) (h : q ≤ e) :
    F64.roundNE n m e = if q > 971 then F64.inf n else F64.fin n (m * 2 ^ (e - q).toNat) q := by
  subst hq
  simp only [F64.roundNE, if_neg hm, if_pos h]

theorem roundNE_inexact (n : Bool) (m : Nat) (e q : Int) (hm : m ≠ 0)
    (hq : q = max (e + (F64.ilog2 m : Nat) - 52) (-1074)) (h : ¬ q ≤ e) (t1 : Nat)
    (ht : t1 = if 2 ^ ((q - e).toNat - 1) < m % 2 ^ (q - e).toNat ∨
      (m % 2 ^ (q - e).toNat = 2 ^ ((q - e).toNat - 1) ∧ m / 2 ^ (q - e).toNat % 2 = 1)
      then m / 2 ^ (q - e).toNat + 1 else m / 2 ^ (q - e).toNat) :
    F64.roundNE n m e =
      if (if t1 = 2 ^ 53 then q + 1 else q) > 971 then F64.inf n
      else F64.fin n (if t1 = 2 ^ 53 then 2 ^ 52 else t1) (if t1 = 2 ^ 53 then q + 1 else q) := by
  subst hq ht
  simp only [F64.roundNE, if_neg hm, if_neg h]

/-- The value `roundNE` returns: a multiple `t * 2 ^ q` of the quantum that
brackets the exact value `m * 2 ^ e` between the neighbouring multiples, the
quantum being at most `2 ^ -52` times the value unless it is the smallest
one; an infinity is returned only from `2 ^ 1024` on. -/
theorem roundNE_val (n : Bool) (m : Nat) (e : Int) (hm : m ≠ 0) :
    ∃ (t : Nat) (q : Int),
      (∀ c : Nat, (c : ℚ) * (2 : ℚ) ^ q ≤ (m : ℚ) * (2 : ℚ) ^ e → c ≤ t) ∧
      (∀ c : Nat, (m : ℚ) * (2 : ℚ) ^ e ≤ (c : ℚ) * (2 : ℚ) ^ q → t ≤ c) ∧
      (q = -1074 ∨ (2 : ℚ) ^ (q + 52) ≤ (m : ℚ) * (2 : ℚ) ^ e) ∧
      ((F64.roundNE n m e = F64.inf n ∧ (2 : ℚ) ^ (1024 : Int) ≤ (t : ℚ) * (2 : ℚ) ^ q) ∨
        ∃ m1 e1, F64.roundNE n m e = F64.fin n m1 e1 ∧
          (m1 : ℚ) * (2 : ℚ) ^ e1 = (t : ℚ) * (2 : ℚ) ^ q) := by
  have hb1 := F64.ilog2_le m hm
  obtain ⟨b, hb⟩ : ∃ b : Nat, b = F64.ilog2 m := ⟨_, rfl⟩
  rw [← hb] at hb1
  obtain ⟨q, hq⟩ : ∃ q : Int, q = max (e + (F64.ilog2 m : Nat) - 52) (-1074) := ⟨_, rfl⟩
  have hq3 : q = -1074 ∨ q = e + (b : Int) - 52 := by rw [hb]; omega
  have h2 : (2 : ℚ) ≠ 0 := by norm_num
  have h12 : (1 : ℚ) ≤ 2 := by norm_num
  -- the value is at least `2 ^ (e + b)`
  have hv : (2 : ℚ) ^ (e + (b : Int)) ≤ (m : ℚ) * (2 : ℚ) ^ e := by
    rw [add_comm, zpow_add₀ h2, zpow_natCast]
    exact mul_le_mul_of_nonneg_right (by exact_mod_cast hb1) (two_zpow_pos e).le
  have hC : q = -1074 ∨ (2 : ℚ) ^ (q + 52) ≤ (m : ℚ) * (2 : ℚ) ^ e := by
    rcases hq3 with h | h
    · exact Or.inl h
    · right
      have : q + 52 = e + (b : Int) := by omega
      rw [this]; exact hv
  by_cases hqe : q ≤ e
  · -- exactly representable
    have hV : ((m * 2 ^ (e - q).toNat : Nat) : ℚ) * (2 : ℚ) ^ q = (m : ℚ) * (2 : ℚ) ^ e := by
      have := F64.cast_shift e q hqe
      push_cast at this ⊢
      rw [mul_assoc, this]
    refine ⟨m * 2 ^ (e - q).toNat, q, ?_, ?_, hC, ?_⟩
    · intro c hc
      rw [← hV, mul_le_mul_right (two_zpow_pos q)] at hc
      exact_mod_cast hc
    · intro c hc
      rw [← hV, mul_le_mul_right (two_zpow_pos q)] at hc
      exact_mod_cast hc
    · rw [roundNE_exact n m e q hm hq hqe]
      by_cases ho : q > 971
      · left
        rw [if_pos ho]
        refine ⟨rfl, ?_⟩
        rw [hV]
        refine le_trans (zpow_le_zpow_right₀ h12 ?_) hv
        omega
      · right
        rw [if_neg ho]
        exact ⟨_, _, rfl, rfl⟩
  · -- a rounding takes place
    obtain ⟨s, hs⟩ : ∃ s : Nat, s = (q - e).toNat := ⟨_, rfl⟩
    have hsz : (s : Int) = q - e := by rw [hs]; exact Int.toNat_of_nonneg (by omega)
    have hdm := Nat.div_add_mod m (2 ^ s)
    have hpos : 0 < 2 ^ s := by positivity
    obtain ⟨t1, ht1⟩ : ∃ t1 : Nat, t1 = if 2 ^ ((q - e).toNat - 1) < m % 2 ^ (q - e).toNat ∨
      (m % 2 ^ (q - e).toNat = 2 ^ ((q - e).toNat - 1) ∧ m / 2 ^ (q - e).toNat % 2 = 1)
      then m / 2 ^ (q - e).toNat + 1 else m / 2 ^ (q - e).toNat := ⟨_, rfl⟩
    have hr := roundNE_inexact n m e q hm hq hqe t1 ht1
    rw [← hs] at ht1
    have hhalf : 0 < 2 ^ (s - 1) := by positivity
    have hcase : t1 = m / 2 ^ s ∨ (t1 = m / 2 ^ s + 1 ∧ m % 2 ^ s ≠ 0) := by
      rw [ht1]
      split_ifs with hc
      · right
        refine ⟨rfl, ?_⟩
        rcases hc with hc | ⟨hc, _⟩ <;> omega
      · exact Or.inl rfl
    have hle : m / 2 ^ s ≤ t1 := by rcases hcase with h | ⟨h, _⟩ <;> omega
    refine ⟨t1, q, ?_, ?_, hC, ?_⟩
    · intro c hc
      rw [grid_le c m q e (by omega), ← hs] at hc
      exact le_trans ((Nat.le_div_iff_mul_le hpos).2 hc) hle
    · intro c hc
      rw [le_grid c m q e (by omega), ← hs] at hc
      rcases hcase with h | ⟨h, hne⟩
      · rw [h]
        exact Nat.div_le_of_le_mul (by rw [Nat.mul_comm]; exact hc)
      · rw [h]
        have : 2 ^ s * (m / 2 ^ s) < 2 ^ s * c := by
          have : 0 < m % 2 ^ s := Nat.pos_of_ne_zero hne
          rw [Nat.mul_comm (2 ^ s) c]
          omega
        exact Nat.lt_of_mul_lt_mul_left this
    · rw [hr]
      have hval : (((if t1 = 2 ^ 53 then 2 ^ 52 else t1 : Nat) : ℚ)) *
          (2 : ℚ) ^ (if t1 = 2 ^ 53 then q + 1 else q) = (t1 : ℚ) * (2 : ℚ) ^ q := by
        split_ifs with h53
        · rw [h53, zpow_add_one₀ h2]
          push_cast
          ring
        · rfl
      by_cases ho : (if t1 = 2 ^ 53 then q + 1 else q) > 971
      · left
        rw [if_pos ho]
        refine ⟨rfl, ?_⟩
        have hq971 : 971 ≤ q := by
          split_ifs at ho <;> omega
        have hqn : q = e + (b : Int) - 52 := by omega
        have hbs : b = s + 52 := by omega
        have ht52 : 2 ^ 52 ≤ m / 2 ^ s := by
          rw [Nat.le_div_iff_mul_le hpos, ← pow_add, Nat.add_comm, ← hbs]
          exact hb1
        have e53 : ((2 ^ 53 : Nat) : ℚ) = (2 : ℚ) ^ (53 : Int) := by norm_num
        have e52 : ((2 ^ 52 : Nat) : ℚ) = (2 : ℚ) ^ (52 : Int) := by norm_num
        split_ifs at ho with h53
        · rw [h53, e53, ← zpow_add₀ h2]
          exact zpow_le_zpow_right₀ h12 (by omega)
        · have h1 : (2 : ℚ) ^ (1024 : Int) ≤ ((2 ^ 52 : Nat) : ℚ) * (2 : ℚ) ^ q := by
            rw [e52, ← zpow_add₀ h2]
            exact zpow_le_zpow_right₀ h12 (by omega)
          refine le_trans h1 (mul_le_mul_of_nonneg_right ?_ (two_zpow_pos q).le)
          exact_mod_cast le_trans ht52 hle
      · right
        rw [if_neg ho]
        exact ⟨_, _, rfl, hval⟩

theorem roundNE_zero (n : Bool) (e : Int) : F64.roundNE n 0 e = F64.fin n 0 (-1074) := by
  simp [F64.roundNE]

/-- Rounding does not cross a power of two from below. -/
theorem roundNE_le_pow (n : Bool) (m : Nat) (e k : Int) (hk1 : -1074 ≤ k) (hk2 : k ≤ 1023)
    (h : (m : ℚ) * (2 : ℚ) ^ e ≤ (2 : ℚ) ^ k) :
    ∃ m1 e1, F64.roundNE n m e = F64.fin n m1 e1 ∧ (m1 : ℚ) * (2 : ℚ) ^ e1 ≤ (2 : ℚ) ^ k := by
  have h2 : (1 : ℚ) < 2 := by norm_num
  by_cases hm : m = 0
  · subst hm
    exact ⟨0, -1074, roundNE_zero n e, by simp; positivity⟩
  · obtain ⟨t, q, _, hceil, hC, hD⟩ := roundNE_val n m e hm
    have hqk : q ≤ k := by
      rcases hC with hC | hC
      · omega
      · have := (zpow_le_zpow_iff_right₀ h2).1 (le_trans hC h)
        omega
    have hgrid := F64.cast_shift k q hqk
    have ht : (t : ℚ) * (2 : ℚ) ^ q ≤ (2 : ℚ) ^ k := by
      have := hceil (2 ^ (k - q).toNat) (by rw [hgrid]; exact h)
      rw [← hgrid]
      exact mul_le_mul_of_nonneg_right (by exact_mod_cast this) (two_zpow_pos q).le
    rcases hD with ⟨_, hinf⟩ | ⟨m1, e1, hr, hv⟩
    · exfalso
      have := (zpow_le_zpow_iff_right₀ h2).1 (le_trans hinf ht)
      omega
    · exact ⟨m1, e1, hr, by rw [hv]; exact ht⟩

/-- Rounding does not cross, from above, a value `c * 2 ^ q` with `c` of at
most 53 bits. -/
theorem roundNE_ge_grid (n n1 : Bool) (m : Nat) (e : Int) (c0 : Nat) (q0 : Int) (m1 : Nat)
    (e1 : Int) (hq0 : -1074 ≤ q0) (hc : c0 ≤ 2 ^ 52)
    (h : (c0 : ℚ) * (2 : ℚ) ^ q0 ≤ (m : ℚ) * (2 : ℚ) ^ e)
    (hr : F64.roundNE n m e = F64.fin n1 m1 e1) :
    (c0 : ℚ) * (2 : ℚ) ^ q0 ≤ (m1 : ℚ) * (2 : ℚ) ^ e1 := by
  have h2 : (1 : ℚ) < 2 := by norm_num
  by_cases hm : m = 0
  · subst hm
    simp only [Nat.cast_zero, zero_mul] at h
    exact le_trans h (mul_nonneg (Nat.cast_nonneg _) (two_zpow_pos e1).le)
  · obtain ⟨t, q, hfloor, _, hC, hD⟩ := roundNE_val n m e hm
    rcases hD with ⟨hinf, _⟩ | ⟨m2, e2, hr2, hv⟩
    · rw [hinf] at hr; exact absurd hr (by simp)
    · rw [hr2] at hr
      injection hr with _ hm2 he2
      subst hm2 he2
      rw [hv]
      by_cases hqj : q ≤ q0
      · have hgrid := F64.cast_shift q0 q hqj
        have hcq : ((c0 * 2 ^ (q0 - q).toNat : Nat) : ℚ) * (2 : ℚ) ^ q =
            (c0 : ℚ) * (2 : ℚ) ^ q0 := by
          push_cast at hgrid ⊢
          rw [mul_assoc, hgrid]
        have := hfloor (c0 * 2 ^ (q0 - q).toNat) (by rw [hcq]; exact h)
        rw [← hcq]
        exact mul_le_mul_of_nonneg_right (by exact_mod_cast this) (two_zpow_pos q).le
      · rcases hC with hC | hC
        · omega
        · have h52 : ((2 ^ 52 : Nat) : ℚ) * (2 : ℚ) ^ q = (2 : ℚ) ^ (q + 52) := by
            rw [add_comm, zpow_add₀ (by norm_num : (2 : ℚ) ≠ 0)]
            norm_num
          have ht := hfloor (2 ^ 52) (by rw [h52]; exact hC)
          have hc1 : (c0 : ℚ) ≤ (t : ℚ) := by exact_mod_cast le_trans hc ht
          have hq1 : (2 : ℚ) ^ q0 ≤ (2 : ℚ) ^ q := zpow_le_zpow_right₀ h2.le (by omega)
          exact mul_le_mul hc1 hq1 (two_zpow_pos q0).le (Nat.cast_nonneg _)

theorem F64.toRat_fin_false (m : Nat) (e : Int) :
    F64.toRat (F64.fin false m e) = (m : ℚ) * (2 : ℚ) ^ e := by
  simp [F64.toRat, F64.signed]

/-- A product of two non-negative finite data stays below a power of two
that bounds the exact product. -/
theorem mul_nonnegLe (x y : F64) (a b : ℚ) (k : Int) (hk1 : -1074 ≤ k) (hk2 : k ≤ 1023)
    (hx : F64.nonnegLe x a) (hy : F64.nonnegLe y b) (hb : 0 ≤ b)
    (hab : a * b ≤ (2 : ℚ) ^ k) : F64.nonnegLe (F64.mul x y) ((2 : ℚ) ^ k) := by
  obtain ⟨m1, e1, rfl, h1⟩ := hx
  obtain ⟨m2, e2, rfl, h2⟩ := hy
  have hv : ((m1 * m2 : Nat) : ℚ) * (2 : ℚ) ^ (e1 + e2) ≤ (2 : ℚ) ^ k := by
    rw [zpow_add₀ (by norm_num : (2 : ℚ) ≠ 0)]
    push_cast
    have h3 : (0 : ℚ) ≤ (m1 : ℚ) * (2 : ℚ) ^ e1 :=
      mul_nonneg (Nat.cast_nonneg _) (two_zpow_pos e1).le
    calc (m1 : ℚ) * (m2 : ℚ) * ((2 : ℚ) ^ e1 * (2 : ℚ) ^ e2)
        = ((m1 : ℚ) * (2 : ℚ) ^ e1) * ((m2 : ℚ) * (2 : ℚ) ^ e2) := by ring
      _ ≤ ((m1 : ℚ) * (2 : ℚ) ^ e1) * b := mul_le_mul_of_nonneg_left h2 h3
      _ ≤ a * b := mul_le_mul_of_nonneg_right h1 hb
      _ ≤ (2 : ℚ) ^ k := hab
  obtain ⟨m3, e3, hr, h3⟩ := roundNE_le_pow (false != false) (m1 * m2) (e1 + e2) k hk1 hk2 hv
  exact ⟨m3, e3, by simpa [F64.mul] using hr, h3⟩

/-- A product of two non-negative finite data stays above a value
`c * 2 ^ q`, with `c` of at most 53 bits, that the exact product reaches. -/
theorem mul_ge_grid (x y : F64) (a b : ℚ) (c0 : Nat) (q0 : Int) (hi : ℚ) (hq0 : -1074 ≤ q0)
    (hc : c0 ≤ 2 ^ 52) (hx : F64.nonnegLe x (F64.toRat x)) (hy : F64.nonnegLe y (F64.toRat y))
    (ha : a ≤ F64.toRat x) (hb : b ≤ F64.toRat y) (ha0 : 0 ≤ a) (hb0 : 0 ≤ b)
    (hab : (c0 : ℚ) * (2 : ℚ) ^ q0 ≤ a * b) (hf : F64.nonnegLe (F64.mul x y) hi) :
    (c0 : ℚ) * (2 : ℚ) ^ q0 ≤ F64.toRat (F64.mul x y) := by
  obtain ⟨m1, e1, rfl, _⟩ := hx
  obtain ⟨m2, e2, rfl, _⟩ := hy
  obtain ⟨m3, e3, hr, _⟩ := hf
  rw [F64.toRat_fin_false] at ha hb
  have hv : (c0 : ℚ) * (2 : ℚ) ^ q0 ≤ ((m1 * m2 : Nat) : ℚ) * (2 : ℚ) ^ (e1 + e2) := by
    rw [zpow_add₀ (by norm_num : (2 : ℚ) ≠ 0)]
    push_cast
    calc (c0 : ℚ) * (2 : ℚ) ^ q0 ≤ a * b := hab
      _ ≤ ((m1 : ℚ) * (2 : ℚ) ^ e1) * b := mul_le_mul_of_nonneg_right ha hb0
      _ ≤ ((m1 : ℚ) * (2 : ℚ) ^ e1) * ((m2 : ℚ) * (2 : ℚ) ^ e2) :=
          mul_le_mul_of_nonneg_left hb (le_trans ha0 ha)
      _ = (m1 : ℚ) * (m2 : ℚ) * ((2 : ℚ) ^ e1 * (2 : ℚ) ^ e2) := by ring
  rw [hr, F64.toRat_fin_false]
  exact roundNE_ge_grid (false != false) false (m1 * m2) (e1 + e2) c0 q0 m3 e3 hq0 hc hv
    (by simpa [F64.mul] using hr)

/-- Go `float64(i)` of a non-negative `int` below a power of two. -/
theorem ofInt_nonnegLe (i : Int) (k : Int) (h0 : 0 ≤ i) (hk1 : -1074 ≤ k) (hk2 : k ≤ 1023)
    (h : (i : ℚ) ≤ (2 : ℚ) ^ k) : F64.nonnegLe (F64.ofInt i) ((2 : ℚ) ^ k) := by
  have hi : ((i.natAbs : Nat) : ℚ) = (i : ℚ) := by
    rw [Nat.cast_natAbs, abs_of_nonneg h0]
  have hd : decide (i < 0) = false := by simpa using h0
  obtain ⟨m1, e1, hr, hv⟩ := roundNE_le_pow false i.natAbs 0 k hk1 hk2 (by simpa [hi] using h)
  exact ⟨m1, e1, by rw [F64.ofInt, hd]; exact hr, hv⟩

/-- Go `float64(i)` of an `int` that is at least a natural number of at most
53 bits. -/
theorem ofInt_ge_nat (i : Int) (c0 : Nat) (hi : ℚ) (hc : c0 ≤ 2 ^ 52) (h : (c0 : Int) ≤ i)
    (hf : F64.nonnegLe (F64.ofInt i) hi) : (c0 : ℚ) ≤ F64.toRat (F64.ofInt i) := by
  have h0 : 0 ≤ i := le_trans (Int.natCast_nonneg _) h
  have hi : ((i.natAbs : Nat) : ℚ) = (i : ℚ) := by
    rw [Nat.cast_natAbs, abs_of_nonneg h0]
  have hq : (c0 : ℚ) ≤ (i : ℚ) := by exact_mod_cast h
  obtain ⟨m1, e1, hr, _⟩ := hf
  rw [hr, F64.toRat_fin_false]
  have := roundNE_ge_grid (decide (i < 0)) false i.natAbs 0 c0 0 m1 e1 (by norm_num) hc
    (by simpa [hi] using hq) hr
  simpa using this

/-- Go `math.Round` keeps a non-negative finite datum below a power of two. -/
theorem round_nonnegLe (x : F64) (k : Nat) (hk2 : k ≤ 1023)
    (h : F64.nonnegLe x ((2 : ℚ) ^ (k : Int))) :
    F64.nonnegLe (F64.round x) ((2 : ℚ) ^ (k : Int)) := by
  obtain ⟨m, e, rfl, hv⟩ := h
  by_cases he : 0 ≤ e
  · exact ⟨m, e, by simp [F64.round, he], hv⟩
  · have hm : m ≤ 2 ^ k * 2 ^ (-e).toNat := by
      have := (le_grid (2 ^ k) m 0 e (by omega)).1 (by simpa using hv)
      simpa using this
    have hpos : 0 < 2 ^ (-e).toNat := by positivity
    have hdm := Nat.div_add_mod m (2 ^ (-e).toNat)
    have hdiv : m / 2 ^ (-e).toNat ≤ 2 ^ k := Nat.div_le_of_le_mul (by rw [Nat.mul_comm]; exact hm)
    have hk1 : (if 2 ^ (-e).toNat ≤ 2 * (m % 2 ^ (-e).toNat) then m / 2 ^ (-e).toNat + 1
        else m / 2 ^ (-e).toNat) ≤ 2 ^ k := by
      split_ifs with hc
      · have hlt : 2 ^ (-e).toNat * (m / 2 ^ (-e).toNat) < 2 ^ (-e).toNat * 2 ^ k := by
          rw [Nat.mul_comm _ (2 ^ k)]
          omega
        have := Nat.lt_of_mul_lt_mul_left hlt
        omega
      · exact hdiv
    obtain ⟨m1, e1, hr, h1⟩ := roundNE_le_pow false _ 0 (k : Int) (by omega) (by omega)
      (show ((_ : Nat) : ℚ) * (2 : ℚ) ^ (0 : Int) ≤ (2 : ℚ) ^ (k : Int) by
        rw [zpow_zero, mul_one, zpow_natCast]
        exact_mod_cast hk1)
    exact ⟨m1, e1, by simp only [F64.round, if_neg he]; exact hr, h1⟩

/-- Go `int(x)` of a non-negative finite datum is the integer part of its value,
or `-2 ^ 63` when that does not fit. -/
theorem toInt_fin_false (m : Nat) (e : Int) :
    ∃ v : Nat, (∀ c : Nat, (c : ℚ) ≤ (m : ℚ) * (2 : ℚ) ^ e ↔ c ≤ v) ∧
      F64.toInt (F64.fin false m e) = if (v : Int) < 2 ^ 63 then (v : Int) else -(2 ^ 63) := by
  by_cases he : 0 ≤ e
  · refine ⟨m * 2 ^ e.toNat, ?_, ?_⟩
    · intro c
      have := F64.cast_shift e 0 he
      simp only [sub_zero, zpow_zero, mul_one] at this
      rw [← this]
      exact_mod_cast Iff.rfl
    · simp only [F64.toInt, F64.signed, if_pos he, Bool.false_eq_true, if_false]
      have : (-(2 : Int) ^ 63) ≤ ((m * 2 ^ e.toNat : Nat) : Int) := by
        have : (0 : Int) ≤ ((m * 2 ^ e.toNat : Nat) : Int) := Int.natCast_nonneg _
        omega
      simp only [this, true_and]
  · refine ⟨m / 2 ^ (-e).toNat, ?_, ?_⟩
    · intro c
      have hpos : 0 < 2 ^ (-e).toNat := by positivity
      rw [Nat.le_div_iff_mul_le hpos]
      have := grid_le c m 0 e (by omega)
      simpa using this
    · simp only [F64.toInt, F64.signed, if_neg he, Bool.false_eq_true, if_false]
      have : (-(2 : Int) ^ 63) ≤ ((m / 2 ^ (-e).toNat : Nat) : Int) := by
        have : (0 : Int) ≤ ((m / 2 ^ (-e).toNat : Nat) : Int) := Int.natCast_nonneg _
        omega
      simp only [this, true_and]

/-- Go `int(x)` of a non-negative finite datum bounded by an `int`. -/
theorem toInt_nonnegLe (x : F64) (hi : ℚ) (B : Int) (h : F64.nonnegLe x hi) (hB : hi ≤ (B : ℚ))
    (hB2 : B < 2 ^ 63) : 0 ≤ F64.toInt x ∧ F64.toInt x ≤ B := by
  obtain ⟨m, e, rfl, hv⟩ := h
  obtain ⟨v, hfl, ht⟩ := toInt_fin_false m e
  have hvB : (v : Int) ≤ B := by
    have h1 := (hfl v).2 le_rfl
    have : ((v : Int) : ℚ) ≤ (B : ℚ) := by
      push_cast
      exact le_trans h1 (le_trans hv hB)
    exact_mod_cast this
  rw [ht, if_pos (by omega)]
  exact ⟨Int.natCast_nonneg _, hvB⟩

/-- Go `int(x)` of a finite datum that fits is at least any natural number below
the value. -/
theorem toInt_ge (x : F64) (hi : ℚ) (B : Int) (c : Nat) (h : F64.nonnegLe x hi)
    (hB : hi ≤ (B : ℚ)) (hB2 : B < 2 ^ 63) (hc : (c : ℚ) ≤ F64.toRat x) :
    (c : Int) ≤ F64.toInt x := by
  obtain ⟨m, e, rfl, hv⟩ := h
  obtain ⟨v, hfl, ht⟩ := toInt_fin_false m e
  have hvB : (v : Int) ≤ B := by
    have h1 := (hfl v).2 le_rfl
    have : ((v : Int) : ℚ) ≤ (B : ℚ) := by
      push_cast
      exact le_trans h1 (le_trans hv hB)
    exact_mod_cast this
  rw [F64.toRat_fin_false] at hc
  rw [ht, if_pos (by omega)]
  exact_mod_cast (hfl c).1 hc

theorem toRat_c1 : F64.toRat F64.c1 = 1 := by
  simp only [F64.c1, F64.toRat, F64.signed]
  norm_num

/-- Go `math.Max(1, y)` for a non-negative finite `y`. -/
theorem max_c1_fin (m : Nat) (e : Int) :
    F64.max F64.c1 (F64.fin false m e) =
      if F64.toRat (F64.fin false m e) < 1 then F64.c1 else F64.fin false m e := by
  have h : F64.lt (F64.fin false m e) F64.c1 = true ↔ F64.toRat (F64.fin false m e) < 1 := by
    rw [← toRat_c1]
    exact F64.lt_fin_iff _ _ _ _ _ _
  simp only [F64.max, F64.c1] at h ⊢
  simp only [reduceCtorEq, or_self, if_false, h]
  norm_num

theorem max_c1_nonnegLe (y : F64) (hi : ℚ) (h : F64.nonnegLe y hi) (h1 : 1 ≤ hi) :
    F64.nonnegLe (F64.max F64.c1 y) hi := by
  obtain ⟨m, e, rfl, hv⟩ := h
  rw [max_c1_fin]
  split_ifs
  · exact ⟨2 ^ 52, -52, rfl, by norm_num; exact h1⟩
  · exact ⟨m, e, rfl, hv⟩

theorem max_c1_eq (y : F64) (hi : ℚ) (h : F64.nonnegLe y hi) (h1 : 1 ≤ F64.toRat y) :
    F64.max F64.c1 y = y := by
  obtain ⟨m, e, rfl, hv⟩ := h
  rw [max_c1_fin, if_neg (by linarith)]

theorem roundNE_sign (n : Bool) (m : Nat) (e : Int) :
    F64.roundNE n m e = F64.inf n ∨ ∃ m1 e1, F64.roundNE n m e = F64.fin n m1 e1 := by
  unfold F64.roundNE
  simp only
  split_ifs <;> simp

theorem F64.roundNE_ne_nan (n : Bool) (m : Nat) (e : Int) : F64.roundNE n m e ≠ F64.nan := by
  rcases roundNE_sign n m e with h | ⟨m1, e1, h⟩ <;> rw [h] <;> simp

theorem F64.add_fin_ne_nan (x : F64) (n : Bool) (m : Nat) (e : Int) (hx : x ≠ F64.nan) :
    F64.add x (F64.fin n m e) ≠ F64.nan := by
  cases x with
  | nan => exact absurd rfl hx
  | inf a => simp [F64.add]
  | fin n1 m1 e1 =>
    simp only [F64.add]
    split_ifs
    · simp
    · exact F64.roundNE_ne_nan _ _ _

/-- Go `math.Max(1.3, y)` for a finite `y`. -/
theorem max_c1_3_fin (n : Bool) (m : Nat) (e : Int) :
    F64.max F64.c1_3 (F64.fin n m e) =
      if F64.toRat (F64.fin n m e) < F64.toRat F64.c1_3 then F64.c1_3 else F64.fin n m e := by
  have h := F64.lt_fin_iff n m e false 5854679515581645 (-52)
  simp only [F64.max, F64.c1_3] at h ⊢
  simp only [reduceCtorEq, or_self, if_false, OfNat.ofNat_ne_zero, false_and, h]

theorem max_c1_3_inf_true : F64.max F64.c1_3 (F64.inf true) = F64.c1_3 := by
  simp [F64.max, F64.c1_3, F64.lt]

theorem toRat_c1_3_pos : 0 < F64.toRat F64.c1_3 := by
  simp only [F64.c1_3, F64.toRat, F64.signed]
  norm_num

/-- The result of `math.Max(1.3, y)` compares `>= 1.3` unless `y` is NaN. -/
theorem F64.le_max_c1_3 (y : F64) (hy : y ≠ F64.nan) :
    F64.le F64.c1_3 (F64.max F64.c1_3 y) = true := by
  have hc : F64.le F64.c1_3 F64.c1_3 = true := by decide
  cases y with
  | nan => exact absurd rfl hy
  | inf a =>
    cases a
    · simp [F64.max, F64.le, F64.c1_3]
    · rw [max_c1_3_inf_true]; exact hc
  | fin n m e =>
    rw [max_c1_3_fin]
    split_ifs with h
    · exact hc
    · have h1 := (F64.le_fin_iff false 5854679515581645 (-52) n m e).2
      exact h1 (not_lt.1 h)

set_option maxRecDepth 100000 in
set_option exponentiation.threshold 2100 in
/-- The increment added to the ease factor is a finite datum of value at
most 1. -/
theorem newEF_eq_add (ef : F64) (rating : Rating) :
    ∃ n m e, newEF ef rating = F64.add ef (F64.fin n m e) ∧ F64.toRat (F64.fin n m e) ≤ 1 := by
  unfold newEF quality
  split_ifs
  · exact ⟨true, 7205759403792793, -53, by rfl, by simp only [F64.toRat, F64.signed]; norm_num⟩
  · exact ⟨true, 5764607523034236, -54, by rfl, by simp only [F64.toRat, F64.signed]; norm_num⟩
  · exact ⟨true, 5044031582654955, -55, by rfl, by simp only [F64.toRat, F64.signed]; norm_num⟩
  · exact ⟨false, 7205759403792794, -56, by rfl, by simp only [F64.toRat, F64.signed]; norm_num⟩
  · exact ⟨true, 7205759403792793, -53, by rfl, by simp only [F64.toRat, F64.signed]; norm_num⟩

theorem c1_3_nonnegLe (hi : ℚ) (h : 2 ≤ hi) : F64.nonnegLe F64.c1_3 hi :=
  ⟨5854679515581645, -52, rfl, le_trans (by norm_num) h⟩

/-- Go `math.Max(1.3, y)` is a non-negative finite datum below `hi` when `y` is
negative or below `hi`. -/
theorem max_c1_3_nonnegLe (y : F64) (hi : ℚ) (h2 : 2 ≤ hi)
    (h : y = F64.inf true ∨ (∃ n m e, y = F64.fin n m e ∧ F64.toRat y ≤ 0) ∨ F64.nonnegLe y hi) :
    F64.nonnegLe (F64.max F64.c1_3 y) hi := by
  rcases h with rfl | ⟨n, m, e, rfl, hy⟩ | ⟨m, e, rfl, hy⟩
  · rw [max_c1_3_inf_true]; exact c1_3_nonnegLe hi h2
  · rw [max_c1_3_fin, if_pos (lt_of_le_of_lt hy toRat_c1_3_pos)]
    exact c1_3_nonnegLe hi h2
  · rw [max_c1_3_fin]
    split_ifs
    · exact c1_3_nonnegLe hi h2
    · exact ⟨m, e, rfl, hy⟩

/-- The exact sum computed by `add` before rounding. -/
theorem add_exact (n1 : Bool) (m1 : Nat) (e1 : Int) (n2 : Bool) (m2 : Nat) (e2 : Int) :
    (((F64.signed n1 (m1 * 2 ^ (e1 - min e1 e2).toNat) +
        F64.signed n2 (m2 * 2 ^ (e2 - min e1 e2).toNat) : Int)) : ℚ) * (2 : ℚ) ^ (min e1 e2) =
      F64.toRat (F64.fin n1 m1 e1) + F64.toRat (F64.fin n2 m2 e2) := by
  rw [← F64.aligned_val n1 m1 e1 (min e1 e2) (min_le_left _ _),
    ← F64.aligned_val n2 m2 e2 (min e1 e2) (min_le_right _ _)]
  push_cast
  ring

/-- The new ease factor of a state whose ease factor is at most `2 ^ 51` is
a finite datum in `[0, 2 ^ 52]`. -/
theorem ease_nonnegLe (ef : F64) (rating : Rating)
    (h : F64.le ef (F64.fin false (2 ^ 52) (-1)) = true) :
    F64.nonnegLe (F64.max F64.c1_3 (newEF ef rating)) ((2 : ℚ) ^ (52 : Int)) := by
  obtain ⟨n2, m2, e2, hadd, hd⟩ := newEF_eq_add ef rating
  rw [hadd]
  apply max_c1_3_nonnegLe _ _ (by norm_num)
  cases ef with
  | nan => simp [F64.le] at h
  | inf a =>
    have ha : a = true := by simpa [F64.le] using h
    subst ha
    left; rfl
  | fin n1 m1 e1 =>
    have hef : F64.toRat (F64.fin n1 m1 e1) ≤ (2 : ℚ) ^ (51 : Int) := by
      have := (F64.le_fin_iff _ _ _ _ _ _).1 h
      refine le_trans this ?_
      simp only [F64.toRat, F64.signed]
      norm_num
    have hex := add_exact n1 m1 e1 n2 m2 e2
    simp only [F64.add]
    split_ifs with hs
    · right; left
      exact ⟨_, _, _, rfl, by simp [F64.toRat, F64.signed]⟩
    · by_cases hneg : F64.signed n1 (m1 * 2 ^ (e1 - min e1 e2).toNat) +
          F64.signed n2 (m2 * 2 ^ (e2 - min e1 e2).toNat) < 0
      · rw [decide_eq_true hneg]
        rcases roundNE_sign true (F64.signed n1 (m1 * 2 ^ (e1 - min e1 e2).toNat) +
          F64.signed n2 (m2 * 2 ^ (e2 - min e1 e2).toNat)).natAbs (min e1 e2) with hr | ⟨m3, e3, hr⟩
        · left; exact hr
        · right; left
          refine ⟨true, m3, e3, hr, ?_⟩
          rw [hr]
          simp only [F64.toRat, F64.signed, if_true]
          have : (0 : ℚ) ≤ (m3 : ℚ) * (2 : ℚ) ^ e3 :=
            mul_nonneg (Nat.cast_nonneg _) (two_zpow_pos e3).le
          push_cast
          linarith
      · rw [decide_eq_false hneg]
        right; right
        apply roundNE_le_pow false _ _ 52 (by norm_num) (by norm_num)
        rw [Nat.cast_natAbs, abs_of_nonneg (not_lt.1 hneg), hex]
        have : (2 : ℚ) ^ (52 : Int) = (2 : ℚ) ^ (51 : Int) + (2 : ℚ) ^ (51 : Int) := by norm_num
        have h1 : (1 : ℚ) ≤ (2 : ℚ) ^ (51 : Int) := by norm_num
        linarith

/-- The decimal constants of `sm2.go` are represented by the nearest
`float64`, in canonical form. -/
theorem constants_nearest :
    (F64.nearest F64.c0_1 (1 / 10) ∧ F64.nearest F64.c0_08 (8 / 100) ∧
      F64.nearest F64.c0_02 (2 / 100) ∧ F64.nearest F64.c1_3 (13 / 10) ∧
      F64.nearest F64.c0_8 (8 / 10)) ∧
    (F64.toRat F64.c5 = 5 ∧ F64.toRat F64.c3 = 3 ∧ F64.toRat F64.c2 = 2 ∧
      F64.toRat F64.c1 = 1 ∧ F64.toRat F64.c0 = 0 ∧ F64.toRat F64.c2_5 = 5 / 2) ∧
    ∀ c ∈ [F64.c0_1, F64.c0_08, F64.c0_02, F64.c1_3, F64.c0_8, F64.c5, F64.c3, F64.c2, F64.c1,
      F64.c0, F64.c2_5], F64.canonical c = true := by
  refine ⟨⟨?_, ?_, ?_, ?_, ?_⟩, ⟨?_, ?_, ?_, ?_, ?_, ?_⟩, by decide⟩
  all_goals
    simp only [F64.nearest, F64.c0_1, F64.c0_08, F64.c0_02, F64.c1_3, F64.c0_8, F64.c5, F64.c3,
      F64.c2, F64.c1, F64.c0, F64.c2_5, F64.toRat, F64.signed]
    norm_num [abs_le]

/-! ## C1: the ease-factor floor -/

/-- C1 (as amended): for every card state whose ease factor is not NaN and
every rating, the ease factor returned by `CalculateNextReview` compares
`>= 1.3`. -/
theorem C1_ease_factor_floor (card : CardState) (rating : Rating)
    (hn : card.EaseFactor ≠ F64.nan) :
    F64.le F64.c1_3 (CalculateNextReview card rating).EaseFactor = true := by
  obtain ⟨n, m, e, h, _⟩ := newEF_eq_add card.EaseFactor rating
  have hne : newEF card.EaseFactor rating ≠ F64.nan := by
    rw [h]
    exact F64.add_fin_ne_nan _ _ _ _ hn
  exact F64.le_max_c1_3 _ hne

set_option maxRecDepth 100000 in
set_option exponentiation.threshold 2100 in
/-- C1, witness: the default state reviewed as `Good`. -/
theorem C1_ease_factor_floor_witness :
    DefaultCardState.EaseFactor ≠ F64.nan ∧
      F64.le F64.c1_3 (CalculateNextReview DefaultCardState Good).EaseFactor = true :=
  ⟨by decide, C1_ease_factor_floor DefaultCardState Good (by decide)⟩

set_option maxRecDepth 100000 in
set_option exponentiation.threshold 2100 in
/-- C1, counterexample: a NaN ease factor is returned as NaN, and NaN does
not compare `>= 1.3`. -/
theorem C1_nan_counterexample :
    (CalculateNextReview { EaseFactor := F64.nan, Interval := 0, Repetitions := 0 }
        Good).EaseFactor = F64.nan ∧
      ¬ F64.le F64.c1_3
        (CalculateNextReview { EaseFactor := F64.nan, Interval := 0, Repetitions := 0 }
          Good).EaseFactor = true := by
  decide

/-! ## C2: the interval range -/

theorem c0_8_nonnegLe : F64.nonnegLe F64.c0_8 1 :=
  ⟨7205759403792794, -53, rfl, by norm_num⟩

/-- The interval before the rating modifiers lies in `[0, 2 ^ 61]` when the
prior interval lies in `[0, 365]` and the new ease factor in `[0, 2 ^ 52]`. -/
theorem baseInterval_range (reps interval : Int) (ef : F64) (h0 : 0 ≤ interval)
    (h1 : interval ≤ 365) (hef : F64.nonnegLe ef ((2 : ℚ) ^ (52 : Int))) :
    0 ≤ baseInterval reps interval ef ∧ baseInterval reps interval ef ≤ 2 ^ 61 := by
  unfold baseInterval
  split_ifs
  · norm_num
  · norm_num
  · have hi : F64.nonnegLe (F64.ofInt interval) ((2 : ℚ) ^ (9 : Int)) :=
      ofInt_nonnegLe interval 9 h0 (by norm_num) (by norm_num) (by
        have : (interval : ℚ) ≤ 365 := by exact_mod_cast h1
        norm_num
        linarith)
    have hm := mul_nonnegLe _ _ _ _ 61 (by norm_num) (by norm_num) hi hef (by positivity)
      (by norm_num)
    have hr := round_nonnegLe _ 61 (by norm_num) hm
    exact toInt_nonnegLe _ _ (2 ^ 61) hr (by norm_num) (by norm_num)

/-- The rating modifiers keep a base interval in `[0, 2 ^ 61]`
non-negative. -/
theorem modifiers_nonneg (base : Int) (h0 : 0 ≤ base) (h1 : base ≤ 2 ^ 61) :
    0 ≤ F64.toInt (F64.max F64.c1 (F64.mul (F64.ofInt base) F64.c0_8)) ∧
      0 ≤ F64.toInt (F64.mul (F64.ofInt base) F64.c1_3) := by
  have hb : F64.nonnegLe (F64.ofInt base) ((2 : ℚ) ^ (61 : Int)) :=
    ofInt_nonnegLe base 61 h0 (by norm_num) (by norm_num) (by
      have : (base : ℚ) ≤ ((2 ^ 61 : Int) : ℚ) := by exact_mod_cast h1
      norm_num at this ⊢
      exact this)
  constructor
  · have hm := mul_nonnegLe _ _ _ _ 61 (by norm_num) (by norm_num) hb c0_8_nonnegLe
      (by norm_num) (by norm_num)
    have hx := max_c1_nonnegLe _ _ hm (by norm_num)
    exact (toInt_nonnegLe _ _ (2 ^ 61) hx (by norm_num) (by norm_num)).1
  · have hm := mul_nonnegLe _ _ _ _ 62 (by norm_num) (by norm_num) hb (c1_3_nonnegLe 2 le_rfl)
      (by norm_num) (by norm_num)
    exact (toInt_nonnegLe _ _ (2 ^ 62) hm (by norm_num) (by norm_num)).1

/-- C2 (as amended): for every card state with ease factor at most `2 ^ 51`
(so not NaN) and `0 <= interval <= 365`, whatever its repetitions, and every
rating, the interval returned by `CalculateNextReview` satisfies
`0 <= interval <= 365`. -/
theorem C2_interval_range (card : CardState) (rating : Rating)
    (hef : F64.le card.EaseFactor (F64.fin false (2 ^ 52) (-1)) = true)
    (h0 : 0 ≤ card.Interval) (h1 : card.Interval ≤ 365) :
    0 ≤ (CalculateNextReview card rating).Interval ∧
      (CalculateNextReview card rating).Interval ≤ 365 := by
  have he := ease_nonnegLe card.EaseFactor rating hef
  have hb := baseInterval_range
    (if rating = Again then 0 else wrap64 (card.Repetitions + 1)) card.Interval _ h0 h1 he
  have hm := modifiers_nonneg _ hb.1 hb.2
  simp only [CalculateNextReview]
  by_cases hA : rating = Again
  · simp [hA]
  · simp only [if_neg hA] at hb hm ⊢
    constructor
    · split_ifs <;> omega
    · split_ifs <;> omega

set_option maxRecDepth 100000 in
set_option exponentiation.threshold 2100 in
/-- C2, witness: the state `{2.5, 6, 2}` reviewed as `Easy`. -/
theorem C2_interval_range_witness :
    F64.le F64.c2_5 (F64.fin false (2 ^ 52) (-1)) = true ∧ (0 : Int) ≤ 6 ∧ (6 : Int) ≤ 365 ∧
      0 ≤ (CalculateNextReview { EaseFactor := F64.c2_5, Interval := 6, Repetitions := 2 }
        Easy).Interval ∧
      (CalculateNextReview { EaseFactor := F64.c2_5, Interval := 6, Repetitions := 2 }
        Easy).Interval ≤ 365 :=
  ⟨by decide, by decide, by decide,
    C2_interval_range { EaseFactor := F64.c2_5, Interval := 6, Repetitions := 2 } Easy
      (by decide) (by decide) (by decide)⟩

set_option maxRecDepth 100000 in
set_option exponentiation.threshold 2100 in
/-- C2, counterexample: the valid state with ease factor `2 ^ 63`, interval 1
and 2 repetitions, reviewed as `Good`, gets the interval `-2 ^ 63`: the
product `1 * 2 ^ 63` does not fit an `int`. -/
theorem C2_overflow_counterexample :
    F64.canonical (F64.fin false (2 ^ 52) 11) = true ∧
      F64.le F64.c1_3 (F64.fin false (2 ^ 52) 11) = true ∧
      (CalculateNextReview
        { EaseFactor := F64.fin false (2 ^ 52) 11, Interval := 1, Repetitions := 2 }
        Good).Interval = -(2 ^ 63) ∧
      ¬ 0 ≤ (CalculateNextReview
        { EaseFactor := F64.fin false (2 ^ 52) 11, Interval := 1, Repetitions := 2 }
        Good).Interval := by
  decide

/-! ## C3: `Again` -/

/-- C3: for every card state, `CalculateNextReview card Again` has
`Repetitions = 0` and `Interval = 1`. -/
theorem C3_again_resets (card : CardState) :
    (CalculateNextReview card Again).Repetitions = 0 ∧
      (CalculateNextReview card Again).Interval = 1 := by
  simp [CalculateNextReview]

/-! ## C4: the ease-factor formula -/

set_option maxRecDepth 100000 in
set_option exponentiation.threshold 2100 in
/-- C4 (as amended): for every card state with ease factor `ef`, the new ease
factor is the `float64` evaluation of
`max(1.3, ef + (0.1 - (5 - q) * (0.08 + (5 - q) * 0.02)))` with `q` equal to
0, 2, 3, 5 for `Again`, `Hard`, `Good`, `Easy`; the unclamped changes are the
`float64` values -0.7999999999999999, -0.32000000000000006,
-0.13999999999999999 and 0.1, each within `2 ^ -53` of -0.8, -0.32, -0.14 and
0.1; for `ef = 2.5` and `Again` the result is 1.7000000000000002. -/
theorem C4_ease_factor_formula (card : CardState) :
    ((CalculateNextReview card Again).EaseFactor =
        F64.max F64.c1_3 (F64.add card.EaseFactor (specEaseChange F64.c0)) ∧
      (CalculateNextReview card Hard).EaseFactor =
        F64.max F64.c1_3 (F64.add card.EaseFactor (specEaseChange F64.c2)) ∧
      (CalculateNextReview card Good).EaseFactor =
        F64.max F64.c1_3 (F64.add card.EaseFactor (specEaseChange F64.c3)) ∧
      (CalculateNextReview card Easy).EaseFactor =
        F64.max F64.c1_3 (F64.add card.EaseFactor (specEaseChange F64.c5))) ∧
    (specEaseChange F64.c0 = F64.fin true 7205759403792793 (-53) ∧
      specEaseChange F64.c2 = F64.fin true 5764607523034236 (-54) ∧
      specEaseChange F64.c3 = F64.fin true 5044031582654955 (-55) ∧
      specEaseChange F64.c5 = F64.fin false 7205759403792794 (-56)) ∧
    (|F64.toRat (specEaseChange F64.c0) - (-8 / 10)| ≤ 1 / 2 ^ 53 ∧
      |F64.toRat (specEaseChange F64.c2) - (-32 / 100)| ≤ 1 / 2 ^ 53 ∧
      |F64.toRat (specEaseChange F64.c3) - (-14 / 100)| ≤ 1 / 2 ^ 53 ∧
      |F64.toRat (specEaseChange F64.c5) - 1 / 10| ≤ 1 / 2 ^ 53) ∧
    (CalculateNextReview { EaseFactor := F64.c2_5, Interval := 6, Repetitions := 2 }
        Again).EaseFactor = F64.fin false 7656119366529844 (-52) := by
  have h0 : specEaseChange F64.c0 = F64.fin true 7205759403792793 (-53) := by decide
  have h2 : specEaseChange F64.c2 = F64.fin true 5764607523034236 (-54) := by decide
  have h3 : specEaseChange F64.c3 = F64.fin true 5044031582654955 (-55) := by decide
  have h5 : specEaseChange F64.c5 = F64.fin false 7205759403792794 (-56) := by decide
  refine ⟨⟨rfl, rfl, rfl, rfl⟩, ⟨h0, h2, h3, h5⟩, ⟨?_, ?_, ?_, ?_⟩, by decide⟩
  · rw [h0]; simp only [F64.toRat, F64.signed]; norm_num [abs_le]
  · rw [h2]; simp only [F64.toRat, F64.signed]; norm_num [abs_le]
  · rw [h3]; simp only [F64.toRat, F64.signed]; norm_num [abs_le]
  · rw [h5]; simp only [F64.toRat, F64.signed]; norm_num [abs_le]

set_option maxRecDepth 100000 in
set_option exponentiation.threshold 2100 in
/-- C4, counterexample: for `ef = 2.5` and `Again` the new ease factor is
neither the `float64` nearest to 1.7 nor of exact value 1.7. -/
theorem C4_scenario_B_counterexample :
    F64.nearest F64.c1_7 (17 / 10) ∧
      (CalculateNextReview { EaseFactor := F64.c2_5, Interval := 6, Repetitions := 2 }
        Again).EaseFactor ≠ F64.c1_7 ∧
      F64.toRat (CalculateNextReview { EaseFactor := F64.c2_5, Interval := 6, Repetitions := 2 }
        Again).EaseFactor ≠ 17 / 10 := by
  have h : (CalculateNextReview { EaseFactor := F64.c2_5, Interval := 6, Repetitions := 2 }
      Again).EaseFactor = F64.fin false 7656119366529844 (-52) := by decide
  refine ⟨?_, ?_, ?_⟩
  · simp only [F64.nearest, F64.c1_7, F64.toRat, F64.signed]; norm_num [abs_le]
  · rw [h]; decide
  · rw [h]; simp only [F64.toRat, F64.signed]; norm_num

/-! ## C5: `Good` -/

theorem wrap64_eq_self (x : Int) (h1 : -(2 ^ 63) ≤ x) (h2 : x < 2 ^ 63) : wrap64 x = x := by
  unfold wrap64
  rw [Int.emod_eq_of_lt (by omega) (by omega)]
  omega

/-- C5 (as amended): for every card state whose repetition count is an `int`
other than the largest one, rating `Good` returns `Repetitions` = prior + 1 and
an interval that is 1 when the new count is 1, 6 when it is 2, and
`min(365, int(math.Round(float64(prior interval) * new ease factor)))` when it
is 3 or more. -/
theorem C5_good_step (card : CardState) (h1 : -(2 ^ 63) ≤ card.Repetitions)
    (h2 : card.Repetitions < 2 ^ 63 - 1) :
    (CalculateNextReview card Good).Repetitions = card.Repetitions + 1 ∧
      ((CalculateNextReview card Good).Repetitions = 1 →
        (CalculateNextReview card Good).Interval = 1) ∧
      ((CalculateNextReview card Good).Repetitions = 2 →
        (CalculateNextReview card Good).Interval = 6) ∧
      (3 ≤ (CalculateNextReview card Good).Repetitions →
        (CalculateNextReview card Good).Interval =
          min 365 (F64.toInt (F64.round (F64.mul (F64.ofInt card.Interval)
            (CalculateNextReview card Good).EaseFactor)))) := by
  have hw : wrap64 (card.Repetitions + 1) = card.Repetitions + 1 :=
    wrap64_eq_self _ (by omega) (by omega)
  have hg : (Good = Again) = False := by simp [Good, Again]
  have hh : (Good = Hard) = False := by simp [Good, Hard]
  have he : (Good = Easy) = False := by simp [Good, Easy]
  simp only [CalculateNextReview, baseInterval, hg, hh, he, if_false, hw]
  refine ⟨trivial, ?_, ?_, ?_⟩
  · intro h; simp [h]
  · intro h; simp [h]
  · intro h
    rw [min_def]
    split_ifs <;> omega

set_option maxRecDepth 100000 in
set_option exponentiation.threshold 2100 in
/-- C5, witness: the state `{2.5, 6, 2}` gets 3 repetitions and the interval
`round(6 * 2.36) = 14`. -/
theorem C5_good_step_witness :
    (-(2 ^ 63) : Int) ≤ 2 ∧ (2 : Int) < 2 ^ 63 - 1 ∧
      (CalculateNextReview { EaseFactor := F64.c2_5, Interval := 6, Repetitions := 2 }
        Good).Repetitions = 2 + 1 ∧
      (CalculateNextReview { EaseFactor := F64.c2_5, Interval := 6, Repetitions := 2 }
        Good).Interval = 14 :=
  ⟨by decide, by decide,
    (C5_good_step { EaseFactor := F64.c2_5, Interval := 6, Repetitions := 2 }
      (by decide) (by decide)).1, by decide⟩

set_option maxRecDepth 100000 in
set_option exponentiation.threshold 2100 in
/-- C5, counterexample: at the largest `int` the increment wraps around. -/
theorem C5_wrap_counterexample :
    (CalculateNextReview { EaseFactor := F64.c2_5, Interval := 6, Repetitions := 2 ^ 63 - 1 }
        Good).Repetitions = -(2 ^ 63) ∧
      (CalculateNextReview { EaseFactor := F64.c2_5, Interval := 6, Repetitions := 2 ^ 63 - 1 }
        Good).Repetitions ≠ (2 ^ 63 - 1) + 1 := by
  decide

/-! ## C6: the rating modifiers -/

theorem nonnegLe_self (x : F64) (hi : ℚ) (h : F64.nonnegLe x hi) :
    F64.nonnegLe x (F64.toRat x) := by
  obtain ⟨m, e, rfl, _⟩ := h
  exact ⟨m, e, rfl, by rw [F64.toRat_fin_false]⟩

set_option maxRecDepth 1000000 in
set_option exponentiation.threshold 2100 in
set_option maxHeartbeats 4000000 in
/-- The `Hard` modifier on the base intervals below 458, by evaluation. -/
theorem hard_small : ∀ n : Fin 458,
    F64.toInt (F64.max F64.c1 (F64.mul (F64.ofInt ((n : Nat) : Int)) F64.c0_8)) =
      max 1 (((n : Nat) : Int) * 4 / 5) := by
  decide!

set_option maxRecDepth 1000000 in
set_option exponentiation.threshold 2100 in
set_option maxHeartbeats 4000000 in
/-- The `Easy` modifier on the base intervals below 282, by evaluation. -/
theorem easy_small : ∀ n : Fin 282,
    F64.toInt (F64.mul (F64.ofInt ((n : Nat) : Int)) F64.c1_3) = ((n : Nat) : Int) * 13 / 10 := by
  decide!

theorem ofInt_le_2_61 (b : Int) (h0 : 0 ≤ b) (h1 : b ≤ 2 ^ 61) :
    F64.nonnegLe (F64.ofInt b) ((2 : ℚ) ^ (61 : Int)) :=
  ofInt_nonnegLe b 61 h0 (by norm_num) (by norm_num) (by
    have : (b : ℚ) ≤ ((2 ^ 61 : Int) : ℚ) := by exact_mod_cast h1
    norm_num at this ⊢
    exact this)

/-- From 458 on the `Hard` interval exceeds the cap. -/
theorem hard_large (b : Int) (h0 : 458 ≤ b) (h1 : b ≤ 2 ^ 61) :
    366 ≤ F64.toInt (F64.max F64.c1 (F64.mul (F64.ofInt b) F64.c0_8)) := by
  have hb := ofInt_le_2_61 b (by omega) h1
  have hlow := ofInt_ge_nat b 458 _ (by norm_num) (by exact_mod_cast h0) hb
  have hm := mul_nonnegLe _ _ _ _ 61 (by norm_num) (by norm_num) hb c0_8_nonnegLe
    (by norm_num) (by norm_num)
  have hg := mul_ge_grid (F64.ofInt b) F64.c0_8 458 (4 / 5) 366 0 _ (by norm_num) (by norm_num)
    (nonnegLe_self _ _ hb) (nonnegLe_self _ _ c0_8_nonnegLe) (by exact_mod_cast hlow)
    (by simp only [F64.c0_8, F64.toRat, F64.signed]; norm_num) (by norm_num) (by norm_num)
    (by norm_num) hm
  have hg1 : (366 : ℚ) ≤ F64.toRat (F64.mul (F64.ofInt b) F64.c0_8) := by simpa using hg
  rw [max_c1_eq _ _ hm (le_trans (by norm_num) hg1)]
  have := toInt_ge _ _ (2 ^ 61) 366 hm (by norm_num) (by norm_num) (by exact_mod_cast hg1)
  exact_mod_cast this

/-- From 282 on the `Easy` interval exceeds the cap. -/
theorem easy_large (b : Int) (h0 : 282 ≤ b) (h1 : b ≤ 2 ^ 61) :
    366 ≤ F64.toInt (F64.mul (F64.ofInt b) F64.c1_3) := by
  have hb := ofInt_le_2_61 b (by omega) h1
  have hlow := ofInt_ge_nat b 282 _ (by norm_num) (by exact_mod_cast h0) hb
  have hm := mul_nonnegLe _ _ _ _ 62 (by norm_num) (by norm_num) hb (c1_3_nonnegLe 2 le_rfl)
    (by norm_num) (by norm_num)
  have hg := mul_ge_grid (F64.ofInt b) F64.c1_3 282 (13 / 10) 366 0 _ (by norm_num)
    (by norm_num) (nonnegLe_self _ _ hb) (nonnegLe_self _ _ (c1_3_nonnegLe 2 le_rfl))
    (by exact_mod_cast hlow)
    (by simp only [F64.c1_3, F64.toRat, F64.signed]; norm_num) (by norm_num) (by norm_num)
    (by norm_num) hm
  have hg1 : (366 : ℚ) ≤ F64.toRat (F64.mul (F64.ofInt b) F64.c1_3) := by simpa using hg
  have := toInt_ge _ _ (2 ^ 62) 366 hm (by norm_num) (by norm_num) (by exact_mod_cast hg1)
  exact_mod_cast this

/-- The capped `Hard` and `Easy` intervals, in integer arithmetic, of a base
interval in `[0, 2 ^ 61]`. -/
theorem modifiers_exact (b : Int) (h0 : 0 ≤ b) (h1 : b ≤ 2 ^ 61) :
    (if F64.toInt (F64.max F64.c1 (F64.mul (F64.ofInt b) F64.c0_8)) > 365 then 365
      else F64.toInt (F64.max F64.c1 (F64.mul (F64.ofInt b) F64.c0_8))) =
        min 365 (max 1 (b * 4 / 5)) ∧
    (if F64.toInt (F64.mul (F64.ofInt b) F64.c1_3) > 365 then 365
      else F64.toInt (F64.mul (F64.ofInt b) F64.c1_3)) = min 365 (b * 13 / 10) := by
  constructor
  · by_cases hs : b < 458
    · obtain ⟨n, rfl⟩ := Int.eq_ofNat_of_zero_le h0
      have hn : n < 458 := by omega
      have := hard_small ⟨n, hn⟩
      simp only at this
      rw [this]
      split_ifs <;> omega
    · have := hard_large b (by omega) h1
      rw [if_pos (by omega)]; omega
  · by_cases hs : b < 282
    · obtain ⟨n, rfl⟩ := Int.eq_ofNat_of_zero_le h0
      have hn : n < 282 := by omega
      have := easy_small ⟨n, hn⟩
      simp only at this
      rw [this]
      split_ifs <;> omega
    · have := easy_large b (by omega) h1
      rw [if_pos (by omega)]; omega

set_option maxRecDepth 100000 in
set_option exponentiation.threshold 2100 in
/-- C6 (as amended): for every card state whose repetition-count interval
`base` (1, 6, or `int(math.Round(float64(prior interval) * new ease factor))`,
as the code computes it) lies in `[0, 2 ^ 61]`, rating `Hard` returns the
interval `min(365, max(1, floor(base * 4 / 5)))` and rating `Easy` returns
`min(365, floor(base * 13 / 10))`; a card with `Repetitions = 1` gets interval
4 on `Hard` and 7 on `Easy`; and `base` lies in `[0, 2 ^ 61]` whenever the
state has `0 <= interval <= 365` and an ease factor of at most `2 ^ 51`. -/
theorem C6_rating_modifiers (card : CardState) (base : Int) (h0 : 0 ≤ base)
    (h1 : base ≤ 2 ^ 61) :
    (base = baseInterval (CalculateNextReview card Hard).Repetitions card.Interval
        (CalculateNextReview card Hard).EaseFactor →
      (CalculateNextReview card Hard).Interval = min 365 (max 1 (base * 4 / 5))) ∧
    (base = baseInterval (CalculateNextReview card Easy).Repetitions card.Interval
        (CalculateNextReview card Easy).EaseFactor →
      (CalculateNextReview card Easy).Interval = min 365 (base * 13 / 10)) ∧
    (card.Repetitions = 1 →
      (CalculateNextReview card Hard).Interval = 4 ∧
        (CalculateNextReview card Easy).Interval = 7) ∧
    (∀ rating : Rating, F64.le card.EaseFactor (F64.fin false (2 ^ 52) (-1)) = true →
      0 ≤ card.Interval → card.Interval ≤ 365 →
      0 ≤ baseInterval (CalculateNextReview card rating).Repetitions card.Interval
          (CalculateNextReview card rating).EaseFactor ∧
        baseInterval (CalculateNextReview card rating).Repetitions card.Interval
          (CalculateNextReview card rating).EaseFactor ≤ 2 ^ 61) := by
  have hH : (Hard = Again) = False := by simp [Hard, Again]
  have hE : (Easy = Again) = False := by simp [Easy, Again]
  have hEH : (Easy = Hard) = False := by simp [Easy, Hard]
  obtain ⟨hh, he⟩ := modifiers_exact base h0 h1
  refine ⟨?_, ?_, ?_, ?_⟩
  · intro hb
    simp only [CalculateNextReview, hH, if_false, if_true] at hb ⊢
    rw [← hb]
    exact hh
  · intro hb
    simp only [CalculateNextReview, hE, hEH, if_false, if_true] at hb ⊢
    rw [← hb]
    exact he
  · intro hr
    have hw : wrap64 (card.Repetitions + 1) = 2 := by rw [hr]; decide
    simp only [CalculateNextReview, hH, hE, hEH, if_false, if_true, hw, baseInterval]
    decide
  · intro rating hef hi0 hi1
    exact baseInterval_range _ _ _ hi0 hi1 (ease_nonnegLe _ rating hef)

set_option maxRecDepth 100000 in
set_option exponentiation.threshold 2100 in
/-- C6, witness: the state `{2.5, 6, 2}`, whose base interval on `Hard` is
13. -/
theorem C6_rating_modifiers_witness :
    (0 : Int) ≤ 13 ∧ (13 : Int) ≤ 2 ^ 61 ∧
      (CalculateNextReview { EaseFactor := F64.c2_5, Interval := 6, Repetitions := 2 }
        Hard).Interval = 10 :=
  ⟨by decide, by decide,
    (C6_rating_modifiers { EaseFactor := F64.c2_5, Interval := 6, Repetitions := 2 } 13
      (by decide) (by decide)).1 (by decide)⟩

set_option maxRecDepth 100000 in
set_option exponentiation.threshold 2100 in
/-- C6, counterexample: the state with ease factor `2 ^ 63`, interval 1 and
5 repetitions has the base interval `round(1 * 2 ^ 63) = 2 ^ 63`, for which
the claim gives `min(365, floor(2 ^ 63 * 1.3)) = 365` on `Easy`; the code
returns `-2 ^ 63` (which is not what the formula gives for the converted base
`-2 ^ 63` either). -/
theorem C6_overflow_counterexample :
    (CalculateNextReview
        { EaseFactor := F64.fin false (2 ^ 52) 11, Interval := 1, Repetitions := 5 }
        Easy).EaseFactor = F64.fin false (2 ^ 52) 11 ∧
      F64.round (F64.mul (F64.ofInt 1) (F64.fin false (2 ^ 52) 11)) = F64.fin false (2 ^ 52) 11 ∧
      F64.toRat (F64.fin false (2 ^ 52) 11) = 2 ^ 63 ∧
      (CalculateNextReview
        { EaseFactor := F64.fin false (2 ^ 52) 11, Interval := 1, Repetitions := 5 }
        Easy).Interval = -(2 ^ 63) ∧
      (CalculateNextReview
        { EaseFactor := F64.fin false (2 ^ 52) 11, Interval := 1, Repetitions := 5 }
        Easy).Interval ≠ min 365 ((2 ^ 63 : Int) * 13 / 10) ∧
      (CalculateNextReview
        { EaseFactor := F64.fin false (2 ^ 52) 11, Interval := 1, Repetitions := 5 }
        Easy).Interval ≠ min 365 ((-(2 ^ 63) : Int) * 13 / 10) := by
  refine ⟨by decide, by decide, ?_, by decide, by decide, by decide⟩
  simp only [F64.toRat, F64.signed]
  norm_num

/-! ## C7: scenario A -/

set_option maxRecDepth 100000 in
set_option exponentiation.threshold 2100 in
/-- C7: the state `{2.5, 6, 2}` reviewed as `Good` becomes
`{2.36, 14, 3}`, where `2.36` is the `float64` nearest to 2.36. -/
theorem C7_scenario_A :
    CalculateNextReview { EaseFactor := F64.c2_5, Interval := 6, Repetitions := 2 } Good =
        { EaseFactor := F64.c2_36, Interval := 14, Repetitions := 3 } ∧
      F64.nearest F64.c2_36 (236 / 100) := by
  refine ⟨by decide, ?_⟩
  simp only [F64.nearest, F64.c2_36, F64.toRat, F64.signed]
  norm_num [abs_le]

/-! ## C8: a fresh card reviewed `Good` three times -/

set_option maxRecDepth 100000 in
set_option exponentiation.threshold 2100 in
/-- C8 (as amended): from `DefaultCardState`, three `Good` ratings give the
intervals 1, 6 and `int(math.Round(6 * e3))` = 12, where `e3`, the ease factor
after the third update, is the `float64` 2.0799999999999996 (within `2 ^ -50`
of 2.08). -/
theorem C8_fresh_card_sequence :
    DefaultCardState = { EaseFactor := F64.c2_5, Interval := 0, Repetitions := 0 } ∧
    (applyRatings DefaultCardState [Good]).Interval = 1 ∧
    (applyRatings DefaultCardState [Good, Good]).Interval = 6 ∧
    (applyRatings DefaultCardState [Good, Good, Good]).Interval =
      F64.toInt (F64.round (F64.mul (F64.ofInt 6)
        (applyRatings DefaultCardState [Good, Good, Good]).EaseFactor)) ∧
    (applyRatings DefaultCardState [Good, Good, Good]).Interval = 12 ∧
    (applyRatings DefaultCardState [Good, Good, Good]).EaseFactor =
      F64.fin false 4683743612465315 (-51) ∧
    |F64.toRat (applyRatings DefaultCardState [Good, Good, Good]).EaseFactor - 208 / 100| ≤
      1 / 2 ^ 50 := by
  have h : (applyRatings DefaultCardState [Good, Good, Good]).EaseFactor =
      F64.fin false 4683743612465315 (-51) := by decide
  refine ⟨rfl, by decide, by decide, by decide, by decide, h, ?_⟩
  rw [h]; simp only [F64.toRat, F64.signed]; norm_num [abs_le]

set_option maxRecDepth 100000 in
set_option exponentiation.threshold 2100 in
/-- C8, counterexample: the ease factor after the third `Good` is not the
`float64` nearest to 2.08, and its exact value is not 2.08. -/
theorem C8_third_ease_counterexample :
    F64.nearest F64.c2_08 (208 / 100) ∧
      (applyRatings DefaultCardState [Good, Good, Good]).EaseFactor ≠ F64.c2_08 ∧
      F64.toRat (applyRatings DefaultCardState [Good, Good, Good]).EaseFactor ≠ 208 / 100 := by
  have h : (applyRatings DefaultCardState [Good, Good, Good]).EaseFactor =
      F64.fin false 4683743612465315 (-51) := by decide
  refine ⟨?_, ?_, ?_⟩
  · simp only [F64.nearest, F64.c2_08, F64.toRat, F64.signed]; norm_num [abs_le]
  · rw [h]; decide
  · rw [h]; simp only [F64.toRat, F64.signed]; norm_num

/-! ## C9: the repetition count -/

theorem CalculateNextReview_repetitions (card : CardState) (rating : Rating) :
    (CalculateNextReview card rating).Repetitions =
      if rating = Again then 0 else wrap64 (card.Repetitions + 1) := rfl

theorem applyRatings_append (card : CardState) (rs : List Rating) (r : Rating) :
    applyRatings card (rs ++ [r]) = CalculateNextReview (applyRatings card rs) r := by
  simp [applyRatings, List.foldl_append]

theorem sinceLastAgain_append (rs : List Rating) (r : Rating) :
    sinceLastAgain (rs ++ [r]) = if r = Again then 0 else sinceLastAgain rs + 1 := by
  unfold sinceLastAgain
  rw [List.reverse_append, List.reverse_singleton, List.singleton_append, List.takeWhile_cons]
  by_cases h : r = Again <;> simp [h]

/-- While the count stays below `2 ^ 63` the stored repetitions are the
number of ratings since the last `Again`. -/
theorem applyRatings_repetitions (rs : List Rating) :
    sinceLastAgain rs < 2 ^ 63 →
      (applyRatings DefaultCardState rs).Repetitions = (sinceLastAgain rs : Int) := by
  induction rs using List.reverseRecOn with
  | nil => intro _; rfl
  | append_singleton rs r ih =>
    intro h
    rw [applyRatings_append, CalculateNextReview_repetitions, sinceLastAgain_append]
    rw [sinceLastAgain_append] at h
    by_cases hr : r = Again
    · simp [hr]
    · rw [if_neg hr] at h ⊢
      rw [if_neg hr, ih (by omega), wrap64_eq_self _ (by omega) (by push_cast; omega)]
      push_cast; rfl

theorem sinceLastAgain_replicate_Good (n : Nat) :
    sinceLastAgain (List.replicate n Good) = n := by
  induction n with
  | zero => rfl
  | succ n ih =>
    rw [List.replicate_succ', sinceLastAgain_append, ih]
    simp [Good, Again]

/-- C9 (as amended): for every sequence of ratings with fewer than `2 ^ 63`
ratings after its last `Again`, applied in order from `DefaultCardState`, the
resulting repetitions equal the number of ratings after the last `Again` (the
whole length when there is none). -/
theorem C9_repetitions_count (ratings : List Rating) (h : sinceLastAgain ratings < 2 ^ 63) :
    (applyRatings DefaultCardState ratings).Repetitions = (sinceLastAgain ratings : Int) :=
  applyRatings_repetitions ratings h

set_option maxRecDepth 100000 in
set_option exponentiation.threshold 2100 in
/-- C9, witness: `Good, Again, Hard, Easy` leaves two repetitions. -/
theorem C9_repetitions_count_witness :
    sinceLastAgain [Good, Again, Hard, Easy] < 2 ^ 63 ∧
      (applyRatings DefaultCardState [Good, Again, Hard, Easy]).Repetitions = 2 :=
  ⟨by decide, C9_repetitions_count [Good, Again, Hard, Easy] (by decide)⟩

/-- C9, counterexample: after `2 ^ 63` consecutive `Good` ratings the stored
count has wrapped around to `-2 ^ 63`. -/
theorem C9_wrap_counterexample :
    sinceLastAgain (List.replicate (2 ^ 63) Good) = 2 ^ 63 ∧
      (applyRatings DefaultCardState (List.replicate (2 ^ 63) Good)).Repetitions = -(2 ^ 63) := by
  refine ⟨sinceLastAgain_replicate_Good _, ?_⟩
  have hn : (2 : Nat) ^ 63 = (2 ^ 63 - 1) + 1 := by norm_num
  rw [hn, List.replicate_succ', applyRatings_append, CalculateNextReview_repetitions,
    applyRatings_repetitions _ (by rw [sinceLastAgain_replicate_Good]; norm_num),
    sinceLastAgain_replicate_Good]
  decide

/-! ## C10: the due-card selection -/

theorem mem_dueRows (db : DB) (userID : Nat) (today : Int) (f : Flashcard) :
    f ∈ dueRows db userID today ↔
      f ∈ db.flashcards ∧
        (∃ sm ∈ db.study_materials, f.StudyMaterialID = sm.ID ∧ sm.UserID = userID) ∧
        isDue f today = true := by
  simp only [dueRows, List.mem_flatMap, List.mem_map, List.mem_filter, Bool.and_eq_true,
    decide_eq_true_eq]
  constructor
  · rintro ⟨g, hg, sm, ⟨hsm, ⟨h1, h2⟩, h3⟩, rfl⟩
    exact ⟨hg, ⟨sm, hsm, h1, h2⟩, h3⟩
  · rintro ⟨hf, ⟨sm, hsm, h1, h2⟩, h3⟩
    exact ⟨f, hf, sm, ⟨hsm, ⟨h1, h2⟩, h3⟩, rfl⟩

theorem mem_dueRowsByMaterial (db : DB) (userID materialID : Nat) (today : Int)
    (f : Flashcard) :
    f ∈ dueRowsByMaterial db userID materialID today ↔
      f ∈ db.flashcards ∧
        (∃ sm ∈ db.study_materials, f.StudyMaterialID = sm.ID ∧ sm.UserID = userID) ∧
        f.StudyMaterialID = materialID ∧ isDue f today = true := by
  simp only [dueRowsByMaterial, List.mem_flatMap, List.mem_map, List.mem_filter,
    Bool.and_eq_true, decide_eq_true_eq]
  constructor
  · rintro ⟨g, hg, sm, ⟨hsm, ⟨⟨h1, h2⟩, h4⟩, h3⟩, rfl⟩
    exact ⟨hg, ⟨sm, hsm, h1, h2⟩, h4, h3⟩
  · rintro ⟨hf, ⟨sm, hsm, h1, h2⟩, h4, h3⟩
    exact ⟨f, hf, sm, ⟨hsm, ⟨⟨h1, h2⟩, h4⟩, h3⟩, rfl⟩

theorem isDue_iff (f : Flashcard) (today : Int) :
    isDue f today = true ↔ ∃ d, f.NextReviewDate = some d ∧ d ≤ today := by
  unfold isDue
  cases f.NextReviewDate <;> simp

/-- Every row a selection returns is one of the rows it filtered. -/
theorem mem_of_mem_take_sort (rows : List Flashcard) (n : Nat) (f : Flashcard)
    (h : f ∈ (rows.insertionSort orderLe).take n) : f ∈ rows :=
  (List.mem_insertionSort orderLe).1 (List.mem_of_mem_take h)

/-- C10: every card `GetDueCards` returns is a stored flashcard of a material
of that user with `next_review_date <= today`, so no card dated after today is
returned (likewise for `GetDueCardsByMaterial`, within the material asked
for); with three cards of the user dated yesterday, today and tomorrow, stored
in any order, and a limit of at least 2, the result is exactly the first two,
yesterday first; and the query, reading the tables only, gives the same list
when repeated. -/
theorem C10_due_cards (db : DB) (userID : Nat) (today limit : Int) :
    (∀ cards, GetDueCards db userID today limit = some cards → ∀ f ∈ cards,
      f ∈ db.flashcards ∧
        (∃ sm ∈ db.study_materials, f.StudyMaterialID = sm.ID ∧ sm.UserID = userID) ∧
        (∃ d, f.NextReviewDate = some d ∧ d ≤ today) ∧
        ¬ ∃ d, f.NextReviewDate = some d ∧ today < d) ∧
    (∀ materialID cards, GetDueCardsByMaterial db userID materialID today limit = some cards →
      ∀ f ∈ cards, f ∈ db.flashcards ∧ f.StudyMaterialID = materialID ∧
        (∃ sm ∈ db.study_materials, f.StudyMaterialID = sm.ID ∧ sm.UserID = userID) ∧
        (∃ d, f.NextReviewDate = some d ∧ d ≤ today) ∧
        ¬ ∃ d, f.NextReviewDate = some d ∧ today < d) ∧
    (∀ (cy ct cw : Flashcard) (materialID : Nat) (stored : List Flashcard),
      cy.NextReviewDate = some (today - 1) → ct.NextReviewDate = some today →
      cw.NextReviewDate = some (today + 1) →
      cy.StudyMaterialID = materialID → ct.StudyMaterialID = materialID →
      cw.StudyMaterialID = materialID →
      stored ∈ [[cy, ct, cw], [cy, cw, ct], [ct, cy, cw], [ct, cw, cy], [cw, cy, ct],
        [cw, ct, cy]] →
      2 ≤ limit →
      GetDueCards { flashcards := stored, study_materials := [⟨materialID, userID⟩] }
        userID today limit = some [cy, ct]) ∧
    (∀ first second, GetDueCards db userID today limit = first →
      GetDueCards db userID today limit = second → second = first) := by
  refine ⟨?_, ?_, ?_, ?_⟩
  · intro cards hc f hf
    unfold GetDueCards at hc
    split_ifs at hc
    injection hc with hc
    subst hc
    obtain ⟨h1, h2, h3⟩ := (mem_dueRows db userID today f).1 (mem_of_mem_take_sort _ _ _ hf)
    obtain ⟨d, hd, hle⟩ := (isDue_iff f today).1 h3
    refine ⟨h1, h2, ⟨d, hd, hle⟩, ?_⟩
    rintro ⟨d2, hd2, hlt⟩
    rw [hd] at hd2
    injection hd2 with hd2
    omega
  · intro materialID cards hc f hf
    unfold GetDueCardsByMaterial at hc
    split_ifs at hc
    injection hc with hc
    subst hc
    obtain ⟨h1, h2, h4, h3⟩ :=
      (mem_dueRowsByMaterial db userID materialID today f).1 (mem_of_mem_take_sort _ _ _ hf)
    obtain ⟨d, hd, hle⟩ := (isDue_iff f today).1 h3
    refine ⟨h1, h4, h2, ⟨d, hd, hle⟩, ?_⟩
    rintro ⟨d2, hd2, hlt⟩
    rw [hd] at hd2
    injection hd2 with hd2
    omega
  · intro cy ct cw materialID stored hy ht hw my mt mw hs hl
    have hn : ¬ limit < 0 := by omega
    have h2 : 2 ≤ limit.toNat := by omega
    have e1 : List.take limit.toNat [cy, ct] = [cy, ct] :=
      List.take_of_length_le (by simpa using h2)
    have hyt : orderLe cy ct := by
      left; rw [hy, ht]; simp [dateLt]
    have hty : ¬ orderLe ct cy := by
      rintro (h | ⟨h, _⟩)
      · rw [hy, ht] at h; simp [dateLt] at h; omega
      · rw [hy, ht] at h; injection h with h; omega
    simp only [List.mem_cons, List.mem_singleton, List.not_mem_nil, or_false] at hs
    rcases hs with rfl | rfl | rfl | rfl | rfl | rfl <;>
      simp [GetDueCards, hn, dueRows, isDue, hy, ht, hw, my, mt, mw, List.insertionSort,
        List.orderedInsert, hyt, hty, e1]
  · intro first second h1 h2
    rw [← h1, ← h2]

/-! ## C11: the order of the due cards -/

theorem F64.le_total_of_ne_nan (x y : F64) (hx : x ≠ F64.nan) (hy : y ≠ F64.nan) :
    F64.le x y = true ∨ F64.le y x = true := by
  cases x with
  | nan => exact absurd rfl hx
  | inf a =>
    cases y with
    | nan => exact absurd rfl hy
    | inf b => cases a <;> cases b <;> simp [F64.le]
    | fin n m e => cases a <;> simp [F64.le]
  | fin n1 m1 e1 =>
    cases y with
    | nan => exact absurd rfl hy
    | inf b => cases b <;> simp [F64.le]
    | fin n2 m2 e2 =>
      rw [F64.le_fin_iff, F64.le_fin_iff]
      exact le_total _ _

theorem F64.le_trans_of_ne_nan (x y z : F64) (h1 : F64.le x y = true) (h2 : F64.le y z = true) :
    F64.le x z = true := by
  cases x with
  | nan => simp [F64.le] at h1
  | inf a =>
    cases y with
    | nan => simp [F64.le] at h1
    | inf b =>
      cases z with
      | nan => simp [F64.le] at h2
      | inf c => cases a <;> cases b <;> cases c <;> simp_all [F64.le]
      | fin n m e => cases a <;> cases b <;> simp_all [F64.le]
    | fin n2 m2 e2 =>
      cases z with
      | nan => simp [F64.le] at h2
      | inf c => cases a <;> cases c <;> simp_all [F64.le]
      | fin n m e => cases a <;> simp_all [F64.le]
  | fin n1 m1 e1 =>
    cases y with
    | nan => simp [F64.le] at h1
    | inf b =>
      cases z with
      | nan => simp [F64.le] at h2
      | inf c => cases b <;> cases c <;> simp_all [F64.le]
      | fin n m e => cases b <;> simp_all [F64.le]
    | fin n2 m2 e2 =>
      cases z with
      | nan => simp [F64.le] at h2
      | inf c => cases c <;> simp_all [F64.le]
      | fin n m e =>
        rw [F64.le_fin_iff] at h1 h2 ⊢
        exact le_trans h1 h2

theorem easeLe_total (x y : F64) : easeLe x y = true ∨ easeLe y x = true := by
  by_cases hx : x = F64.nan
  · right; simp [easeLe, hx]
  · by_cases hy : y = F64.nan
    · left; simp [easeLe, hy]
    · rcases F64.le_total_of_ne_nan x y hx hy with h | h
      · left; simp [easeLe, hx, h]
      · right; simp [easeLe, hy, h]

theorem easeLe_trans (x y z : F64) (h1 : easeLe x y = true) (h2 : easeLe y z = true) :
    easeLe x z = true := by
  by_cases hz : z = F64.nan
  · simp [easeLe, hz]
  · have hy : y ≠ F64.nan := by
      intro hy
      simp [easeLe, hz, hy] at h2
    have hx : x ≠ F64.nan := by
      intro hx
      simp [easeLe, hy, hx] at h1
    simp only [easeLe, hz, hy, hx, decide_False, Bool.false_or, bne_iff_ne, ne_eq,
      not_false_eq_true, decide_True, Bool.true_and] at h1 h2 ⊢
    simpa [hx] using F64.le_trans_of_ne_nan x y z (by simpa [hx] using h1) (by simpa [hy] using h2)

/-- The database's `<=` on the ease factor is the `float64` one whenever
the right-hand side is not NaN. -/
theorem easeLe_eq_le (x y : F64) (hy : y ≠ F64.nan) : easeLe x y = F64.le x y := by
  by_cases hx : x = F64.nan
  · subst hx; simp [easeLe, hy, F64.le]
  · simp [easeLe, hy, hx]

theorem orderLe_total (a b : Flashcard) : orderLe a b ∨ orderLe b a := by
  unfold orderLe
  rcases ha : a.NextReviewDate with _ | da <;> rcases hb : b.NextReviewDate with _ | d2
  · rcases easeLe_total a.EaseFactor b.EaseFactor with h | h
    · left; right; exact ⟨rfl, h⟩
    · right; right; exact ⟨rfl, h⟩
  · right; left; rfl
  · left; left; rfl
  · rcases lt_trichotomy da d2 with h | h | h
    · left; left; simpa [dateLt] using h
    · subst h
      rcases easeLe_total a.EaseFactor b.EaseFactor with h | h
      · left; right; exact ⟨rfl, h⟩
      · right; right; exact ⟨rfl, h⟩
    · right; left; simpa [dateLt] using h

theorem dateLt_trans (x y z : Option Int) (h1 : dateLt x y = true) (h2 : dateLt y z = true) :
    dateLt x z = true := by
  cases x <;> cases y <;> cases z <;> simp_all [dateLt]
  omega

theorem orderLe_trans (a b c : Flashcard) (h1 : orderLe a b) (h2 : orderLe b c) :
    orderLe a c := by
  unfold orderLe at h1 h2 ⊢
  rcases h1 with h1 | ⟨e1, h1⟩
  · rcases h2 with h2 | ⟨e2, _⟩
    · left; exact dateLt_trans _ _ _ h1 h2
    · left; rw [← e2]; exact h1
  · rcases h2 with h2 | ⟨e2, h2⟩
    · left; rw [e1]; exact h2
    · right; exact ⟨e1.trans e2, easeLe_trans _ _ _ h1 h2⟩

/-- The rows a selection returns are in the order of its `ORDER BY`. -/
theorem sorted_take_sort (rows : List Flashcard) (n : Nat) :
    List.Sorted orderLe ((rows.insertionSort orderLe).take n) :=
  List.Pairwise.sublist (List.take_sublist _ _)
    (@List.sorted_insertionSort _ orderLe _ ⟨orderLe_total⟩ ⟨orderLe_trans⟩ rows)

theorem isDue_of_mem_dueRows (db : DB) (userID : Nat) (today : Int) (f : Flashcard)
    (h : f ∈ dueRows db userID today) : ∃ d, f.NextReviewDate = some d ∧ d ≤ today :=
  (isDue_iff f today).1 ((mem_dueRows db userID today f).1 h).2.2

theorem isDue_of_mem_dueRowsByMaterial (db : DB) (userID materialID : Nat) (today : Int)
    (f : Flashcard) (h : f ∈ dueRowsByMaterial db userID materialID today) :
    ∃ d, f.NextReviewDate = some d ∧ d ≤ today :=
  (isDue_iff f today).1 ((mem_dueRowsByMaterial db userID materialID today f).1 h).2.2.2

/-- Two neighbours of an ordered selection of dated rows compare by date,
then by ease factor. -/
theorem chain_take_sort (rows : List Flashcard) (n : Nat)
    (hd : ∀ f ∈ rows, ∃ d, f.NextReviewDate = some d) :
    List.Chain' (fun a b => ∃ da db, a.NextReviewDate = some da ∧ b.NextReviewDate = some db ∧
      (da < db ∨ (da = db ∧ easeLe a.EaseFactor b.EaseFactor = true)))
      ((rows.insertionSort orderLe).take n) := by
  have hm : ∀ f ∈ (rows.insertionSort orderLe).take n, ∃ d, f.NextReviewDate = some d :=
    fun f hf => hd f (mem_of_mem_take_sort rows n f hf)
  refine List.Pairwise.chain' (List.Pairwise.imp_of_mem ?_ (sorted_take_sort rows n))
  intro a b ha hb hab
  obtain ⟨da, hda⟩ := hm a ha
  obtain ⟨d2, hdb⟩ := hm b hb
  refine ⟨da, d2, hda, hdb, ?_⟩
  rcases hab with h | ⟨h1, h2⟩
  · left; rw [hda, hdb] at h; simpa [dateLt] using h
  · right
    rw [hda, hdb] at h1
    exact ⟨by injection h1, h2⟩

set_option maxRecDepth 100000 in
set_option exponentiation.threshold 2100 in
/-- C11: the list `GetDueCards` (and `GetDueCardsByMaterial`) returns is
sorted by `next_review_date` ascending, then by `ease_factor` ascending: any
two returned cards, the earlier `a` and the later `b`, satisfy the
`ORDER BY` relation, and any two adjacent ones have `a.date < b.date`, or
`a.date = b.date` and `a.ease_factor <= b.ease_factor` in the database's order
(the `float64` order, NaN last); two cards due today with ease factors 1.8
and 2.9, stored in either order, are returned in that order. -/
theorem C11_due_order (db : DB) (userID : Nat) (today limit : Int) :
    (∀ cards, GetDueCards db userID today limit = some cards →
      List.Sorted orderLe cards ∧
      List.Chain' (fun a b => ∃ da db, a.NextReviewDate = some da ∧
        b.NextReviewDate = some db ∧
        (da < db ∨ (da = db ∧ easeLe a.EaseFactor b.EaseFactor = true))) cards) ∧
    (∀ materialID cards, GetDueCardsByMaterial db userID materialID today limit = some cards →
      List.Sorted orderLe cards ∧
      List.Chain' (fun a b => ∃ da db, a.NextReviewDate = some da ∧
        b.NextReviewDate = some db ∧
        (da < db ∨ (da = db ∧ easeLe a.EaseFactor b.EaseFactor = true))) cards) ∧
    (∀ x y : F64, y ≠ F64.nan → easeLe x y = F64.le x y) ∧
    (∀ (a b : Flashcard) (materialID : Nat) (stored : List Flashcard),
      a.NextReviewDate = some today → b.NextReviewDate = some today →
      a.EaseFactor = F64.c1_8 → b.EaseFactor = F64.c2_9 →
      a.StudyMaterialID = materialID → b.StudyMaterialID = materialID →
      stored ∈ [[a, b], [b, a]] → 2 ≤ limit →
      GetDueCards { flashcards := stored, study_materials := [⟨materialID, userID⟩] }
          userID today limit = some [a, b] ∧
        GetDueCardsByMaterial { flashcards := stored, study_materials := [⟨materialID, userID⟩] }
          userID materialID today limit = some [a, b]) := by
  refine ⟨?_, ?_, easeLe_eq_le, ?_⟩
  · intro cards hc
    unfold GetDueCards at hc
    split_ifs at hc
    injection hc with hc
    subst hc
    exact ⟨sorted_take_sort _ _, chain_take_sort _ _ fun f hf =>
      (isDue_of_mem_dueRows db userID today f hf).imp fun _ h => h.1⟩
  · intro materialID cards hc
    unfold GetDueCardsByMaterial at hc
    split_ifs at hc
    injection hc with hc
    subst hc
    exact ⟨sorted_take_sort _ _, chain_take_sort _ _ fun f hf =>
      (isDue_of_mem_dueRowsByMaterial db userID materialID today f hf).imp fun _ h => h.1⟩
  · intro a b materialID stored ha hb ea eb ma mb hs hl
    have hn : ¬ limit < 0 := by omega
    have h2 : 2 ≤ limit.toNat := by omega
    have e1 : List.take limit.toNat [a, b] = [a, b] :=
      List.take_of_length_le (by simpa using h2)
    have h18 : easeLe F64.c1_8 F64.c2_9 = true := by decide
    have h29 : easeLe F64.c2_9 F64.c1_8 = false := by decide
    have hab : orderLe a b := by
      right; rw [ha, hb, ea, eb]; exact ⟨rfl, h18⟩
    have hba : ¬ orderLe b a := by
      rintro (h | ⟨_, h⟩)
      · rw [ha, hb] at h; simp [dateLt] at h
      · rw [ea, eb, h29] at h; exact absurd h (by simp)
    simp only [List.mem_cons, List.mem_singleton, List.not_mem_nil, or_false] at hs
    rcases hs with rfl | rfl <;>
      simp [GetDueCards, GetDueCardsByMaterial, hn, dueRows, dueRowsByMaterial, isDue, ha, hb,
        ma, mb, List.insertionSort, List.orderedInsert, hab, hba, e1]

/-! ## C12: the total of due cards -/

/-- A join on the primary key of `study_materials` matches a flashcard with
at most one row. -/
theorem join_unique (sms : List StudyMaterial) (x : Nat) (p : StudyMaterial → Bool)
    (f : Flashcard) (hpk : (sms.map StudyMaterial.ID).Nodup)
    (hp : ∀ sm, p sm = true → sm.ID = x) :
    (sms.filter p).map (fun _ => f) = if sms.any p = true then [f] else [] := by
  induction sms with
  | nil => rfl
  | cons s rest ih =>
    rw [List.map_cons, List.nodup_cons] at hpk
    by_cases hs : p s = true
    · have hrest : ∀ r ∈ rest, p r = false := by
        intro r hr
        by_contra hc
        have hrp : p r = true := by simpa using hc
        apply hpk.1
        rw [hp s hs, ← hp r hrp]
        exact List.mem_map_of_mem _ hr
      have hf : rest.filter p = [] := List.filter_eq_nil_iff.2 fun r hr => by simp [hrest r hr]
      simp [List.filter_cons, hs, hf]
    · have := ih hpk.2
      simp only [Bool.not_eq_true] at hs
      simp only [List.filter_cons, hs, List.any_cons, Bool.false_or]
      exact this

theorem flatMap_ite (l : List Flashcard) (c : Flashcard → Bool) :
    (l.flatMap fun f => if c f = true then [f] else []) = l.filter c := by
  induction l with
  | nil => rfl
  | cons a t ih =>
    rw [List.flatMap_cons, ih, List.filter_cons]
    split_ifs <;> simp

/-- With `study_materials.id` a key, the user-wide due query returns each due
flashcard of the user once. -/
theorem dueRows_eq_filter (db : DB) (userID : Nat) (today : Int)
    (hpk : (db.study_materials.map StudyMaterial.ID).Nodup) :
    dueRows db userID today = db.flashcards.filter fun f =>
      db.study_materials.any fun sm =>
        decide (f.StudyMaterialID = sm.ID) && decide (sm.UserID = userID) && isDue f today := by
  rw [← flatMap_ite]
  unfold dueRows
  congr 1
  funext f
  exact join_unique db.study_materials f.StudyMaterialID _ f hpk (by
    intro sm h
    simp only [Bool.and_eq_true, decide_eq_true_eq] at h
    exact h.1.1.symm)

theorem GetByID_some (db : DB) (id : Nat) (m : StudyMaterial) (h : GetByID db id = some m) :
    m ∈ db.study_materials ∧ m.ID = id := by
  unfold GetByID at h
  exact ⟨List.mem_of_find?_eq_some h, by simpa using List.find?_some h⟩

/-- With `study_materials.id` a key and the material owned by the user, the
material-scoped due query returns each due flashcard of the material once. -/
theorem dueRowsByMaterial_eq_filter (db : DB) (userID materialID : Nat) (today : Int)
    (m : StudyMaterial) (hpk : (db.study_materials.map StudyMaterial.ID).Nodup)
    (hm : GetByID db materialID = some m) (hu : m.UserID = userID) :
    dueRowsByMaterial db userID materialID today = db.flashcards.filter fun f =>
      decide (f.StudyMaterialID = materialID) && isDue f today := by
  obtain ⟨hmem, hid⟩ := GetByID_some db materialID m hm
  rw [← flatMap_ite]
  unfold dueRowsByMaterial
  congr 1
  funext f
  rw [join_unique db.study_materials f.StudyMaterialID _ f hpk (by
    intro sm h
    simp only [Bool.and_eq_true, decide_eq_true_eq] at h
    exact h.1.1.1.symm)]
  congr 1
  rw [eq_iff_iff, List.any_eq_true]
  simp only [Bool.and_eq_true, decide_eq_true_eq]
  constructor
  · rintro ⟨sm, _, ⟨⟨_, _⟩, h3⟩, h4⟩
    exact ⟨h3, h4⟩
  · rintro ⟨h3, h4⟩
    exact ⟨m, hmem, ⟨⟨by rw [h3, hid], hu⟩, h3⟩, h4⟩

theorem length_take_sort (rows : List Flashcard) (n : Nat) :
    ((rows.insertionSort orderLe).take n).length = min n rows.length := by
  rw [List.length_take, List.length_insertionSort]

/-- Cutting a selection at a limit is cutting it at the smaller of the limit
and the number of rows. -/
theorem take_sort_min (rows : List Flashcard) (limit : Int) (h : 0 ≤ limit) :
    (rows.insertionSort orderLe).take limit.toNat =
      (rows.insertionSort orderLe).take (min limit (rows.length : Int)).toNat := by
  rw [List.take_eq_take, List.length_insertionSort]
  omega

/-- C12: with `study_materials.id` a key, the answer of the handler
`GetDueCards` has `total_due` equal to the number of all due flashcards of the
caller, and that of `GetDueCardsByMaterial` (which answers 200 only for a
material of the caller) has `total_due` equal to the number of all due
flashcards of the material; neither depends on the fetch limit 100, the
number of returned cards is `min(100, total_due)`, and the returned cards are
the first `min(100, total_due)` of the full due ordering; the same holds for
the repository queries at every limit `>= 0`. -/
theorem C12_total_due (db : DB) (userID : Nat) (today : Int)
    (hpk : (db.study_materials.map StudyMaterial.ID).Nodup) :
    (∀ resp, HandlerGetDueCards db userID today = HttpResult.ok resp →
      resp.TotalDue = ((db.flashcards.filter fun f =>
        db.study_materials.any fun sm =>
          decide (f.StudyMaterialID = sm.ID) && decide (sm.UserID = userID) &&
            isDue f today).length : Int) ∧
      (resp.Cards.length : Int) = min 100 resp.TotalDue ∧
      resp.Cards = ((dueRows db userID today).insertionSort orderLe).take
        (min 100 resp.TotalDue).toNat) ∧
    (∀ materialId resp,
      HandlerGetDueCardsByMaterial db userID materialId today = HttpResult.ok resp →
      ∃ materialID, materialId = some materialID ∧
        resp.TotalDue = ((db.flashcards.filter fun f =>
          decide (f.StudyMaterialID = materialID) && isDue f today).length : Int) ∧
        (resp.Cards.length : Int) = min 100 resp.TotalDue ∧
        resp.Cards = ((dueRowsByMaterial db userID materialID today).insertionSort orderLe).take
          (min 100 resp.TotalDue).toNat) ∧
    (∀ limit : Int, 0 ≤ limit → ∃ cards, GetDueCards db userID today limit = some cards ∧
      (cards.length : Int) = min limit (CountDueCards db userID today) ∧
      cards = ((dueRows db userID today).insertionSort orderLe).take
        (min limit (CountDueCards db userID today)).toNat) := by
  refine ⟨?_, ?_, ?_⟩
  · intro resp h
    have h100 : GetDueCards db userID today 100 =
        some (((dueRows db userID today).insertionSort orderLe).take 100) := by
      simp [GetDueCards]
    simp only [HandlerGetDueCards, h100] at h
    injection h with h
    subst h
    simp only [CountDueCards]
    refine ⟨by rw [dueRows_eq_filter db userID today hpk], ?_, ?_⟩
    · rw [length_take_sort]; omega
    · exact take_sort_min _ 100 (by norm_num)
  · intro materialId resp h
    unfold HandlerGetDueCardsByMaterial at h
    cases materialId with
    | none => simp at h
    | some materialID =>
      simp only at h
      cases hm : GetByID db materialID with
      | none => simp [hm] at h
      | some m =>
        simp only [hm] at h
        split_ifs at h with hu
        have hu2 : m.UserID = userID := by simpa using hu
        have h100 : GetDueCardsByMaterial db userID materialID today 100 =
            some (((dueRowsByMaterial db userID materialID today).insertionSort orderLe).take
              100) := by
          simp [GetDueCardsByMaterial]
        simp only [h100] at h
        injection h with h
        subst h
        refine ⟨materialID, rfl, rfl, ?_, ?_⟩
        · simp only [CountDueCardsByMaterial]
          rw [length_take_sort, dueRowsByMaterial_eq_filter db userID materialID today m hpk hm hu2]
          omega
        · simp only [CountDueCardsByMaterial]
          rw [← dueRowsByMaterial_eq_filter db userID materialID today m hpk hm hu2]
          exact take_sort_min _ 100 (by norm_num)
  · intro limit hl
    refine ⟨((dueRows db userID today).insertionSort orderLe).take limit.toNat,
      by simp only [GetDueCards, if_neg (not_lt.2 hl)], ?_, ?_⟩
    · rw [length_take_sort]; simp only [CountDueCards]; omega
    · exact take_sort_min _ limit hl

/-- C12, witness: the repository query on `sampleDB 7` at limit 1. -/
theorem C12_total_due_witness :
    ((sampleDB 7).study_materials.map StudyMaterial.ID).Nodup ∧
      ∃ cards, GetDueCards (sampleDB 7) 7 100 1 = some cards ∧
        (cards.length : Int) = min 1 (CountDueCards (sampleDB 7) 7 100) ∧
        cards = ((dueRows (sampleDB 7) 7 100).insertionSort orderLe).take
          (min 1 (CountDueCards (sampleDB 7) 7 100)).toNat :=
  ⟨by decide, (C12_total_due (sampleDB 7) 7 100 (by decide)).2.2 1 (by decide)⟩

/-! ## C13: what a successful review stores -/

/-- The reads of `SubmitReview` when the request binds, the card exists and
its material belongs to the caller. -/
theorem submitLoad_of_owned (db : DB) (userID : Nat) (today : Int) (body : Option ReviewBody)
    (req : ReviewRequest) (card : Flashcard) (material : StudyMaterial)
    (hb : bindReviewRequest body = some req) (hc : GetFlashcardByID db req.CardID = some card)
    (hm : GetByID db card.StudyMaterialID = some material) (hu : material.UserID = userID) :
    submitLoad db userID today body =
      ([StorageOp.getFlashcardByID req.CardID, StorageOp.getByID card.StudyMaterialID],
        LoadOutcome.ready
          { CardID := req.CardID
            NewState := CalculateNextReview
              { EaseFactor := card.EaseFactor
                Interval := card.IntervalDays
                Repetitions := card.Repetitions } req.Rating
            NextReview := today + (CalculateNextReview
              { EaseFactor := card.EaseFactor
                Interval := card.IntervalDays
                Repetitions := card.Repetitions } req.Rating).Interval }) := by
  simp [submitLoad, hb, hc, hm, hu]

/-- What the reads of `SubmitReview` found when it goes on to the writes. -/
theorem submitLoad_ready (db : DB) (userID : Nat) (today : Int) (body : Option ReviewBody)
    (p : PendingReview) (h : (submitLoad db userID today body).2 = LoadOutcome.ready p) :
    ∃ req card material, bindReviewRequest body = some req ∧
      GetFlashcardByID db req.CardID = some card ∧
      GetByID db card.StudyMaterialID = some material ∧ material.UserID = userID ∧
      (submitLoad db userID today body).1 =
        [StorageOp.getFlashcardByID req.CardID, StorageOp.getByID card.StudyMaterialID] ∧
      p = { CardID := req.CardID
            NewState := CalculateNextReview
              { EaseFactor := card.EaseFactor
                Interval := card.IntervalDays
                Repetitions := card.Repetitions } req.Rating
            NextReview := today + (CalculateNextReview
              { EaseFactor := card.EaseFactor
                Interval := card.IntervalDays
                Repetitions := card.Repetitions } req.Rating).Interval } := by
  cases hb : bindReviewRequest body with
  | none => simp [submitLoad, hb] at h
  | some req =>
    cases hc : GetFlashcardByID db req.CardID with
    | none => simp [submitLoad, hb, hc] at h
    | some card =>
      cases hm : GetByID db card.StudyMaterialID with
      | none => simp [submitLoad, hb, hc, hm] at h
      | some material =>
        by_cases hu : material.UserID = userID
        · have ho := submitLoad_of_owned db userID today body req card material hb hc hm hu
          rw [ho] at h ⊢
          injection h with h
          exact ⟨req, card, material, rfl, hc, hm, hu, rfl, h.symm⟩
        · simp [submitLoad, hb, hc, hm, hu] at h

/-- The run of `SubmitReview` when its reads end in an answer. -/
theorem SubmitReview_of_rejected (db : DB) (userID : Nat) (today now : Int)
    (body : Option ReviewBody) (r : HttpResult ReviewResponse)
    (hl : (submitLoad db userID today body).2 = LoadOutcome.rejected r) :
    SubmitReview db userID today now body =
      { db := db, ops := (submitLoad db userID today body).1, result := r } := by
  unfold SubmitReview
  rcases hs : submitLoad db userID today body with ⟨ops, o⟩
  rw [hs] at hl
  simp only at hl
  subst hl
  rfl

/-- The run of `SubmitReview` when its reads let it go on to the writes. -/
theorem SubmitReview_of_ready (db : DB) (userID : Nat) (today now : Int)
    (body : Option ReviewBody) (p : PendingReview)
    (hl : (submitLoad db userID today body).2 = LoadOutcome.ready p) :
    SubmitReview db userID today now body =
      { db := (submitPersist db userID today now p).1
        ops := (submitLoad db userID today body).1 ++
          [StorageOp.updateCardSRS p.CardID, StorageOp.incrementCardsReviewed userID]
        result := HttpResult.ok (submitPersist db userID today now p).2 } := by
  unfold SubmitReview
  rcases hs : submitLoad db userID today body with ⟨ops, o⟩
  rw [hs] at hl
  simp only at hl
  subst hl
  rfl

/-- The answers the reads of `SubmitReview` can end in: 400 when the request
does not bind, before any repository call, and 404 when it binds and the card
is missing, or its material is missing or belongs to someone else. -/
theorem submitLoad_rejected (db : DB) (userID : Nat) (today : Int) (body : Option ReviewBody)
    (r : HttpResult ReviewResponse)
    (hl : (submitLoad db userID today body).2 = LoadOutcome.rejected r) :
    (r = HttpResult.badRequest ∧ bindReviewRequest body = none ∧
        (submitLoad db userID today body).1 = []) ∨
      (r = HttpResult.notFound ∧ ∃ req, bindReviewRequest body = some req ∧
        (GetFlashcardByID db req.CardID = none ∨
          ∃ card, GetFlashcardByID db req.CardID = some card ∧
            (GetByID db card.StudyMaterialID = none ∨
              ∃ material, GetByID db card.StudyMaterialID = some material ∧
                material.UserID ≠ userID))) := by
  cases hb : bindReviewRequest body with
  | none =>
    left
    have hs : submitLoad db userID today body =
        ([], LoadOutcome.rejected HttpResult.badRequest) := by
      simp [submitLoad, hb]
    rw [hs] at hl ⊢
    injection hl with hl
    exact ⟨hl.symm, rfl, rfl⟩
  | some req =>
    right
    cases hc : GetFlashcardByID db req.CardID with
    | none =>
      simp only [submitLoad, hb, hc] at hl
      injection hl with hl
      exact ⟨hl.symm, req, rfl, Or.inl hc⟩
    | some card =>
      cases hm : GetByID db card.StudyMaterialID with
      | none =>
        simp only [submitLoad, hb, hc, hm] at hl
        injection hl with hl
        exact ⟨hl.symm, req, rfl, Or.inr ⟨card, hc, Or.inl hm⟩⟩
      | some material =>
        by_cases hu : material.UserID = userID
        · rw [submitLoad_of_owned db userID today body req card material hb hc hm hu] at hl
          simp at hl
        · simp only [submitLoad, hb, hc, hm, ne_eq, hu, not_false_eq_true, if_true] at hl
          injection hl with hl
          exact ⟨hl.symm, req, rfl, Or.inr ⟨card, hc, Or.inr ⟨material, hm, hu⟩⟩⟩

theorem IncrementCardsReviewed_flashcards (db : DB) (userID : Nat) (today count : Int) :
    (IncrementCardsReviewed db userID today count).flashcards = db.flashcards := by
  unfold IncrementCardsReviewed
  split_ifs <;> rfl

theorem submitPersist_flashcards (db : DB) (userID : Nat) (today now : Int)
    (p : PendingReview) :
    (submitPersist db userID today now p).1.flashcards =
      (UpdateCardSRS db p.CardID p.NewState.EaseFactor p.NewState.Interval
        p.NewState.Repetitions p.NextReview now).flashcards := by
  simp only [submitPersist, IncrementCardsReviewed_flashcards]

/-- Reading a card back after `UpdateCardSRS`. -/
theorem GetFlashcardByID_UpdateCardSRS (db : DB) (cardID : Nat) (ef : F64)
    (interval reps nextReview now : Int) (card : Flashcard)
    (h : GetFlashcardByID db cardID = some card) :
    (UpdateCardSRS db cardID ef interval reps nextReview now).flashcards.find?
        (fun f => decide (f.ID = cardID)) =
      some { card with
        EaseFactor := ef
        IntervalDays := interval
        Repetitions := reps
        NextReviewDate := some nextReview
        LastReviewedAt := some now } := by
  unfold GetFlashcardByID at h
  have hid : card.ID = cardID := by simpa using List.find?_some h
  simp only [UpdateCardSRS, List.find?_map]
  have hcomp : ((fun f : Flashcard => decide (f.ID = cardID)) ∘ fun f : Flashcard =>
      if f.ID = cardID then
        { f with
          EaseFactor := ef
          IntervalDays := interval
          Repetitions := reps
          NextReviewDate := some nextReview
          LastReviewedAt := some now }
      else f) = fun f => decide (f.ID = cardID) := by
    funext f
    simp only [Function.comp]
    split_ifs with hf <;> simp [hf]
  rw [hcomp, h]
  simp [hid]

/-- C13: when `SubmitReview` answers 200, the request bound, the card exists
and its material belongs to the caller; reading the card back gives the loaded
row with `(ease_factor, interval_days, repetitions)` replaced by
`CalculateNextReview(loaded state, rating)`, `next_review_date` by the current
day plus the new interval and `last_reviewed_at` by now; the rows of other
cards are as before; and the answer carries the same `ease_factor`,
`interval_days`, `repetitions` and `next_review_date`. -/
theorem C13_review_stored (db : DB) (userID : Nat) (today now : Int)
    (body : Option ReviewBody) (resp : ReviewResponse)
    (h : (SubmitReview db userID today now body).result = HttpResult.ok resp) :
    ∃ req card material, bindReviewRequest body = some req ∧
      GetFlashcardByID db req.CardID = some card ∧
      GetByID db card.StudyMaterialID = some material ∧ material.UserID = userID ∧
      GetFlashcardByID (SubmitReview db userID today now body).db req.CardID =
        some { card with
          EaseFactor := (CalculateNextReview
            { EaseFactor := card.EaseFactor
              Interval := card.IntervalDays
              Repetitions := card.Repetitions } req.Rating).EaseFactor
          IntervalDays := (CalculateNextReview
            { EaseFactor := card.EaseFactor
              Interval := card.IntervalDays
              Repetitions := card.Repetitions } req.Rating).Interval
          Repetitions := (CalculateNextReview
            { EaseFactor := card.EaseFactor
              Interval := card.IntervalDays
              Repetitions := card.Repetitions } req.Rating).Repetitions
          NextReviewDate := some (today + (CalculateNextReview
            { EaseFactor := card.EaseFactor
              Interval := card.IntervalDays
              Repetitions := card.Repetitions } req.Rating).Interval)
          LastReviewedAt := some now } ∧
      (SubmitReview db userID today now body).db.flashcards.filter
          (fun f => decide (f.ID ≠ req.CardID)) =
        db.flashcards.filter (fun f => decide (f.ID ≠ req.CardID)) ∧
      resp =
        { card_id := req.CardID
          ease_factor := (CalculateNextReview
            { EaseFactor := card.EaseFactor
              Interval := card.IntervalDays
              Repetitions := card.Repetitions } req.Rating).EaseFactor
          interval_days := (CalculateNextReview
            { EaseFactor := card.EaseFactor
              Interval := card.IntervalDays
              Repetitions := card.Repetitions } req.Rating).Interval
          repetitions := (CalculateNextReview
            { EaseFactor := card.EaseFactor
              Interval := card.IntervalDays
              Repetitions := card.Repetitions } req.Rating).Repetitions
          next_review_date := today + (CalculateNextReview
            { EaseFactor := card.EaseFactor
              Interval := card.IntervalDays
              Repetitions := card.Repetitions } req.Rating).Interval } := by
  cases hl : (submitLoad db userID today body).2 with
  | rejected r =>
    exfalso
    rw [SubmitReview_of_rejected db userID today now body r hl] at h
    simp only at h
    rcases submitLoad_rejected db userID today body r hl with ⟨hr, _⟩ | ⟨hr, _⟩ <;>
      rw [hr] at h <;> simp at h
  | ready p =>
    obtain ⟨req, card, material, hb, hc, hm, hu, _, hp⟩ :=
      submitLoad_ready db userID today body p hl
    have hrun := SubmitReview_of_ready db userID today now body p hl
    rw [hrun] at h ⊢
    simp only at h ⊢
    injection h with h
    refine ⟨req, card, material, hb, hc, hm, hu, ?_, ?_, ?_⟩
    · unfold GetFlashcardByID
      rw [submitPersist_flashcards, hp]
      exact GetFlashcardByID_UpdateCardSRS db req.CardID _ _ _ _ _ card hc
    · rw [submitPersist_flashcards, hp]
      simp only [UpdateCardSRS, List.filter_map]
      rw [← List.map_id (db.flashcards.filter fun f => decide (f.ID ≠ req.CardID))]
      have hf : List.filter ((fun f : Flashcard => decide (f.ID ≠ req.CardID)) ∘
          fun f : Flashcard => if f.ID = req.CardID then
            { f with
              EaseFactor := (CalculateNextReview
                { EaseFactor := card.EaseFactor
                  Interval := card.IntervalDays
                  Repetitions := card.Repetitions } req.Rating).EaseFactor
              IntervalDays := (CalculateNextReview
                { EaseFactor := card.EaseFactor
                  Interval := card.IntervalDays
                  Repetitions := card.Repetitions } req.Rating).Interval
              Repetitions := (CalculateNextReview
                { EaseFactor := card.EaseFactor
                  Interval := card.IntervalDays
                  Repetitions := card.Repetitions } req.Rating).Repetitions
              NextReviewDate := some (today + (CalculateNextReview
                { EaseFactor := card.EaseFactor
                  Interval := card.IntervalDays
                  Repetitions := card.Repetitions } req.Rating).Interval)
              LastReviewedAt := some now }
            else f) db.flashcards =
          List.filter (fun f => decide (f.ID ≠ req.CardID)) db.flashcards := by
        congr 1
        funext f
        simp only [Function.comp]
        split_ifs with hf
        · simp [hf]
        · simp [hf]
      rw [hf]
      apply List.map_congr_left
      intro f hf
      have : f.ID ≠ req.CardID := by simpa using (List.mem_filter.1 hf).2
      simp [this]
    · rw [← h, hp]
      rfl

set_option maxRecDepth 100000 in
set_option exponentiation.threshold 2100 in
/-- C13, witness: `Good` on `sampleCard`, a new card due on day 100. -/
theorem C13_review_stored_witness :
    (SubmitReview (sampleDB 7) 7 100 8640000 (sampleReview Good)).result =
        HttpResult.ok
          { card_id := 5
            ease_factor := F64.c2_36
            interval_days := 1
            repetitions := 1
            next_review_date := 101 } ∧
      ∃ req card material, bindReviewRequest (sampleReview Good) = some req ∧
        GetFlashcardByID (sampleDB 7) req.CardID = some card ∧
        GetByID (sampleDB 7) card.StudyMaterialID = some material ∧ material.UserID = 7 :=
  ⟨by decide, by
    obtain ⟨req, card, material, h1, h2, h3, h4, _⟩ :=
      C13_review_stored (sampleDB 7) 7 100 8640000 (sampleReview Good) _
        (by decide :
          (SubmitReview (sampleDB 7) 7 100 8640000 (sampleReview Good)).result =
            HttpResult.ok
              { card_id := 5
                ease_factor := F64.c2_36
                interval_days := 1
                repetitions := 1
                next_review_date := 101 })
    exact ⟨req, card, material, h1, h2, h3, h4⟩⟩

/-! ## C14: a review of a card that is missing or not the caller's -/

/-- C14 (as amended): for a request that binds, if no flashcard with the
requested `card_id` exists, or the card's material does not exist or is not
owned by the caller, `SubmitReview` answers NotFound; and whenever
`SubmitReview` answers anything but 200, it has written nothing: the tables
(every flashcard row, every cards-reviewed counter) are as before. -/
theorem C14_not_found (db : DB) (userID : Nat) (today now : Int) (body : Option ReviewBody)
    (req : ReviewRequest) (hb : bindReviewRequest body = some req)
    (hmiss : GetFlashcardByID db req.CardID = none ∨
      ∃ card, GetFlashcardByID db req.CardID = some card ∧
        (GetByID db card.StudyMaterialID = none ∨
          ∃ material, GetByID db card.StudyMaterialID = some material ∧
            material.UserID ≠ userID)) :
    (SubmitReview db userID today now body).result = HttpResult.notFound ∧
      (SubmitReview db userID today now body).db = db ∧
      ∀ (body2 : Option ReviewBody),
        (∀ resp, (SubmitReview db userID today now body2).result ≠ HttpResult.ok resp) →
        (SubmitReview db userID today now body2).db = db := by
  refine ⟨?_, ?_, ?_⟩
  · rcases hmiss with hc | ⟨card, hc, hm | ⟨material, hm, hu⟩⟩
    · simp [SubmitReview, submitLoad, hb, hc]
    · simp [SubmitReview, submitLoad, hb, hc, hm]
    · simp [SubmitReview, submitLoad, hb, hc, hm, hu]
  · rcases hmiss with hc | ⟨card, hc, hm | ⟨material, hm, hu⟩⟩
    · simp [SubmitReview, submitLoad, hb, hc]
    · simp [SubmitReview, submitLoad, hb, hc, hm]
    · simp [SubmitReview, submitLoad, hb, hc, hm, hu]
  · intro body2 hne
    cases hl : (submitLoad db userID today body2).2 with
    | rejected r => rw [SubmitReview_of_rejected db userID today now body2 r hl]
    | ready p =>
      exfalso
      have hrun := SubmitReview_of_ready db userID today now body2 p hl
      exact hne _ (by rw [hrun])

set_option maxRecDepth 100000 in
/-- C14, witness: a card that exists but belongs to another user's
material. -/
theorem C14_not_found_witness :
    bindReviewRequest (sampleReview 2) = some { CardID := 5, Rating := 2 } ∧
      (SubmitReview (sampleDB 8) 7 100 8640000 (sampleReview 2)).result = HttpResult.notFound :=
  ⟨by decide,
    (C14_not_found (sampleDB 8) 7 100 8640000 (sampleReview 2) { CardID := 5, Rating := 2 }
      (by decide)
      (Or.inr ⟨sampleCard, by decide,
        Or.inr ⟨{ ID := 10, UserID := 8 }, by decide, by decide⟩⟩)).1⟩

set_option maxRecDepth 100000 in
/-- C14, counterexample: a request for a card that does not exist, sent
without a rating, is answered 400 Bad Request, not NotFound. -/
theorem C14_bad_request_counterexample :
    GetFlashcardByID { flashcards := [], study_materials := [] } 5 = none ∧
      (SubmitReview { flashcards := [], study_materials := [] } 7 100 8640000
        (some { card_id := some 5, rating := none })).result = HttpResult.badRequest ∧
      (SubmitReview { flashcards := [], study_materials := [] } 7 100 8640000
        (some { card_id := some 5, rating := none })).result ≠ HttpResult.notFound := by
  decide

/-! ## C15: ratings outside the defined set -/

theorem bindReviewRequest_of_nonzero (cardID : Nat) (rating : Int) (hc : cardID ≠ 0)
    (hr : rating ≠ 0) (h1 : -(2 ^ 63) ≤ rating) (h2 : rating < 2 ^ 63) :
    bindReviewRequest (some { card_id := some cardID, rating := some rating }) =
      some { CardID := cardID, Rating := rating } := by
  simp only [bindReviewRequest, Option.getD_some]
  rw [if_neg (by omega), if_neg (by simp [hc, hr])]

/-- C15 (as amended): whenever `SubmitReview` answers 400 it has made no
repository call and written nothing; but a rating outside
`{Again = 0, Hard = 1, Good = 2, Easy = 3}` is not rejected: with a non-zero
`card_id` the request binds, and `CalculateNextReview` treats the rating as
quality 0 without the `Again` reset and without a modifier. -/
theorem C15_rating_validation (db : DB) (userID : Nat) (today now : Int)
    (body : Option ReviewBody) :
    ((SubmitReview db userID today now body).result = HttpResult.badRequest →
      (SubmitReview db userID today now body).ops = [] ∧
        (SubmitReview db userID today now body).db = db) ∧
    (∀ (cardID : Nat) (rating : Int), cardID ≠ 0 → -(2 ^ 63) ≤ rating → rating < 2 ^ 63 →
      rating ≠ Again → rating ≠ Hard → rating ≠ Good → rating ≠ Easy →
      bindReviewRequest (some { card_id := some cardID, rating := some rating }) =
        some { CardID := cardID, Rating := rating }) ∧
    (∀ (card : CardState) (rating : Rating),
      rating ≠ Again → rating ≠ Hard → rating ≠ Good → rating ≠ Easy →
      CalculateNextReview card rating =
        { EaseFactor := F64.max F64.c1_3 (F64.add card.EaseFactor (specEaseChange F64.c0))
          Interval := min 365 (baseInterval (wrap64 (card.Repetitions + 1)) card.Interval
            (F64.max F64.c1_3 (F64.add card.EaseFactor (specEaseChange F64.c0))))
          Repetitions := wrap64 (card.Repetitions + 1) }) := by
  refine ⟨?_, ?_, ?_⟩
  · intro h
    cases hl : (submitLoad db userID today body).2 with
    | rejected r =>
      have hrun := SubmitReview_of_rejected db userID today now body r hl
      rcases submitLoad_rejected db userID today body r hl with ⟨_, _, hops⟩ | ⟨hr, _⟩
      · rw [hrun]
        exact ⟨hops, rfl⟩
      · rw [hrun, hr] at h; simp at h
    | ready p =>
      rw [SubmitReview_of_ready db userID today now body p hl] at h
      simp at h
  · intro cardID rating hc h1 h2 hA _ _ _
    exact bindReviewRequest_of_nonzero cardID rating hc hA h1 h2
  · intro card rating hA hH hG hE
    simp only [CalculateNextReview, newEF, quality, specEaseChange, if_neg hA, if_neg hH,
      if_neg hG, if_neg hE]
    congr 1
    rw [min_def]
    split_ifs <;> omega

set_option maxRecDepth 100000 in
set_option exponentiation.threshold 2100 in
/-- C15, counterexample: the rating 7 on an existing card of the caller is
answered 200, after four repository calls, and the card is updated (one
repetition, due the next day) and the review counted. -/
theorem C15_rating_7_counterexample :
    (SubmitReview (sampleDB 7) 7 100 8640000 (sampleReview 7)).result =
        HttpResult.ok
          { card_id := 5
            ease_factor := F64.fin false 7656119366529844 (-52)
            interval_days := 1
            repetitions := 1
            next_review_date := 101 } ∧
      (SubmitReview (sampleDB 7) 7 100 8640000 (sampleReview 7)).ops =
        [StorageOp.getFlashcardByID 5, StorageOp.getByID 10, StorageOp.updateCardSRS 5,
          StorageOp.incrementCardsReviewed 7] ∧
      (SubmitReview (sampleDB 7) 7 100 8640000 (sampleReview 7)).db ≠ sampleDB 7 ∧
      cardsReviewed (SubmitReview (sampleDB 7) 7 100 8640000 (sampleReview 7)).db 7 100 = 1 := by
  decide

/-! ## C16: the four ratings -/

set_option maxRecDepth 100000 in
set_option exponentiation.threshold 2100 in
/-- C16: a review request with rating `Again` (0) is answered 400 Bad Request
before any repository call and leaves the tables as they were, whatever card
it names: `binding:"required"` takes the zero value for a missing one.  The
ratings `Hard`, `Good` and `Easy` on an existing card of the caller are
answered 200, but `Again` on the same card is not, and the card is not
reset. -/
theorem C16_again_rejected (db : DB) (userID : Nat) (today now : Int) (cardID : Option Nat) :
    SubmitReview db userID today now (some { card_id := cardID, rating := some Again }) =
        { db := db, ops := [], result := HttpResult.badRequest } ∧
      (SubmitReview (sampleDB 7) 7 100 8640000 (sampleReview Again)).result =
        HttpResult.badRequest ∧
      (SubmitReview (sampleDB 7) 7 100 8640000 (sampleReview Again)).db = sampleDB 7 ∧
      (∃ r, (SubmitReview (sampleDB 7) 7 100 8640000 (sampleReview Hard)).result =
        HttpResult.ok r) ∧
      (∃ r, (SubmitReview (sampleDB 7) 7 100 8640000 (sampleReview Good)).result =
        HttpResult.ok r) ∧
      (∃ r, (SubmitReview (sampleDB 7) 7 100 8640000 (sampleReview Easy)).result =
        HttpResult.ok r) := by
  refine ⟨?_, by decide, by decide, ⟨_, by rfl⟩, ⟨_, by rfl⟩, ⟨_, by rfl⟩⟩
  have hb : bindReviewRequest (some { card_id := cardID, rating := some Again }) = none := by
    simp [bindReviewRequest, Again]
  simp [SubmitReview, submitLoad, hb]

/-! ## C17: statistics of a user without cards -/

theorem userRows_eq_nil (db : DB) (userID : Nat)
    (h : ∀ f ∈ db.flashcards, ∀ sm ∈ db.study_materials,
      f.StudyMaterialID = sm.ID → sm.UserID ≠ userID) :
    userRows db userID = [] := by
  unfold userRows
  rw [List.flatMap_eq_nil_iff]
  intro f hf
  rw [List.map_eq_nil_iff, List.filter_eq_nil_iff]
  intro sm hsm
  simp only [Bool.and_eq_true, decide_eq_true_eq, not_and]
  exact fun hid => h f hf sm hsm hid

/-- C17: for a user none of whose materials has a flashcard, `GetSRSStats`
(which returns no error) gives `average_ease` = 2.5 and `total_cards`,
`due_today`, `new_cards`, `learned_cards`, `mature_cards` and `reviewed_today`
all 0, whatever the database computes for `AVG` on other inputs. -/
theorem C17_empty_stats (avg : List F64 → F64) (db : DB) (userID : Nat) (today : Int)
    (h : ∀ f ∈ db.flashcards, ∀ sm ∈ db.study_materials,
      f.StudyMaterialID = sm.ID → sm.UserID ≠ userID) :
    GetSRSStats avg db userID today =
      { total_cards := 0
        due_today := 0
        new_cards := 0
        learned_cards := 0
        mature_cards := 0
        average_ease := F64.c2_5
        reviewed_today := 0 } := by
  simp [GetSRSStats, userRows_eq_nil db userID h]

set_option maxRecDepth 100000 in
/-- C17, witness: the tables hold a card, but of another user. -/
theorem C17_empty_stats_witness :
    (∀ f ∈ (sampleDB 8).flashcards, ∀ sm ∈ (sampleDB 8).study_materials,
        f.StudyMaterialID = sm.ID → sm.UserID ≠ 7) ∧
      (GetSRSStats (fun _ => F64.nan) (sampleDB 8) 7 100).average_ease = F64.c2_5 ∧
      (GetSRSStats (fun _ => F64.nan) (sampleDB 8) 7 100).total_cards = 0 :=
  have h : ∀ f ∈ (sampleDB 8).flashcards, ∀ sm ∈ (sampleDB 8).study_materials,
      f.StudyMaterialID = sm.ID → sm.UserID ≠ 7 := by decide
  ⟨h, by rw [C17_empty_stats (fun _ => F64.nan) (sampleDB 8) 7 100 h],
    by rw [C17_empty_stats (fun _ => F64.nan) (sampleDB 8) 7 100 h]⟩

/-! ## C18: editing a card's text -/

/-- With `flashcards.id` a key, the row found by key is the only one with
that key. -/
theorem eq_of_find_of_nodup (l : List Flashcard) (cardID : Nat) (fc f : Flashcard)
    (hpk : (l.map Flashcard.ID).Nodup)
    (hfind : l.find? (fun g => decide (g.ID = cardID)) = some fc) (hf : f ∈ l)
    (hid : f.ID = cardID) : f = fc := by
  have hfc : fc ∈ l := List.mem_of_find?_eq_some hfind
  have hfcid : fc.ID = cardID := by simpa using List.find?_some hfind
  exact List.inj_on_of_nodup_map hpk hf hfc (hid.trans hfcid.symm)

/-- C18: with `flashcards.id` a key, after a call of the `UpdateFlashcard`
handler answered 200 the table has the same rows in the same places, each
with its key, material, `ease_factor`, `interval_days`, `repetitions`,
`next_review_date` and `last_reviewed_at` as before the call; only `question`
and `answer` may differ, and only on the card named in the request. -/
theorem C18_edit_keeps_schedule (db : DB) (userID : Nat) (id cardId : Option Nat)
    (body : Option UpdateFlashcardRequest) (resp : Flashcard)
    (hpk : (db.flashcards.map Flashcard.ID).Nodup)
    (h : (HandlerUpdateFlashcard db userID id cardId body).2 = HttpResult.ok resp) :
    List.Forall₂
      (fun before after =>
        after.ID = before.ID ∧ after.StudyMaterialID = before.StudyMaterialID ∧
        after.EaseFactor = before.EaseFactor ∧ after.IntervalDays = before.IntervalDays ∧
        after.Repetitions = before.Repetitions ∧
        after.NextReviewDate = before.NextReviewDate ∧
        after.LastReviewedAt = before.LastReviewedAt ∧
        (some before.ID ≠ cardId → after = before))
      db.flashcards (HandlerUpdateFlashcard db userID id cardId body).1.flashcards ∧
    (HandlerUpdateFlashcard db userID id cardId body).1.study_materials = db.study_materials ∧
    (HandlerUpdateFlashcard db userID id cardId body).1.daily_activity = db.daily_activity := by
  unfold HandlerUpdateFlashcard at h ⊢
  cases id with
  | none => simp at h
  | some materialID =>
    cases cardId with
    | none => simp at h
    | some cardID =>
      simp only at h ⊢
      cases hm : GetByID db materialID with
      | none => simp [hm] at h
      | some material =>
        simp only [hm] at h ⊢
        by_cases hu : material.UserID ≠ userID
        · simp [hu] at h
        · simp only [if_neg hu] at h ⊢
          cases hc : GetFlashcardByID db cardID with
          | none => simp [hc] at h
          | some flashcard =>
            simp only [hc] at h ⊢
            by_cases hmat : flashcard.StudyMaterialID ≠ materialID
            · simp [hmat] at h
            · simp only [if_neg hmat] at h ⊢
              cases body with
              | none => simp at h
              | some req =>
                rcases req with ⟨_ | q, _ | a⟩ <;> simp only at h ⊢ <;> clear h
                all_goals
                  have hfid : flashcard.ID = cardID := by
                    unfold GetFlashcardByID at hc
                    simpa using List.find?_some hc
                  refine ⟨?_, rfl, rfl⟩
                  simp only [UpdateFlashcard]
                  rw [List.forall₂_map_right_iff, List.forall₂_same]
                  intro f hf
                  by_cases hfc : f.ID = cardID
                  · have hff : f = flashcard :=
                      eq_of_find_of_nodup db.flashcards cardID flashcard f hpk hc hf hfc
                    subst hff
                    simp [hfc]
                  · simp [hfc, hfid]

set_option maxRecDepth 100000 in
/-- C18, witness: the question of `sampleCard` is replaced; its schedule
stays. -/
theorem C18_edit_keeps_schedule_witness :
    ((sampleDB 7).flashcards.map Flashcard.ID).Nodup ∧
      (HandlerUpdateFlashcard (sampleDB 7) 7 (some 10) (some 5)
        (some { Question := some "q", Answer := none })).2 =
          HttpResult.ok { sampleCard with Question := "q" } ∧
      (HandlerUpdateFlashcard (sampleDB 7) 7 (some 10) (some 5)
        (some { Question := some "q", Answer := none })).1.study_materials =
          (sampleDB 7).study_materials :=
  ⟨by decide, by decide,
    (C18_edit_keeps_schedule (sampleDB 7) 7 (some 10) (some 5)
      (some { Question := some "q", Answer := none }) { sampleCard with Question := "q" }
      (by decide) (by decide)).2.1⟩

/-! ## C19: two reviews of one card at the same time -/

theorem UpdateCardSRS_twice (db db1 : DB) (cardID : Nat) (ef1 ef2 : F64)
    (i1 r1 d1 n1 i2 r2 d2 n2 : Int)
    (h : db1.flashcards = (UpdateCardSRS db cardID ef1 i1 r1 d1 n1).flashcards) :
    (UpdateCardSRS db1 cardID ef2 i2 r2 d2 n2).flashcards =
      (UpdateCardSRS db cardID ef2 i2 r2 d2 n2).flashcards := by
  simp only [UpdateCardSRS] at h ⊢
  rw [h, List.map_map]
  apply List.map_congr_left
  intro f _
  simp only [Function.comp]
  split_ifs with hf <;> simp_all

/-- The writes of a review replace what the writes of another review of the
same card stored. -/
theorem submitPersist_twice (db : DB) (userID : Nat) (today now : Int) (pA pB : PendingReview)
    (h : pA.CardID = pB.CardID) :
    (submitPersist (submitPersist db userID today now pA).1 userID today now pB).1.flashcards =
      (submitPersist db userID today now pB).1.flashcards := by
  rw [submitPersist_flashcards, submitPersist_flashcards]
  apply UpdateCardSRS_twice db _ pB.CardID pA.NewState.EaseFactor
    _ pA.NewState.Interval pA.NewState.Repetitions pA.NextReview now
  rw [submitPersist_flashcards, h]

/-- C19 (as amended): two `SubmitReview` calls for the same card are not
atomic.  When one call's writes precede the other's reads, the tables end as
after the two calls run one after the other in that order; when both calls
read before either writes, the flashcards end as after the call that writes
last alone, run from the initial tables: the other review's effect on the
card is lost. -/
theorem C19_interleavings (db : DB) (userID : Nat) (today now : Int)
    (bodyA bodyB : Option ReviewBody) (pA pB : PendingReview)
    (hA : (submitLoad db userID today bodyA).2 = LoadOutcome.ready pA)
    (hB : (submitLoad db userID today bodyB).2 = LoadOutcome.ready pB)
    (hsame : pA.CardID = pB.CardID) :
    (runRace userID today now bodyA bodyB db [false, false, true, true]).db =
        (SubmitReview (SubmitReview db userID today now bodyA).db userID today now bodyB).db ∧
    (runRace userID today now bodyA bodyB db [true, true, false, false]).db =
        (SubmitReview (SubmitReview db userID today now bodyB).db userID today now bodyA).db ∧
    (∀ schedule ∈ [[false, true, false, true], [true, false, false, true]],
      (runRace userID today now bodyA bodyB db schedule).db.flashcards =
        (SubmitReview db userID today now bodyB).db.flashcards) ∧
    (∀ schedule ∈ [[false, true, true, false], [true, false, true, false]],
      (runRace userID today now bodyA bodyB db schedule).db.flashcards =
        (SubmitReview db userID today now bodyA).db.flashcards) := by
  have hrA := SubmitReview_of_ready db userID today now bodyA pA hA
  have hrB := SubmitReview_of_ready db userID today now bodyB pB hB
  refine ⟨?_, ?_, ?_, ?_⟩
  · rw [hrA]
    simp only [runRace, List.foldl, raceStep, stepCall, hA, if_false, if_true,
      Bool.false_eq_true]
    cases hl : (submitLoad (submitPersist db userID today now pA).1 userID today bodyB).2 with
    | rejected r =>
      rw [SubmitReview_of_rejected _ userID today now bodyB r hl]
    | ready p =>
      rw [SubmitReview_of_ready _ userID today now bodyB p hl]
  · rw [hrB]
    simp only [runRace, List.foldl, raceStep, stepCall, hB, if_false, if_true,
      Bool.false_eq_true]
    cases hl : (submitLoad (submitPersist db userID today now pB).1 userID today bodyA).2 with
    | rejected r =>
      rw [SubmitReview_of_rejected _ userID today now bodyA r hl]
    | ready p =>
      rw [SubmitReview_of_ready _ userID today now bodyA p hl]
  · intro schedule hs
    rw [hrB]
    simp only [List.mem_cons, List.mem_singleton, List.not_mem_nil, or_false] at hs
    rcases hs with rfl | rfl <;>
      simp only [runRace, List.foldl, raceStep, stepCall, hA, hB, if_false, if_true,
        Bool.false_eq_true] <;>
      exact submitPersist_twice db userID today now pA pB hsame
  · intro schedule hs
    rw [hrA]
    simp only [List.mem_cons, List.mem_singleton, List.not_mem_nil, or_false] at hs
    rcases hs with rfl | rfl <;>
      simp only [runRace, List.foldl, raceStep, stepCall, hA, hB, if_false, if_true,
        Bool.false_eq_true] <;>
      exact submitPersist_twice db userID today now pB pA hsame.symm

set_option maxRecDepth 100000 in
set_option exponentiation.threshold 2100 in
/-- C19, witness: `Good` and `Easy` submitted together for `sampleCard`; the
`Easy` call writes last and the card ends with one repetition. -/
theorem C19_interleavings_witness :
    (∃ pA pB, (submitLoad (sampleDB 7) 7 100 (sampleReview Good)).2 = LoadOutcome.ready pA ∧
        (submitLoad (sampleDB 7) 7 100 (sampleReview Easy)).2 = LoadOutcome.ready pB ∧
        pA.CardID = pB.CardID) ∧
      (runRace 7 100 8640000 (sampleReview Good) (sampleReview Easy) (sampleDB 7)
        [false, true, false, true]).db.flashcards =
        (SubmitReview (sampleDB 7) 7 100 8640000 (sampleReview Easy)).db.flashcards :=
  ⟨⟨_, _, rfl, rfl, rfl⟩,
    (C19_interleavings (sampleDB 7) 7 100 8640000 (sampleReview Good) (sampleReview Easy) _ _
      rfl rfl rfl).2.2.1 [false, true, false, true] (by simp)⟩

set_option maxRecDepth 100000 in
set_option exponentiation.threshold 2100 in
/-- C19, counterexample: `Good` and `Easy` submitted for `sampleCard`, both
read before either writes: the card ends with one repetition, as after
neither order of the two reviews (two repetitions each). -/
theorem C19_lost_update_counterexample :
    (runRace 7 100 8640000 (sampleReview Good) (sampleReview Easy) (sampleDB 7)
        [false, true, false, true]).db.flashcards.map Flashcard.Repetitions = [1] ∧
      (SubmitReview (SubmitReview (sampleDB 7) 7 100 8640000 (sampleReview Good)).db
        7 100 8640000 (sampleReview Easy)).db.flashcards.map Flashcard.Repetitions = [2] ∧
      (SubmitReview (SubmitReview (sampleDB 7) 7 100 8640000 (sampleReview Easy)).db
        7 100 8640000 (sampleReview Good)).db.flashcards.map Flashcard.Repetitions = [2] ∧
      (runRace 7 100 8640000 (sampleReview Good) (sampleReview Easy) (sampleDB 7)
        [false, true, false, true]).db.flashcards ≠
        (SubmitReview (SubmitReview (sampleDB 7) 7 100 8640000 (sampleReview Good)).db
          7 100 8640000 (sampleReview Easy)).db.flashcards ∧
      (runRace 7 100 8640000 (sampleReview Good) (sampleReview Easy) (sampleDB 7)
        [false, true, false, true]).db.flashcards ≠
        (SubmitReview (SubmitReview (sampleDB 7) 7 100 8640000 (sampleReview Easy)).db
          7 100 8640000 (sampleReview Good)).db.flashcards := by
  decide

/-! ## C20: determinism -/

/-- C20: `CalculateNextReview` is a function of the three fields of the state
and of the rating: calls with equal arguments return equal states; the state
after a sequence of reviews depends on the earlier calls only through the
state they returned; and the `ease_factor`, `interval_days` and `repetitions`
`SubmitReview` answers with do not depend on the clock. -/
theorem C20_deterministic (card : CardState) (rating : Rating) :
    (∀ (card2 : CardState) (rating2 : Rating), card2.EaseFactor = card.EaseFactor →
      card2.Interval = card.Interval → card2.Repetitions = card.Repetitions →
      rating2 = rating →
      (CalculateNextReview card2 rating2).EaseFactor =
          (CalculateNextReview card rating).EaseFactor ∧
        (CalculateNextReview card2 rating2).Interval =
          (CalculateNextReview card rating).Interval ∧
        (CalculateNextReview card2 rating2).Repetitions =
          (CalculateNextReview card rating).Repetitions) ∧
    (∀ earlier : List Rating,
      applyRatings card (earlier ++ [rating]) =
        CalculateNextReview (applyRatings card earlier) rating) ∧
    (∀ (db : DB) (userID : Nat) (body : Option ReviewBody) (today1 now1 today2 now2 : Int)
      (resp1 : ReviewResponse),
      (SubmitReview db userID today1 now1 body).result = HttpResult.ok resp1 →
      ∃ resp2, (SubmitReview db userID today2 now2 body).result = HttpResult.ok resp2 ∧
        resp2.ease_factor = resp1.ease_factor ∧ resp2.interval_days = resp1.interval_days ∧
        resp2.repetitions = resp1.repetitions) := by
  refine ⟨?_, ?_, ?_⟩
  · intro card2 rating2 h1 h2 h3 h4
    have : card2 = card := by
      cases card2; cases card; simp_all
    subst this h4
    exact ⟨rfl, rfl, rfl⟩
  · intro earlier
    simp [applyRatings, List.foldl_append]
  · intro db userID body today1 now1 today2 now2 resp1 h
    cases hl : (submitLoad db userID today1 body).2 with
    | rejected r =>
      exfalso
      rw [SubmitReview_of_rejected db userID today1 now1 body r hl] at h
      simp only at h
      rcases submitLoad_rejected db userID today1 body r hl with ⟨hr, _⟩ | ⟨hr, _⟩ <;>
        rw [hr] at h <;> simp at h
    | ready p =>
      obtain ⟨req, card0, material, hb, hc, hm, hu, _, hp⟩ :=
        submitLoad_ready db userID today1 body p hl
      rw [SubmitReview_of_ready db userID today1 now1 body p hl] at h
      simp only at h
      injection h with h
      have h2 := submitLoad_of_owned db userID today2 body req card0 material hb hc hm hu
      have hl2 := congrArg Prod.snd h2
      simp only at hl2
      rw [SubmitReview_of_ready db userID today2 now2 body _ hl2]
      refine ⟨_, rfl, ?_, ?_, ?_⟩ <;> rw [← h, hp] <;> rfl

/-! ## Rounding is monotone -/

theorem roundShift_ge (m s : Nat) : m / 2 ^ s ≤ F64.roundShift m s := by
  unfold F64.roundShift
  split_ifs <;> omega

theorem roundShift_le_succ (m s : Nat) : F64.roundShift m s ≤ m / 2 ^ s + 1 := by
  unfold F64.roundShift
  split_ifs <;> omega

theorem roundShift_le_of_le_mul (m s c : Nat) (h : m ≤ c * 2 ^ s) : F64.roundShift m s ≤ c := by
  have hpos : 0 < 2 ^ s := by positivity
  have hdm := Nat.div_add_mod m (2 ^ s)
  have hT : m / 2 ^ s ≤ c := Nat.div_le_of_le_mul (by rw [Nat.mul_comm]; exact h)
  unfold F64.roundShift
  split_ifs with hc
  · have hr : 0 < m % 2 ^ s := by
      rcases hc with hc | ⟨hc, _⟩
      · exact lt_of_le_of_lt (Nat.zero_le _) hc
      · rw [hc]; positivity
    by_contra hlt
    have hcT : c * 2 ^ s ≤ m / 2 ^ s * 2 ^ s := Nat.mul_le_mul_right _ (by omega)
    rw [Nat.mul_comm (m / 2 ^ s)] at hcT
    omega
  · exact hT

theorem roundShift_mono (m m' s : Nat) (h : m ≤ m') :
    F64.roundShift m s ≤ F64.roundShift m' s := by
  have hdm := Nat.div_add_mod m (2 ^ s)
  have hdm' := Nat.div_add_mod m' (2 ^ s)
  have hT : m / 2 ^ s ≤ m' / 2 ^ s := Nat.div_le_div_right h
  rcases Nat.lt_or_ge (m / 2 ^ s) (m' / 2 ^ s) with hlt | hge
  · exact le_trans (roundShift_le_succ m s) (le_trans hlt (roundShift_ge m' s))
  · have hTe : m' / 2 ^ s = m / 2 ^ s := le_antisymm hge hT
    rw [hTe] at hdm'
    have hr : m % 2 ^ s ≤ m' % 2 ^ s := by omega
    unfold F64.roundShift
    rw [hTe]
    split_ifs with h1 h2 h2 <;> omega

theorem roundShift_scale (m s j : Nat) (hs : 1 ≤ s) :
    F64.roundShift (m * 2 ^ j) (s + j) = F64.roundShift m s := by
  have hj : 0 < 2 ^ j := by positivity
  have h1 : m * 2 ^ j / 2 ^ (s + j) = m / 2 ^ s := by
    rw [pow_add, Nat.mul_div_mul_right _ _ hj]
  have h2 : m * 2 ^ j % 2 ^ (s + j) = m % 2 ^ s * 2 ^ j := by
    rw [pow_add, Nat.mul_mod_mul_right]
  have h3 : 2 ^ (s + j - 1) = 2 ^ (s - 1) * 2 ^ j := by
    rw [← pow_add]
    congr 1
    omega
  have e1 : (2 ^ (s - 1) * 2 ^ j < m % 2 ^ s * 2 ^ j) ↔ 2 ^ (s - 1) < m % 2 ^ s :=
    mul_lt_mul_right hj
  have e2 : (m % 2 ^ s * 2 ^ j = 2 ^ (s - 1) * 2 ^ j) ↔ m % 2 ^ s = 2 ^ (s - 1) :=
    mul_left_inj' (ne_of_gt hj)
  unfold F64.roundShift
  rw [h1, h2, h3]
  simp only [e1, e2]

/-- The value of a non-zero `m * 2 ^ e` lies in the binade of exponent
`e + ilog2 m`. -/
theorem ilog2_bracket (m : Nat) (e : Int) (hm : m ≠ 0) :
    (2 : ℚ) ^ (e + (F64.ilog2 m : Nat)) ≤ (m : ℚ) * (2 : ℚ) ^ e ∧
      (m : ℚ) * (2 : ℚ) ^ e < (2 : ℚ) ^ (e + (F64.ilog2 m : Nat) + 1) := by
  have h2 : (2 : ℚ) ≠ 0 := by norm_num
  have hb1 := F64.ilog2_le m hm
  have hb2 := F64.lt_ilog2 m hm
  constructor
  · rw [add_comm, zpow_add₀ h2, zpow_natCast]
    exact mul_le_mul_of_nonneg_right (by exact_mod_cast hb1) (two_zpow_pos e).le
  · have : e + (F64.ilog2 m : Nat) + 1 = ((F64.ilog2 m + 1 : Nat) : Int) + e := by
      push_cast; ring
    rw [this, zpow_add₀ h2, zpow_natCast]
    exact mul_lt_mul_of_pos_right (by exact_mod_cast hb2) (two_zpow_pos e)

/-- The finite value `roundNE` returns, as a multiple of the quantum
`2 ^ q`: the value itself when it is a multiple, else the multiple
`roundShift` picks. -/
theorem roundNE_fin_val (n n1 : Bool) (m : Nat) (e : Int) (m1 : Nat) (e1 q : Int) (hm : m ≠ 0)
    (hq : q = max (e + (F64.ilog2 m : Nat) - 52) (-1074))
    (h : F64.roundNE n m e = F64.fin n1 m1 e1) :
    q ≤ 971 ∧ ∃ t : Nat, (m1 : ℚ) * (2 : ℚ) ^ e1 = (t : ℚ) * (2 : ℚ) ^ q ∧
      ((q ≤ e ∧ t = m * 2 ^ (e - q).toNat) ∨
        (¬ q ≤ e ∧ t = F64.roundShift m (q - e).toNat)) := by
  have h2 : (2 : ℚ) ≠ 0 := by norm_num
  by_cases hqe : q ≤ e
  · rw [roundNE_exact n m e q hm hq hqe] at h
    split_ifs at h with ho
    injection h with _ hm1 he1
    subst hm1 he1
    exact ⟨by omega, _, rfl, Or.inl ⟨hqe, rfl⟩⟩
  · rw [roundNE_inexact n m e q hm hq hqe (F64.roundShift m (q - e).toNat) rfl] at h
    split_ifs at h with h53 ho ho
    · injection h with _ hm1 he1
      subst hm1 he1
      refine ⟨by omega, _, ?_, Or.inr ⟨hqe, rfl⟩⟩
      rw [h53, zpow_add_one₀ h2]
      push_cast
      ring
    · injection h with _ hm1 he1
      subst hm1 he1
      exact ⟨by omega, _, rfl, Or.inr ⟨hqe, rfl⟩⟩

/-- A finite result of `roundNE` has a significand of at most 53 bits. -/
theorem roundNE_fin_lt (n n1 : Bool) (m : Nat) (e : Int) (m1 : Nat) (e1 : Int)
    (h : F64.roundNE n m e = F64.fin n1 m1 e1) : m1 < 2 ^ 53 := by
  by_cases hm : m = 0
  · subst hm
    rw [roundNE_zero] at h
    injection h with _ hm1 _
    subst hm1
    norm_num
  · obtain ⟨q, hq⟩ : ∃ q : Int, q = max (e + (F64.ilog2 m : Nat) - 52) (-1074) := ⟨_, rfl⟩
    have hb2 := F64.lt_ilog2 m hm
    by_cases hqe : q ≤ e
    · rw [roundNE_exact n m e q hm hq hqe] at h
      split_ifs at h with ho
      injection h with _ hm1 he1
      subst hm1
      have hj : F64.ilog2 m + 1 + (e - q).toNat ≤ 53 := by omega
      calc m * 2 ^ (e - q).toNat < 2 ^ (F64.ilog2 m + 1) * 2 ^ (e - q).toNat :=
            Nat.mul_lt_mul_of_pos_right hb2 (by positivity)
        _ = 2 ^ (F64.ilog2 m + 1 + (e - q).toNat) := (pow_add 2 _ _).symm
        _ ≤ 2 ^ 53 := Nat.pow_le_pow_right (by norm_num) hj
    · rw [roundNE_inexact n m e q hm hq hqe (F64.roundShift m (q - e).toNat) rfl] at h
      have hs : F64.ilog2 m + 1 ≤ (q - e).toNat + 53 := by omega
      have hT : m / 2 ^ (q - e).toNat < 2 ^ 53 := by
        apply Nat.div_lt_of_lt_mul
        calc m < 2 ^ (F64.ilog2 m + 1) := hb2
          _ ≤ 2 ^ ((q - e).toNat + 53) := Nat.pow_le_pow_right (by norm_num) hs
          _ = 2 ^ (q - e).toNat * 2 ^ 53 := by rw [pow_add]
      have ht := roundShift_le_succ m (q - e).toNat
      split_ifs at h with h53 ho ho
      · injection h with _ hm1 _
        subst hm1
        norm_num
      · injection h with _ hm1 _
        subst hm1
        omega

/-- Rounding is monotone: a smaller exact value is not rounded to a larger
datum. -/
theorem roundNE_mono (n n' n1 n2 : Bool) (m m' : Nat) (e e' : Int) (m1 m2 : Nat) (e1 e2 : Int)
    (h : (m : ℚ) * (2 : ℚ) ^ e ≤ (m' : ℚ) * (2 : ℚ) ^ e')
    (hx : F64.roundNE n m e = F64.fin n1 m1 e1) (hy : F64.roundNE n' m' e' = F64.fin n2 m2 e2) :
    (m1 : ℚ) * (2 : ℚ) ^ e1 ≤ (m2 : ℚ) * (2 : ℚ) ^ e2 := by
  have h12 : (1 : ℚ) < 2 := by norm_num
  have h20 : (2 : ℚ) ≠ 0 := by norm_num
  by_cases hm : m = 0
  · subst hm
    rw [roundNE_zero] at hx
    injection hx with _ hm1 _
    subst hm1
    simp only [Nat.cast_zero, zero_mul]
    exact mul_nonneg (Nat.cast_nonneg _) (two_zpow_pos e2).le
  have hmpos : (0 : ℚ) < (m : ℚ) * (2 : ℚ) ^ e :=
    mul_pos (by exact_mod_cast Nat.pos_of_ne_zero hm) (two_zpow_pos e)
  have hm' : m' ≠ 0 := by
    rintro rfl
    simp only [Nat.cast_zero, zero_mul] at h
    linarith
  obtain ⟨q, hq⟩ : ∃ q : Int, q = max (e + (F64.ilog2 m : Nat) - 52) (-1074) := ⟨_, rfl⟩
  obtain ⟨q', hq'⟩ : ∃ q' : Int, q' = max (e' + (F64.ilog2 m' : Nat) - 52) (-1074) := ⟨_, rfl⟩
  obtain ⟨hv1, hv2⟩ := ilog2_bracket m e hm
  obtain ⟨hv1', hv2'⟩ := ilog2_bracket m' e' hm'
  have hbb : e + (F64.ilog2 m : Nat) < e' + (F64.ilog2 m' : Nat) + 1 :=
    (zpow_lt_zpow_iff_right₀ h12).1 (lt_of_le_of_lt (le_trans hv1 h) hv2')
  obtain ⟨_, t, hval, hcase⟩ := roundNE_fin_val n n1 m e m1 e1 q hm hq hx
  obtain ⟨hq971, t', hval', hcase'⟩ := roundNE_fin_val n' n2 m' e' m2 e2 q' hm' hq' hy
  rcases lt_or_ge q q' with hlt | hge
  · -- the binade boundary `2 ^ (q' + 52)` separates the two values
    have hx1 : (m : ℚ) * (2 : ℚ) ^ e ≤ (2 : ℚ) ^ (q' + 52) :=
      le_trans hv2.le (zpow_le_zpow_right₀ h12.le (by omega))
    have hy1 : ((2 ^ 52 : Nat) : ℚ) * (2 : ℚ) ^ q' ≤ (m' : ℚ) * (2 : ℚ) ^ e' := by
      have : ((2 ^ 52 : Nat) : ℚ) * (2 : ℚ) ^ q' = (2 : ℚ) ^ (q' + 52) := by
        rw [add_comm, zpow_add₀ h20]
        norm_num
      rw [this]
      exact le_trans (zpow_le_zpow_right₀ h12.le (by omega)) hv1'
    obtain ⟨m3, e3, hr3, h3⟩ := roundNE_le_pow n m e (q' + 52) (by omega) (by omega) hx1
    rw [hr3] at hx
    injection hx with _ hm3 he3
    subst hm3 he3
    have h4 := roundNE_ge_grid n' n2 m' e' (2 ^ 52) q' m2 e2 (by omega) le_rfl hy1 hy
    have : ((2 ^ 52 : Nat) : ℚ) * (2 : ℚ) ^ q' = (2 : ℚ) ^ (q' + 52) := by
      rw [add_comm, zpow_add₀ h20]
      norm_num
    rw [this] at h4
    exact le_trans h3 h4
  · have hqq : q' = q := by omega
    subst hqq
    rw [hval, hval']
    apply mul_le_mul_of_nonneg_right _ (two_zpow_pos q').le
    have hexact : ∀ (k : Nat) (a : Int), q' ≤ a →
        ((k * 2 ^ (a - q').toNat : Nat) : ℚ) * (2 : ℚ) ^ q' = (k : ℚ) * (2 : ℚ) ^ a := by
      intro k a ha
      have := F64.cast_shift a q' ha
      push_cast at this ⊢
      rw [mul_assoc, this]
    rcases hcase with ⟨hqe, ht⟩ | ⟨hqe, ht⟩ <;> rcases hcase' with ⟨hqe', ht'⟩ | ⟨hqe', ht'⟩
    · have h5 : (t : ℚ) * (2 : ℚ) ^ q' ≤ (t' : ℚ) * (2 : ℚ) ^ q' := by
        rw [ht, ht', hexact m e hqe, hexact m' e' hqe']
        exact h
      exact (mul_le_mul_right (two_zpow_pos q')).1 h5
    · have h5 : (t : ℚ) * (2 : ℚ) ^ q' ≤ (m' : ℚ) * (2 : ℚ) ^ e' := by
        rw [ht, hexact m e hqe]
        exact h
      have h6 := (grid_le t m' q' e' (by omega)).1 h5
      have h7 : t ≤ m' / 2 ^ (q' - e').toNat := (Nat.le_div_iff_mul_le (by positivity)).2 h6
      have h8 := roundShift_ge m' (q' - e').toNat
      rw [ht']
      exact_mod_cast le_trans h7 h8
    · have h5 : (m : ℚ) * (2 : ℚ) ^ e ≤ (t' : ℚ) * (2 : ℚ) ^ q' := by
        rw [ht', hexact m' e' hqe']
        exact h
      have h6 := (le_grid t' m q' e (by omega)).1 h5
      rw [ht]
      exact_mod_cast roundShift_le_of_le_mul m _ t' h6
    · obtain ⟨f, hf⟩ : ∃ f : Int, f = min e e' := ⟨_, rfl⟩
      have hM : (m * 2 ^ (e - f).toNat : Nat) ≤ m' * 2 ^ (e' - f).toNat := by
        have hA := F64.cast_shift e f (by omega)
        have hB := F64.cast_shift e' f (by omega)
        have : ((m * 2 ^ (e - f).toNat : Nat) : ℚ) * (2 : ℚ) ^ f ≤
            ((m' * 2 ^ (e' - f).toNat : Nat) : ℚ) * (2 : ℚ) ^ f := by
          push_cast at hA hB ⊢
          rw [mul_assoc, hA, mul_assoc, hB]
          exact h
        exact_mod_cast (mul_le_mul_right (two_zpow_pos f)).1 this
      have hs1 := roundShift_scale m (q' - e).toNat (e - f).toNat (by omega)
      have hs2 := roundShift_scale m' (q' - e').toNat (e' - f).toNat (by omega)
      have hj : (q' - e).toNat + (e - f).toNat = (q' - e').toNat + (e' - f).toNat := by omega
      rw [ht, ht', ← hs1, ← hs2, hj]
      exact_mod_cast roundShift_mono _ _ _ hM

/-! ## Exact results and the integer nearest to a datum -/

/-- A value with a significand of at most 53 bits and an exponent in range
is returned unchanged by `roundNE`. -/
theorem roundNE_of_repr (n : Bool) (m : Nat) (e : Int) (hm : m < 2 ^ 53) (he : -1074 ≤ e)
    (he2 : e ≤ 971) :
    ∃ m1 e1, F64.roundNE n m e = F64.fin n m1 e1 ∧
      (m1 : ℚ) * (2 : ℚ) ^ e1 = (m : ℚ) * (2 : ℚ) ^ e := by
  by_cases h0 : m = 0
  · subst h0
    exact ⟨0, -1074, roundNE_zero n e, by simp⟩
  · obtain ⟨q, hq⟩ : ∃ q : Int, q = max (e + (F64.ilog2 m : Nat) - 52) (-1074) := ⟨_, rfl⟩
    have hb : F64.ilog2 m < 53 :=
      (Nat.pow_lt_pow_iff_right (by norm_num : 1 < 2)).1 (lt_of_le_of_lt (F64.ilog2_le m h0) hm)
    have hqe : q ≤ e := by omega
    rw [roundNE_exact n m e q h0 hq hqe, if_neg (by omega)]
    refine ⟨_, _, rfl, ?_⟩
    have := F64.cast_shift e q hqe
    push_cast at this ⊢
    rw [mul_assoc, this]

/-- Go `int(math.Round(x))` of a non-negative datum `x` of at most `2 ^ 61`
is the integer nearest to `x`, halves upward: it is at least `c` exactly when
`x` is at least `c - 1/2`. -/
theorem toInt_round_iff (m : Nat) (e : Int) (hm : m < 2 ^ 53)
    (hv : (m : ℚ) * (2 : ℚ) ^ e ≤ (2 : ℚ) ^ (61 : Int)) (c : Nat) :
    (c : Int) ≤ F64.toInt (F64.round (F64.fin false m e)) ↔
      (2 * (c : ℚ) - 1) / 2 ≤ (m : ℚ) * (2 : ℚ) ^ e := by
  have key : ∀ (M : Nat) (E : Int) (N : Nat), (M : ℚ) * (2 : ℚ) ^ E = (N : ℚ) → N < 2 ^ 63 →
      F64.toInt (F64.fin false M E) = (N : Int) := by
    intro M E N hN h63
    obtain ⟨v, hfl, ht⟩ := toInt_fin_false M E
    have h1 : N ≤ v := (hfl N).1 (by rw [hN])
    have h2 : v ≤ N := by
      have := (hfl v).2 le_rfl
      rw [hN] at this
      exact_mod_cast this
    have hvN : v = N := le_antisymm h2 h1
    rw [ht, hvN, if_pos (by exact_mod_cast h63)]
  by_cases he : 0 ≤ e
  · have hN : (m : ℚ) * (2 : ℚ) ^ e = ((m * 2 ^ e.toNat : Nat) : ℚ) := by
      have := F64.cast_shift e 0 he
      simp only [sub_zero, zpow_zero, mul_one] at this
      push_cast at this ⊢
      rw [this]
    have h63 : m * 2 ^ e.toNat < 2 ^ 63 := by
      have : ((m * 2 ^ e.toNat : Nat) : ℚ) ≤ ((2 ^ 61 : Nat) : ℚ) := by
        rw [← hN]
        refine le_trans hv ?_
        norm_num
      have : m * 2 ^ e.toNat ≤ 2 ^ 61 := by exact_mod_cast this
      omega
    have hr : F64.round (F64.fin false m e) = F64.fin false m e := by
      simp [F64.round, he]
    rw [hr, key m e _ hN h63, hN]
    constructor
    · intro h
      have : (c : ℚ) ≤ ((m * 2 ^ e.toNat : Nat) : ℚ) := by exact_mod_cast h
      linarith
    · intro h
      have h1 : 2 * (c : ℚ) - 1 ≤ 2 * ((m * 2 ^ e.toNat : Nat) : ℚ) := by linarith
      have h2 : 2 * (c : Int) - 1 ≤ 2 * ((m * 2 ^ e.toNat : Nat) : Int) := by exact_mod_cast h1
      omega
  · obtain ⟨d, hd⟩ : ∃ d : Nat, d = 2 ^ (-e).toNat := ⟨_, rfl⟩
    have hdpos : 0 < d := by rw [hd]; positivity
    have hd2 : 2 ≤ d := by
      rw [hd]
      calc 2 = 2 ^ 1 := by norm_num
        _ ≤ 2 ^ (-e).toNat := Nat.pow_le_pow_right (by norm_num) (by omega)
    have hdm := Nat.div_add_mod m d
    have hrd : m % d < d := Nat.mod_lt m hdpos
    obtain ⟨k1, hk1⟩ : ∃ k1 : Nat, k1 = if d ≤ 2 * (m % d) then m / d + 1 else m / d := ⟨_, rfl⟩
    have hr : F64.round (F64.fin false m e) = F64.roundNE false k1 0 := by
      simp only [F64.round, if_neg he]
      rw [hk1, hd]
    have hkm : m / d ≤ m / 2 := Nat.div_le_div_left hd2 (by norm_num)
    have hk53 : k1 < 2 ^ 53 := by
      rw [hk1]
      split_ifs <;> omega
    obtain ⟨M, E, hM, hval⟩ := roundNE_of_repr false k1 0 hk53 (by norm_num) (by norm_num)
    simp only [zpow_zero, mul_one] at hval
    rw [hr, hM, key M E k1 hval (by omega)]
    have hx : (m : ℚ) * (2 : ℚ) ^ e * (d : ℚ) = (m : ℚ) := by
      have := F64.cast_shift 0 e (by omega)
      simp only [zero_sub, zpow_zero] at this
      rw [hd, mul_assoc, mul_comm ((2 : ℚ) ^ e), this, mul_one]
    have hdq : (0 : ℚ) < (d : ℚ) := by exact_mod_cast hdpos
    have hiff : (2 * (c : ℚ) - 1) / 2 ≤ (m : ℚ) * (2 : ℚ) ^ e ↔
        (2 * (c : Int) - 1) * (d : Int) ≤ 2 * (m : Int) := by
      rw [div_le_iff₀ (by norm_num : (0 : ℚ) < 2), ← mul_le_mul_right hdq]
      have : (m : ℚ) * (2 : ℚ) ^ e * 2 * (d : ℚ) = 2 * (m : ℚ) := by
        rw [mul_right_comm, hx]; ring
      rw [this]
      exact_mod_cast Iff.rfl
    rw [hiff]
    have hmI : (m : Int) = (d : Int) * ((m / d : Nat) : Int) + ((m % d : Nat) : Int) := by
      exact_mod_cast hdm.symm
    have hD : (0 : Int) < (d : Int) := by exact_mod_cast hdpos
    have hR : ((m % d : Nat) : Int) < (d : Int) := by exact_mod_cast hrd
    have hR0 : (0 : Int) ≤ ((m % d : Nat) : Int) := Int.natCast_nonneg _
    rw [hk1]
    split_ifs with hc
    · have hc' : (d : Int) ≤ 2 * ((m % d : Nat) : Int) := by exact_mod_cast hc
      push_cast
      constructor
      · intro h
        nlinarith [mul_le_mul_of_nonneg_right
          (show 2 * (c : Int) - 1 ≤ 2 * ((m / d : Nat) : Int) + 1 by omega) hD.le]
      · intro h
        by_contra hlt
        nlinarith [mul_le_mul_of_nonneg_right
          (show 2 * ((m / d : Nat) : Int) + 3 ≤ 2 * (c : Int) - 1 by omega) hD.le]
    · have hc' : 2 * ((m % d : Nat) : Int) < (d : Int) := by
        have := not_le.1 hc
        exact_mod_cast this
      constructor
      · intro h
        nlinarith [mul_le_mul_of_nonneg_right
          (show 2 * (c : Int) - 1 ≤ 2 * ((m / d : Nat) : Int) - 1 by omega) hD.le]
      · intro h
        by_contra hlt
        nlinarith [mul_le_mul_of_nonneg_right
          (show 2 * ((m / d : Nat) : Int) + 1 ≤ 2 * (c : Int) - 1 by omega) hD.le]

/-! ## Sums -/

/-- A positive sum is the rounded exact sum. -/
theorem add_fin_pos (n1 : Bool) (m1 : Nat) (e1 : Int) (n2 : Bool) (m2 : Nat) (e2 : Int)
    (h : 0 < F64.toRat (F64.fin n1 m1 e1) + F64.toRat (F64.fin n2 m2 e2)) :
    ∃ (M : Nat) (E : Int),
      F64.add (F64.fin n1 m1 e1) (F64.fin n2 m2 e2) = F64.roundNE false M E ∧
      (M : ℚ) * (2 : ℚ) ^ E = F64.toRat (F64.fin n1 m1 e1) + F64.toRat (F64.fin n2 m2 e2) := by
  have hex := add_exact n1 m1 e1 n2 m2 e2
  rw [← hex] at h ⊢
  have hs : 0 < F64.signed n1 (m1 * 2 ^ (e1 - min e1 e2).toNat) +
      F64.signed n2 (m2 * 2 ^ (e2 - min e1 e2).toNat) := by
    have := (mul_pos_iff_of_pos_right (two_zpow_pos (min e1 e2))).1 h
    exact_mod_cast this
  refine ⟨(F64.signed n1 (m1 * 2 ^ (e1 - min e1 e2).toNat) +
    F64.signed n2 (m2 * 2 ^ (e2 - min e1 e2).toNat)).natAbs, min e1 e2, ?_, ?_⟩
  · simp only [F64.add]
    rw [if_neg (by omega), decide_eq_false (by omega)]
  · rw [Nat.cast_natAbs, abs_of_nonneg hs.le]

/-- A sum that is not positive is a finite datum of value at most 0, or
`-Inf`. -/
theorem add_fin_nonpos (n1 : Bool) (m1 : Nat) (e1 : Int) (n2 : Bool) (m2 : Nat) (e2 : Int)
    (h : F64.toRat (F64.fin n1 m1 e1) + F64.toRat (F64.fin n2 m2 e2) ≤ 0) :
    F64.add (F64.fin n1 m1 e1) (F64.fin n2 m2 e2) = F64.inf true ∨
      ∃ n m e, F64.add (F64.fin n1 m1 e1) (F64.fin n2 m2 e2) = F64.fin n m e ∧
        F64.toRat (F64.fin n m e) ≤ 0 := by
  have hex := add_exact n1 m1 e1 n2 m2 e2
  rw [← hex] at h
  have hs : F64.signed n1 (m1 * 2 ^ (e1 - min e1 e2).toNat) +
      F64.signed n2 (m2 * 2 ^ (e2 - min e1 e2).toNat) ≤ 0 := by
    by_contra hlt
    have h1 : (0 : ℚ) < ((F64.signed n1 (m1 * 2 ^ (e1 - min e1 e2).toNat) +
        F64.signed n2 (m2 * 2 ^ (e2 - min e1 e2).toNat) : Int) : ℚ) := by
      exact_mod_cast not_le.1 hlt
    have := mul_pos h1 (two_zpow_pos (min e1 e2))
    linarith
  simp only [F64.add]
  split_ifs with h0
  · right
    exact ⟨_, _, _, rfl, by simp [F64.toRat, F64.signed]⟩
  · rw [decide_eq_true (by omega)]
    rcases roundNE_sign true (F64.signed n1 (m1 * 2 ^ (e1 - min e1 e2).toNat) +
      F64.signed n2 (m2 * 2 ^ (e2 - min e1 e2).toNat)).natAbs (min e1 e2) with hr | ⟨m3, e3, hr⟩
    · left; exact hr
    · right
      refine ⟨true, m3, e3, hr, ?_⟩
      simp only [F64.toRat, F64.signed, if_true]
      have : (0 : ℚ) ≤ (m3 : ℚ) * (2 : ℚ) ^ e3 :=
        mul_nonneg (Nat.cast_nonneg _) (two_zpow_pos e3).le
      push_cast
      linarith

/-- The result of `math.Max(1.3, y)`, when it is a finite datum, has a value
of at least that of 1.3. -/
theorem max_c1_3_ge (y : F64) (hi : ℚ) (h : F64.nonnegLe (F64.max F64.c1_3 y) hi) :
    F64.toRat F64.c1_3 ≤ F64.toRat (F64.max F64.c1_3 y) := by
  obtain ⟨a, b, hab, _⟩ := h
  cases y with
  | nan => simp [F64.max, F64.c1_3] at hab
  | inf s =>
    cases s
    · simp [F64.max, F64.c1_3] at hab
    · rw [max_c1_3_inf_true]
  | fin n m e =>
    rw [max_c1_3_fin]
    split_ifs with hlt
    · exact le_rfl
    · exact not_lt.1 hlt

/-! ## Facts about the SM-2 step -/

set_option maxRecDepth 100000 in
set_option exponentiation.threshold 2100 in
/-- The increment `CalculateNextReview` adds to the ease factor, for each of
the four ratings. -/
theorem newEF_ratings (ef : F64) :
    newEF ef Again = F64.add ef (F64.fin true 7205759403792793 (-53)) ∧
      newEF ef Hard = F64.add ef (F64.fin true 5764607523034236 (-54)) ∧
      newEF ef Good = F64.add ef (F64.fin true 5044031582654955 (-55)) ∧
      newEF ef Easy = F64.add ef (F64.fin false 7205759403792794 (-56)) :=
  ⟨by rfl, by rfl, by rfl, by rfl⟩

set_option maxRecDepth 100000 in
set_option exponentiation.threshold 2100 in
/-- The increment added to the ease factor is a finite datum of value at
most 1/8. -/
theorem newEF_eq_add_le (ef : F64) (rating : Rating) :
    ∃ n m e, newEF ef rating = F64.add ef (F64.fin n m e) ∧
      F64.toRat (F64.fin n m e) ≤ 1 / 8 := by
  unfold newEF quality
  split_ifs
  · exact ⟨true, 7205759403792793, -53, by rfl, by simp only [F64.toRat, F64.signed]; norm_num⟩
  · exact ⟨true, 5764607523034236, -54, by rfl, by simp only [F64.toRat, F64.signed]; norm_num⟩
  · exact ⟨true, 5044031582654955, -55, by rfl, by simp only [F64.toRat, F64.signed]; norm_num⟩
  · exact ⟨false, 7205759403792794, -56, by rfl, by simp only [F64.toRat, F64.signed]; norm_num⟩
  · exact ⟨true, 7205759403792793, -53, by rfl, by simp only [F64.toRat, F64.signed]; norm_num⟩

theorem max_c1_3_of_nonpos (y : F64)
    (h : y = F64.inf true ∨ ∃ n m e, y = F64.fin n m e ∧ F64.toRat (F64.fin n m e) ≤ 0) :
    F64.max F64.c1_3 y = F64.c1_3 := by
  rcases h with rfl | ⟨n, m, e, rfl, hy⟩
  · exact max_c1_3_inf_true
  · rw [max_c1_3_fin, if_pos (lt_of_le_of_lt hy toRat_c1_3_pos)]

theorem toRat_2_51 : F64.toRat (F64.fin false (2 ^ 52) (-1)) = (2 : ℚ) ^ (51 : Int) := by
  simp only [F64.toRat, F64.signed]
  norm_num

/-- The new ease factor grows with the increment added. -/
theorem max_add_mono (ef : F64) (n2 : Bool) (m2 : Nat) (e2 : Int) (n3 : Bool) (m3 : Nat)
    (e3 : Int) (hef : F64.le ef (F64.fin false (2 ^ 52) (-1)) = true)
    (hd : F64.toRat (F64.fin n2 m2 e2) ≤ F64.toRat (F64.fin n3 m3 e3))
    (hd3 : F64.toRat (F64.fin n3 m3 e3) ≤ 1) :
    F64.toRat (F64.max F64.c1_3 (F64.add ef (F64.fin n2 m2 e2))) ≤
      F64.toRat (F64.max F64.c1_3 (F64.add ef (F64.fin n3 m3 e3))) := by
  cases ef with
  | nan => simp [F64.le] at hef
  | inf a =>
    have ha : a = true := by simpa [F64.le] using hef
    subst ha
    simp only [F64.add]
    exact le_rfl
  | fin n1 m1 e1 =>
    have hef1 : F64.toRat (F64.fin n1 m1 e1) ≤ (2 : ℚ) ^ (51 : Int) := by
      rw [← toRat_2_51]
      exact (F64.le_fin_iff _ _ _ _ _ _).1 hef
    have h252 : (2 : ℚ) ^ (52 : Int) = (2 : ℚ) ^ (51 : Int) + (2 : ℚ) ^ (51 : Int) := by norm_num
    have h151 : (1 : ℚ) ≤ (2 : ℚ) ^ (51 : Int) := by norm_num
    by_cases h3 : F64.toRat (F64.fin n1 m1 e1) + F64.toRat (F64.fin n3 m3 e3) ≤ 0
    · rw [max_c1_3_of_nonpos _ (add_fin_nonpos n1 m1 e1 n3 m3 e3 h3),
        max_c1_3_of_nonpos _ (add_fin_nonpos n1 m1 e1 n2 m2 e2 (by linarith))]
    · obtain ⟨M3, E3, ha3, hv3⟩ := add_fin_pos n1 m1 e1 n3 m3 e3 (not_le.1 h3)
      obtain ⟨a3, b3, hr3, hb3⟩ := roundNE_le_pow false M3 E3 52 (by norm_num) (by norm_num)
        (by rw [hv3]; linarith)
      rw [ha3, hr3, max_c1_3_fin]
      by_cases h2 : F64.toRat (F64.fin n1 m1 e1) + F64.toRat (F64.fin n2 m2 e2) ≤ 0
      · rw [max_c1_3_of_nonpos _ (add_fin_nonpos n1 m1 e1 n2 m2 e2 h2)]
        split_ifs with hlt
        · exact le_rfl
        · exact not_lt.1 hlt
      · obtain ⟨M2, E2, ha2, hv2⟩ := add_fin_pos n1 m1 e1 n2 m2 e2 (not_le.1 h2)
        obtain ⟨a2, b2, hr2, hb2⟩ := roundNE_le_pow false M2 E2 52 (by norm_num) (by norm_num)
          (by rw [hv2]; linarith)
        have hmono := roundNE_mono false false false false M2 M3 E2 E3 a2 a3 b2 b3
          (by rw [hv2, hv3]; linarith) hr2 hr3
        rw [ha2, hr2, max_c1_3_fin]
        rw [← F64.toRat_fin_false, ← F64.toRat_fin_false] at hmono
        split_ifs with hlt2 hlt3 hlt3
        · exact le_rfl
        · exact not_lt.1 hlt3
        · linarith
        · exact hmono

/-- The interval before the rating modifiers grows with the new ease
factor. -/
theorem baseInterval_mono (reps interval : Int) (ef1 ef2 : F64) (h0 : 0 ≤ interval)
    (h1 : interval ≤ 365) (hef1 : F64.nonnegLe ef1 ((2 : ℚ) ^ (52 : Int)))
    (hef2 : F64.nonnegLe ef2 ((2 : ℚ) ^ (52 : Int))) (h : F64.toRat ef1 ≤ F64.toRat ef2) :
    baseInterval reps interval ef1 ≤ baseInterval reps interval ef2 := by
  unfold baseInterval
  split_ifs
  · exact le_rfl
  · exact le_rfl
  · have hi : F64.nonnegLe (F64.ofInt interval) ((2 : ℚ) ^ (9 : Int)) :=
      ofInt_nonnegLe interval 9 h0 (by norm_num) (by norm_num) (by
        have : (interval : ℚ) ≤ 365 := by exact_mod_cast h1
        norm_num
        linarith)
    have hp1 := mul_nonnegLe _ _ _ _ 61 (by norm_num) (by norm_num) hi hef1 (by positivity)
      (by norm_num)
    have hp2 := mul_nonnegLe _ _ _ _ 61 (by norm_num) (by norm_num) hi hef2 (by positivity)
      (by norm_num)
    have hr1 := round_nonnegLe _ 61 (by norm_num) hp1
    have hpos := (toInt_nonnegLe _ _ (2 ^ 61) hr1 (by norm_num) (by norm_num)).1
    obtain ⟨mi, ei, hie, _⟩ := hi
    obtain ⟨a1, b1, rfl, _⟩ := hef1
    obtain ⟨a2, b2, rfl, _⟩ := hef2
    obtain ⟨u1, w1, hu1, hv1⟩ := hp1
    obtain ⟨u2, w2, hu2, hv2⟩ := hp2
    rw [F64.toRat_fin_false, F64.toRat_fin_false] at h
    have hmi0 : (0 : ℚ) ≤ (mi : ℚ) * (2 : ℚ) ^ ei :=
      mul_nonneg (Nat.cast_nonneg _) (two_zpow_pos ei).le
    have hx1 : F64.roundNE false (mi * a1) (ei + b1) = F64.fin false u1 w1 := by
      rw [← hu1, hie]; simp [F64.mul]
    have hx2 : F64.roundNE false (mi * a2) (ei + b2) = F64.fin false u2 w2 := by
      rw [← hu2, hie]; simp [F64.mul]
    have hle : ((mi * a1 : Nat) : ℚ) * (2 : ℚ) ^ (ei + b1) ≤
        ((mi * a2 : Nat) : ℚ) * (2 : ℚ) ^ (ei + b2) := by
      rw [zpow_add₀ (by norm_num : (2 : ℚ) ≠ 0), zpow_add₀ (by norm_num : (2 : ℚ) ≠ 0)]
      push_cast
      calc (mi : ℚ) * (a1 : ℚ) * ((2 : ℚ) ^ ei * (2 : ℚ) ^ b1)
          = ((mi : ℚ) * (2 : ℚ) ^ ei) * ((a1 : ℚ) * (2 : ℚ) ^ b1) := by ring
        _ ≤ ((mi : ℚ) * (2 : ℚ) ^ ei) * ((a2 : ℚ) * (2 : ℚ) ^ b2) :=
            mul_le_mul_of_nonneg_left h hmi0
        _ = (mi : ℚ) * (a2 : ℚ) * ((2 : ℚ) ^ ei * (2 : ℚ) ^ b2) := by ring
    have hmono := roundNE_mono false false false false _ _ _ _ u1 u2 w1 w2 hle hx1 hx2
    have hlt1 := roundNE_fin_lt false false _ _ u1 w1 hx1
    have hlt2 := roundNE_fin_lt false false _ _ u2 w2 hx2
    rw [hu1] at hpos ⊢
    rw [hu2]
    obtain ⟨c, hc⟩ := Int.eq_ofNat_of_zero_le hpos
    rw [hc]
    have h3 := (toInt_round_iff u1 w1 hlt1 hv1 c).1 (by rw [hc])
    exact (toInt_round_iff u2 w2 hlt2 hv2 c).2 (le_trans h3 hmono)

theorem toRat_c1_3_ge : (13 : ℚ) / 10 ≤ F64.toRat F64.c1_3 := by
  simp only [F64.c1_3, F64.toRat, F64.signed]
  norm_num

/-- With a prior interval in `[1, 365]` and a new ease factor of at least
1.3, the interval before the rating modifiers is at least 1, and at least
`floor(1.3 * interval + 1/2)` when it is the rounded product. -/
theorem baseInterval_ge (reps interval : Int) (ef : F64) (h0 : 1 ≤ interval)
    (h1 : interval ≤ 365) (hef : F64.nonnegLe ef ((2 : ℚ) ^ (52 : Int)))
    (hge : F64.toRat F64.c1_3 ≤ F64.toRat ef) :
    1 ≤ baseInterval reps interval ef ∧
      (reps ≠ 1 → reps ≠ 2 → (13 * interval + 5) / 10 ≤ baseInterval reps interval ef) := by
  have hi : F64.nonnegLe (F64.ofInt interval) ((2 : ℚ) ^ (9 : Int)) :=
    ofInt_nonnegLe interval 9 (by omega) (by norm_num) (by norm_num) (by
      have : (interval : ℚ) ≤ 365 := by exact_mod_cast h1
      norm_num
      linarith)
  have hp := mul_nonnegLe _ _ _ _ 61 (by norm_num) (by norm_num) hi hef (by positivity)
    (by norm_num)
  obtain ⟨n, hn⟩ := Int.eq_ofNat_of_zero_le (show 0 ≤ interval by omega)
  obtain ⟨g, hg⟩ := Int.eq_ofNat_of_zero_le (show 0 ≤ (13 * interval + 5) / 10 by omega)
  have hg1 : 1 ≤ g := by omega
  have hlow := ofInt_ge_nat interval n _ (by omega) (by omega) hi
  have hgrid : (((2 * g - 1 : Nat) : ℚ)) * (2 : ℚ) ^ (-1 : Int) ≤ (n : ℚ) * (13 / 10) := by
    have h10 : 10 * (g : Int) ≤ 13 * (n : Int) + 5 := by omega
    have h10q : 10 * (g : ℚ) ≤ 13 * (n : ℚ) + 5 := by exact_mod_cast h10
    rw [Nat.cast_sub (by omega)]
    push_cast
    rw [zpow_neg_one]
    linarith
  have hmg := mul_ge_grid (F64.ofInt interval) ef (n : ℚ) (13 / 10) (2 * g - 1) (-1) _
    (by norm_num) (by omega) (nonnegLe_self _ _ hi) (nonnegLe_self _ _ hef) hlow
    (le_trans toRat_c1_3_ge hge) (Nat.cast_nonneg _) (by norm_num) hgrid hp
  have hmain : ((13 * interval + 5) / 10 : Int) ≤
      F64.toInt (F64.round (F64.mul (F64.ofInt interval) ef)) := by
    obtain ⟨mi, ei, hie, _⟩ := hi
    obtain ⟨a, b, rfl, _⟩ := hef
    obtain ⟨u, w, hu, hv⟩ := hp
    have hx : F64.roundNE false (mi * a) (ei + b) = F64.fin false u w := by
      rw [← hu, hie]; simp [F64.mul]
    have hlt := roundNE_fin_lt false false _ _ u w hx
    rw [hu, F64.toRat_fin_false] at hmg
    rw [hu, hg]
    apply (toInt_round_iff u w hlt hv g).2
    refine le_trans (le_of_eq ?_) hmg
    rw [Nat.cast_sub (by omega)]
    push_cast
    rw [zpow_neg_one]
    ring
  unfold baseInterval
  constructor
  · split_ifs
    · norm_num
    · norm_num
    · omega
  · intro hr1 hr2
    rw [if_neg hr1, if_neg hr2]
    exact hmain

set_option maxRecDepth 100000 in
set_option exponentiation.threshold 2100 in
/-- An ease factor of at most `2 ^ 50` stays at most `2 ^ 50`: from there on
adding 0.1 is absorbed by the rounding. -/
theorem ease_le_2_50 (ef : F64) (rating : Rating)
    (h : F64.nonnegLe ef ((2 : ℚ) ^ (50 : Int))) :
    F64.nonnegLe (F64.max F64.c1_3 (newEF ef rating)) ((2 : ℚ) ^ (50 : Int)) := by
  obtain ⟨n2, m2, e2, hadd, hd⟩ := newEF_eq_add_le ef rating
  obtain ⟨m1, e1, rfl, h1⟩ := h
  rw [hadd]
  by_cases hs : F64.toRat (F64.fin false m1 e1) + F64.toRat (F64.fin n2 m2 e2) ≤ 0
  · rw [max_c1_3_of_nonpos _ (add_fin_nonpos false m1 e1 n2 m2 e2 hs)]
    exact c1_3_nonnegLe _ (by norm_num)
  · obtain ⟨M, E, ha, hv⟩ := add_fin_pos false m1 e1 n2 m2 e2 (not_le.1 hs)
    rw [F64.toRat_fin_false] at hv
    have h251 : (2 : ℚ) ^ (51 : Int) = (2 : ℚ) ^ (50 : Int) + (2 : ℚ) ^ (50 : Int) := by norm_num
    have h150 : (1 : ℚ) ≤ (2 : ℚ) ^ (50 : Int) := by norm_num
    obtain ⟨a, b, hr, _⟩ := roundNE_le_pow false M E 51 (by norm_num) (by norm_num)
      (by rw [hv]; linarith)
    have hcmp : F64.roundNE false (2 ^ 53 + 1) (-3) = F64.fin false (2 ^ 52) (-2) := by decide
    have hmono := roundNE_mono false false false false M (2 ^ 53 + 1) E (-3) a (2 ^ 52) b (-2)
      (by
        rw [hv]
        have : (((2 ^ 53 + 1 : Nat) : ℚ)) * (2 : ℚ) ^ (-3 : Int) = (2 : ℚ) ^ (50 : Int) + 1 / 8 := by
          norm_num
        rw [this]
        linarith) hr hcmp
    rw [ha, hr]
    apply max_c1_3_nonnegLe _ _ (by norm_num)
    right; right
    refine ⟨a, b, rfl, le_trans hmono ?_⟩
    norm_num

theorem le_of_nonnegLe_2_50 (ef : F64) (h : F64.nonnegLe ef ((2 : ℚ) ^ (50 : Int))) :
    F64.le ef (F64.fin false (2 ^ 52) (-1)) = true := by
  obtain ⟨m, e, rfl, hv⟩ := h
  rw [F64.le_fin_iff, toRat_2_51, F64.toRat_fin_false]
  refine le_trans hv ?_
  norm_num

/-- One review of a card with an ease factor of at most `2 ^ 51` and an
interval in `[1, 365]` gives an interval in `[1, 365]`. -/
theorem interval_step (card : CardState) (rating : Rating)
    (hef : F64.le card.EaseFactor (F64.fin false (2 ^ 52) (-1)) = true)
    (h0 : 1 ≤ card.Interval) (h1 : card.Interval ≤ 365) :
    1 ≤ (CalculateNextReview card rating).Interval ∧
      (CalculateNextReview card rating).Interval ≤ 365 := by
  have he := ease_nonnegLe card.EaseFactor rating hef
  have hge := max_c1_3_ge _ _ he
  have hb := baseInterval_range
    (if rating = Again then 0 else wrap64 (card.Repetitions + 1)) card.Interval _ (by omega) h1 he
  have hb1 := (baseInterval_ge
    (if rating = Again then 0 else wrap64 (card.Repetitions + 1)) card.Interval _ h0 h1 he hge).1
  obtain ⟨hh, hE⟩ := modifiers_exact _ hb.1 hb.2
  simp only [CalculateNextReview]
  by_cases hA : rating = Again
  · simp [hA]
  · simp only [if_neg hA] at hb hb1 hh hE ⊢
    by_cases hH : rating = Hard
    · simp only [if_pos hH]
      rw [hh]
      omega
    · simp only [if_neg hH]
      by_cases hEz : rating = Easy
      · simp only [if_pos hEz]
        rw [hE]
        omega
      · simp only [if_neg hEz]
        split_ifs <;> omega

/-! ## C21: no reviewed card has interval 0 -/

set_option maxRecDepth 100000 in
set_option exponentiation.threshold 2100 in
/-- The first review of a card (no repetitions yet) gives the interval 1,
whatever the rating. -/
theorem first_review (card : CardState) (rating : Rating) (h : card.Repetitions = 0) :
    (CalculateNextReview card rating).Interval = 1 := by
  have hw : wrap64 (0 + 1) = 1 := by decide
  have hH : F64.toInt (F64.max F64.c1 (F64.mul (F64.ofInt 1) F64.c0_8)) = 1 := by decide
  have hE : F64.toInt (F64.mul (F64.ofInt 1) F64.c1_3) = 1 := by decide
  simp only [CalculateNextReview, h, hw, baseInterval, if_true, hH, hE]
  split_ifs <;> first | rfl | omega

set_option maxRecDepth 100000 in
set_option exponentiation.threshold 2100 in
/-- The states reachable from `DefaultCardState`: the ease factor is a finite
datum of at most `2 ^ 50`, and the interval lies in `[1, 365]` unless the card
is still new. -/
theorem applyRatings_reachable (rs : List Rating) :
    F64.nonnegLe (applyRatings DefaultCardState rs).EaseFactor ((2 : ℚ) ^ (50 : Int)) ∧
      ((1 ≤ (applyRatings DefaultCardState rs).Interval ∧
          (applyRatings DefaultCardState rs).Interval ≤ 365) ∨
        (rs = [] ∧ (applyRatings DefaultCardState rs).Repetitions = 0)) := by
  induction rs using List.reverseRecOn with
  | nil =>
    refine ⟨⟨5 * 2 ^ 50, -51, rfl, ?_⟩, Or.inr ⟨rfl, rfl⟩⟩
    norm_num
  | append_singleton rs r ih =>
    obtain ⟨hef, hi⟩ := ih
    rw [applyRatings_append]
    refine ⟨ease_le_2_50 _ r hef, Or.inl ?_⟩
    rcases hi with ⟨h0, h1⟩ | ⟨_, hr⟩
    · exact interval_step _ r (le_of_nonnegLe_2_50 _ hef) h0 h1
    · rw [first_review _ r hr]
      omega

/-- C21: after every non-empty sequence of ratings (the four defined ones, or
any other value), applied in order by `CalculateNextReview` from
`DefaultCardState`, the interval satisfies `1 <= interval <= 365`: no reviewed
card is scheduled with interval 0. -/
theorem C21_reviewed_interval (ratings : List Rating) (h : ratings ≠ []) :
    1 ≤ (applyRatings DefaultCardState ratings).Interval ∧
      (applyRatings DefaultCardState ratings).Interval ≤ 365 := by
  rcases (applyRatings_reachable ratings).2 with hi | ⟨hnil, _⟩
  · exact hi
  · exact absurd hnil h

set_option maxRecDepth 100000 in
set_option exponentiation.threshold 2100 in
/-- C21, witness: `Easy, Easy, Again, Easy`. -/
theorem C21_reviewed_interval_witness :
    [Easy, Easy, Again, Easy] ≠ [] ∧
      1 ≤ (applyRatings DefaultCardState [Easy, Easy, Again, Easy]).Interval ∧
      (applyRatings DefaultCardState [Easy, Easy, Again, Easy]).Interval ≤ 365 :=
  ⟨by decide, C21_reviewed_interval [Easy, Easy, Again, Easy] (by decide)⟩

/-! ## C22: the order of the ratings -/

set_option maxRecDepth 100000 in
set_option exponentiation.threshold 2100 in
/-- C22 (as amended): for every card state with an ease factor of at most
`2 ^ 51` (so not NaN) and `1 <= interval <= 365`, whatever its repetitions,
the intervals `CalculateNextReview` returns are ordered by rating:
`interval(Hard) <= interval(Good) <= interval(Easy)`. -/
theorem C22_rating_order (card : CardState)
    (hef : F64.le card.EaseFactor (F64.fin false (2 ^ 52) (-1)) = true)
    (h0 : 1 ≤ card.Interval) (h1 : card.Interval ≤ 365) :
    (CalculateNextReview card Hard).Interval ≤ (CalculateNextReview card Good).Interval ∧
      (CalculateNextReview card Good).Interval ≤ (CalculateNextReview card Easy).Interval := by
  obtain ⟨_, hnH, hnG, hnE⟩ := newEF_ratings card.EaseFactor
  have heH := ease_nonnegLe card.EaseFactor Hard hef
  have heG := ease_nonnegLe card.EaseFactor Good hef
  have heE := ease_nonnegLe card.EaseFactor Easy hef
  have hHG : F64.toRat (F64.max F64.c1_3 (newEF card.EaseFactor Hard)) ≤
      F64.toRat (F64.max F64.c1_3 (newEF card.EaseFactor Good)) := by
    rw [hnH, hnG]
    apply max_add_mono _ _ _ _ _ _ _ hef <;> simp only [F64.toRat, F64.signed] <;> norm_num
  have hGE : F64.toRat (F64.max F64.c1_3 (newEF card.EaseFactor Good)) ≤
      F64.toRat (F64.max F64.c1_3 (newEF card.EaseFactor Easy)) := by
    rw [hnG, hnE]
    apply max_add_mono _ _ _ _ _ _ _ hef <;> simp only [F64.toRat, F64.signed] <;> norm_num
  have hbH := baseInterval_range (wrap64 (card.Repetitions + 1)) card.Interval _ (by omega) h1 heH
  have hbG := baseInterval_range (wrap64 (card.Repetitions + 1)) card.Interval _ (by omega) h1 heG
  have hbE := baseInterval_range (wrap64 (card.Repetitions + 1)) card.Interval _ (by omega) h1 heE
  have hG1 := (baseInterval_ge (wrap64 (card.Repetitions + 1)) card.Interval _ h0 h1 heG
    (max_c1_3_ge _ _ heG)).1
  have hm1 := baseInterval_mono (wrap64 (card.Repetitions + 1)) card.Interval _ _ (by omega) h1
    heH heG hHG
  have hm2 := baseInterval_mono (wrap64 (card.Repetitions + 1)) card.Interval _ _ (by omega) h1
    heG heE hGE
  have hh := (modifiers_exact _ hbH.1 hbH.2).1
  have he := (modifiers_exact _ hbE.1 hbE.2).2
  have hHA : (Hard = Again) = False := by simp [Hard, Again]
  have hGA : (Good = Again) = False := by simp [Good, Again]
  have hGH : (Good = Hard) = False := by simp [Good, Hard]
  have hGEq : (Good = Easy) = False := by simp [Good, Easy]
  have hEA : (Easy = Again) = False := by simp [Easy, Again]
  have hEH : (Easy = Hard) = False := by simp [Easy, Hard]
  simp only [CalculateNextReview, hHA, hGA, hGH, hGEq, hEA, hEH, if_false, if_true]
  rw [hh, he]
  constructor
  · split_ifs <;> omega
  · split_ifs <;> omega

set_option maxRecDepth 100000 in
set_option exponentiation.threshold 2100 in
/-- C22, witness: the state `{2.5, 6, 2}`, with the intervals 10, 14 and
20. -/
theorem C22_rating_order_witness :
    F64.le F64.c2_5 (F64.fin false (2 ^ 52) (-1)) = true ∧
      (CalculateNextReview { EaseFactor := F64.c2_5, Interval := 6, Repetitions := 2 }
        Hard).Interval ≤
      (CalculateNextReview { EaseFactor := F64.c2_5, Interval := 6, Repetitions := 2 }
        Good).Interval ∧
      (CalculateNextReview { EaseFactor := F64.c2_5, Interval := 6, Repetitions := 2 }
        Good).Interval ≤
      (CalculateNextReview { EaseFactor := F64.c2_5, Interval := 6, Repetitions := 2 }
        Easy).Interval :=
  ⟨by decide,
    C22_rating_order { EaseFactor := F64.c2_5, Interval := 6, Repetitions := 2 }
      (by decide) (by decide) (by decide)⟩

set_option maxRecDepth 100000 in
set_option exponentiation.threshold 2100 in
/-- C22, counterexample: for the state with ease factor `2 ^ 63`, interval 1
and 2 repetitions the product does not fit an `int`: `Good` returns the
interval `-2 ^ 63`, `Hard` the interval 1. -/
theorem C22_overflow_counterexample :
    (1 : Int) ≤ 1 ∧ (0 : Int) ≤ 2 ∧
      (CalculateNextReview
        { EaseFactor := F64.fin false (2 ^ 52) 11, Interval := 1, Repetitions := 2 }
        Hard).Interval = 1 ∧
      (CalculateNextReview
        { EaseFactor := F64.fin false (2 ^ 52) 11, Interval := 1, Repetitions := 2 }
        Good).Interval = -(2 ^ 63) ∧
      ¬ (CalculateNextReview
        { EaseFactor := F64.fin false (2 ^ 52) 11, Interval := 1, Repetitions := 2 }
        Hard).Interval ≤
        (CalculateNextReview
          { EaseFactor := F64.fin false (2 ^ 52) 11, Interval := 1, Repetitions := 2 }
          Good).Interval := by
  decide

/-! ## C23: a review other than `Again` does not shorten the interval -/

/-- The capped intervals of the three ratings are at least the prior
interval `i` when the interval before the modifiers is at least
`floor(1.3 * i + 1/2)`. -/
theorem modifiers_grow (i b : Int) (h0 : 1 ≤ i) (h1 : i ≤ 365) (hb : (13 * i + 5) / 10 ≤ b) :
    i ≤ min 365 (max 1 (b * 4 / 5)) ∧ i ≤ min 365 (b * 13 / 10) ∧ i ≤ min 365 b := by
  by_cases h8 : 8 ≤ i
  · refine ⟨?_, ?_, ?_⟩ <;> omega
  · have h7 : i ≤ 7 := by omega
    interval_cases i <;> refine ⟨?_, ?_, ?_⟩ <;> omega

set_option maxRecDepth 100000 in
set_option exponentiation.threshold 2100 in
/-- C23 (as amended): for every card state with an ease factor of at most
`2 ^ 51` (so not NaN), at least 2 repetitions (an `int`) and
`1 <= interval <= 365`, and every rating other than `Again`, the interval
`CalculateNextReview` returns is at least the prior interval. -/
theorem C23_interval_grows (card : CardState) (rating : Rating)
    (hef : F64.le card.EaseFactor (F64.fin false (2 ^ 52) (-1)) = true)
    (hr : 2 ≤ card.Repetitions) (hr2 : card.Repetitions < 2 ^ 63)
    (h0 : 1 ≤ card.Interval) (h1 : card.Interval ≤ 365) (hA : rating ≠ Again) :
    card.Interval ≤ (CalculateNextReview card rating).Interval := by
  have hw : wrap64 (card.Repetitions + 1) ≠ 1 ∧ wrap64 (card.Repetitions + 1) ≠ 2 := by
    unfold wrap64
    constructor <;> omega
  have he := ease_nonnegLe card.EaseFactor rating hef
  have hb := baseInterval_range (wrap64 (card.Repetitions + 1)) card.Interval _ (by omega) h1 he
  have hg := (baseInterval_ge (wrap64 (card.Repetitions + 1)) card.Interval _ h0 h1 he
    (max_c1_3_ge _ _ he)).2 hw.1 hw.2
  obtain ⟨hh, hE⟩ := modifiers_exact _ hb.1 hb.2
  obtain ⟨g1, g2, g3⟩ := modifiers_grow _ _ h0 h1 hg
  simp only [CalculateNextReview, if_neg hA]
  by_cases hH : rating = Hard
  · simp only [if_pos hH]
    rw [hh]
    exact g1
  · simp only [if_neg hH]
    by_cases hEz : rating = Easy
    · simp only [if_pos hEz]
      rw [hE]
      exact g2
    · simp only [if_neg hEz]
      split_ifs <;> omega

set_option maxRecDepth 100000 in
set_option exponentiation.threshold 2100 in
/-- C23, witness: the state `{2.5, 6, 2}` reviewed as `Hard` gets the interval
10. -/
theorem C23_interval_grows_witness :
    F64.le F64.c2_5 (F64.fin false (2 ^ 52) (-1)) = true ∧ Hard ≠ Again ∧
      (6 : Int) ≤
        (CalculateNextReview { EaseFactor := F64.c2_5, Interval := 6, Repetitions := 2 }
          Hard).Interval :=
  ⟨by decide, by decide,
    C23_interval_grows { EaseFactor := F64.c2_5, Interval := 6, Repetitions := 2 } Hard
      (by decide) (by decide) (by decide) (by decide) (by decide) (by decide)⟩

set_option maxRecDepth 100000 in
set_option exponentiation.threshold 2100 in
/-- C23, counterexample: the state with ease factor `2 ^ 63`, interval 10 and
5 repetitions, reviewed as `Hard`, gets the interval 1: the product
`10 * 2 ^ 63` does not fit an `int`. -/
theorem C23_overflow_counterexample :
    F64.le F64.c1_3 (F64.fin false (2 ^ 52) 11) = true ∧
      (CalculateNextReview
        { EaseFactor := F64.fin false (2 ^ 52) 11, Interval := 10, Repetitions := 5 }
        Hard).Interval = 1 ∧
      ¬ (10 : Int) ≤
        (CalculateNextReview
          { EaseFactor := F64.fin false (2 ^ 52) 11, Interval := 10, Repetitions := 5 }
          Hard).Interval := by
  decide

/-! ## C24: which rating raises the ease factor -/

theorem ilog2_eq (n k : Nat) (h1 : 2 ^ k ≤ n) (h2 : n < 2 ^ (k + 1)) : F64.ilog2 n = k := by
  have hn : n ≠ 0 := by
    have : 0 < 2 ^ k := by positivity
    omega
  have ha := (Nat.pow_lt_pow_iff_right (by norm_num : 1 < 2)).1
    (lt_of_le_of_lt (F64.ilog2_le n hn) h2)
  have hb := (Nat.pow_lt_pow_iff_right (by norm_num : 1 < 2)).1
    (lt_of_le_of_lt h1 (F64.lt_ilog2 n hn))
  omega

set_option maxRecDepth 100000 in
set_option exponentiation.threshold 2100 in
/-- For every rating but `Easy` the increment added to the ease factor is a
finite datum of negative value. -/
theorem newEF_eq_add_nonpos (ef : F64) (rating : Rating) (h : rating ≠ Easy) :
    ∃ n m e, newEF ef rating = F64.add ef (F64.fin n m e) ∧
      F64.toRat (F64.fin n m e) ≤ 0 := by
  unfold newEF quality
  split_ifs
  · exact ⟨true, 7205759403792793, -53, by rfl, by simp only [F64.toRat, F64.signed]; norm_num⟩
  · exact ⟨true, 5764607523034236, -54, by rfl, by simp only [F64.toRat, F64.signed]; norm_num⟩
  · exact ⟨true, 5044031582654955, -55, by rfl, by simp only [F64.toRat, F64.signed]; norm_num⟩
  · exact ⟨true, 7205759403792793, -53, by rfl, by simp only [F64.toRat, F64.signed]; norm_num⟩

/-- A normal datum `m * 2 ^ e` increased by three quarters of a unit in the
last place is rounded to its successor `(m + 1) * 2 ^ e`. -/
theorem roundNE_three_quarters (m : Nat) (e : Int) (a : Nat) (b : Int) (hm1 : 2 ^ 52 ≤ m)
    (hm2 : m < 2 ^ 53) (he : -1074 ≤ e)
    (h : F64.roundNE false (4 * m + 3) (e - 2) = F64.fin false a b) :
    (a : ℚ) * (2 : ℚ) ^ b = ((m + 1 : Nat) : ℚ) * (2 : ℚ) ^ e := by
  have hlog : F64.ilog2 (4 * m + 3) = 54 := ilog2_eq _ 54 (by omega) (by omega)
  have hq : e = max (e - 2 + ((F64.ilog2 (4 * m + 3) : Nat) : Int) - 52) (-1074) := by
    rw [hlog]
    push_cast
    omega
  obtain ⟨_, t, hval, hcase⟩ := roundNE_fin_val false false (4 * m + 3) (e - 2) a b e
    (by omega) hq h
  rcases hcase with ⟨hqe, _⟩ | ⟨_, ht⟩
  · omega
  · have hs : (e - (e - 2)).toNat = 2 := by
      have : e - (e - 2) = 2 := by ring
      rw [this]
      rfl
    rw [hs] at ht
    have ht1 : t = m + 1 := by
      rw [ht]
      unfold F64.roundShift
      have h4 : (2 : Nat) ^ 2 = 4 := by norm_num
      have h2 : (2 : Nat) ^ (2 - 1) = 2 := by norm_num
      rw [h4, h2]
      have hmod : (4 * m + 3) % 4 = 3 := by omega
      have hdiv : (4 * m + 3) / 4 = m := by omega
      rw [hmod, hdiv, if_pos (Or.inl (by norm_num))]
    rw [hval, ht1]

theorem CalculateNextReview_ease (card : CardState) (rating : Rating) :
    (CalculateNextReview card rating).EaseFactor =
      F64.max F64.c1_3 (newEF card.EaseFactor rating) := rfl

set_option maxRecDepth 100000 in
set_option exponentiation.threshold 2100 in
/-- The direction in which a rating moves an ease factor in
`[1.3, 2 ^ 50)`. -/
theorem ease_direction (ef : F64) (hc : F64.canonical ef = true)
    (h13 : F64.le F64.c1_3 ef = true)
    (h50 : F64.lt ef (F64.fin false (2 ^ 52) (-2)) = true) :
    (∀ rating : Rating, rating ≠ Easy →
      F64.le (F64.max F64.c1_3 (newEF ef rating)) ef = true) ∧
    F64.max F64.c1_3 (newEF ef Easy) = F64.add ef F64.c0_1 ∧
    F64.lt ef (F64.max F64.c1_3 (newEF ef Easy)) = true := by
  cases ef with
  | nan => simp [F64.lt] at h50
  | inf s =>
    have hs : s = true := by simpa [F64.lt] using h50
    subst hs
    simp [F64.le, F64.c1_3] at h13
  | fin n m e =>
    have hv13 : F64.toRat F64.c1_3 ≤ F64.toRat (F64.fin n m e) :=
      (F64.le_fin_iff false 5854679515581645 (-52) n m e).1 h13
    have hv50 := (F64.lt_fin_iff _ _ _ _ _ _).1 h50
    have h250 : F64.toRat (F64.fin false (2 ^ 52) (-2)) = (2 : ℚ) ^ (50 : Int) := by
      simp only [F64.toRat, F64.signed]
      norm_num
    rw [h250] at hv50
    have hpos := lt_of_lt_of_le toRat_c1_3_pos hv13
    have hn : n = false := by
      cases n
      · rfl
      · exfalso
        simp only [F64.toRat, F64.signed, if_true] at hpos
        have : (0 : ℚ) ≤ (m : ℚ) * (2 : ℚ) ^ e :=
          mul_nonneg (Nat.cast_nonneg _) (two_zpow_pos e).le
        push_cast at hpos
        linarith
    subst hn
    rw [F64.toRat_fin_false m e] at hv13 hv50 hpos
    simp only [F64.canonical, decide_eq_true_eq] at hc
    obtain ⟨hm53, he1, he2, hnorm⟩ := hc
    have h12 : (1 : ℚ) < 2 := by norm_num
    have h20 : (2 : ℚ) ≠ 0 := by norm_num
    have h113 : (1 : ℚ) < F64.toRat F64.c1_3 := by
      simp only [F64.c1_3, F64.toRat, F64.signed]
      norm_num
    have hm52 : 2 ^ 52 ≤ m := by
      rcases hnorm with h | h
      · exact h
      · exfalso
        subst h
        have h1 : (m : ℚ) * (2 : ℚ) ^ (-1074 : Int) ≤
            (2 : ℚ) ^ (53 : Int) * (2 : ℚ) ^ (-1074 : Int) :=
          mul_le_mul_of_nonneg_right (by exact_mod_cast hm53.le) (two_zpow_pos _).le
        have h2 : (2 : ℚ) ^ (53 : Int) * (2 : ℚ) ^ (-1074 : Int) ≤ 1 := by
          rw [← zpow_add₀ h20]
          exact zpow_le_one_of_nonpos₀ h12.le (by norm_num)
        linarith
    have he3 : e ≤ -3 := by
      by_contra hlt
      have h1 : (2 : ℚ) ^ (50 : Int) ≤ (m : ℚ) * (2 : ℚ) ^ e := by
        calc (2 : ℚ) ^ (50 : Int) = (2 : ℚ) ^ (52 : Int) * (2 : ℚ) ^ (-2 : Int) := by
              rw [← zpow_add₀ h20]; norm_num
          _ ≤ (m : ℚ) * (2 : ℚ) ^ e :=
              mul_le_mul (by exact_mod_cast hm52) (zpow_le_zpow_right₀ h12.le (by omega))
                (two_zpow_pos _).le (Nat.cast_nonneg _)
      linarith
    obtain ⟨ms, es, hself, hselfv⟩ := roundNE_of_repr false m e hm53 he1 he2
    have h251 : (2 : ℚ) ^ (51 : Int) = (2 : ℚ) ^ (50 : Int) + (2 : ℚ) ^ (50 : Int) := by norm_num
    have h150 : (1 : ℚ) ≤ (2 : ℚ) ^ (50 : Int) := by norm_num
    have hdown : ∀ rating : Rating, rating ≠ Easy →
        F64.le (F64.max F64.c1_3 (newEF (F64.fin false m e) rating)) (F64.fin false m e) =
          true := by
      intro rating hr
      obtain ⟨n2, m2, e2, hadd, hd⟩ := newEF_eq_add_nonpos (F64.fin false m e) rating hr
      rw [hadd]
      by_cases hs : F64.toRat (F64.fin false m e) + F64.toRat (F64.fin n2 m2 e2) ≤ 0
      · rw [max_c1_3_of_nonpos _ (add_fin_nonpos false m e n2 m2 e2 hs)]
        exact h13
      · obtain ⟨M, E, ha, hv⟩ := add_fin_pos false m e n2 m2 e2 (not_le.1 hs)
        rw [F64.toRat_fin_false m e] at hv
        obtain ⟨a, b, hr2, _⟩ := roundNE_le_pow false M E 51 (by norm_num) (by norm_num)
          (by rw [hv]; linarith)
        have hmono := roundNE_mono false false false false M m E e a ms b es
          (by rw [hv]; linarith) hr2 hself
        rw [hselfv] at hmono
        rw [ha, hr2, max_c1_3_fin]
        split_ifs
        · exact h13
        · rw [F64.le_fin_iff, F64.toRat_fin_false, F64.toRat_fin_false]
          exact hmono
    have hE : newEF (F64.fin false m e) Easy =
        F64.add (F64.fin false m e) (F64.fin false 7205759403792794 (-56)) :=
      (newEF_ratings _).2.2.2
    have hc01 : F64.toRat (F64.fin false 7205759403792794 (-56)) =
        7205759403792794 * (2 : ℚ) ^ (-56 : Int) := by
      simp only [F64.toRat, F64.signed]
      norm_num
    have hc01a : (3 : ℚ) / 32 ≤ F64.toRat (F64.fin false 7205759403792794 (-56)) := by
      rw [hc01]; norm_num
    have hc01b : F64.toRat (F64.fin false 7205759403792794 (-56)) ≤ 1 / 8 := by
      rw [hc01]; norm_num
    obtain ⟨M, E, ha, hv⟩ := add_fin_pos false m e false 7205759403792794 (-56)
      (by rw [F64.toRat_fin_false m e]; linarith)
    rw [F64.toRat_fin_false m e] at hv
    obtain ⟨a, b, hr2, _⟩ := roundNE_le_pow false M E 51 (by norm_num) (by norm_num)
      (by rw [hv]; linarith)
    have hW : ((4 * m + 3 : Nat) : ℚ) * (2 : ℚ) ^ (e - 2) ≤ (M : ℚ) * (2 : ℚ) ^ E := by
      rw [hv]
      have h1 : (2 : ℚ) ^ (e - 2) = (2 : ℚ) ^ e * (2 : ℚ) ^ (-2 : Int) := by
        rw [← zpow_add₀ h20]; rfl
      have h2 : (2 : ℚ) ^ e ≤ (2 : ℚ) ^ (-3 : Int) := zpow_le_zpow_right₀ h12.le he3
      have h3 : (2 : ℚ) ^ (-2 : Int) = 1 / 4 := by norm_num
      have h4 : (2 : ℚ) ^ (-3 : Int) = 1 / 8 := by norm_num
      rw [h1, h3]
      push_cast
      rw [h4] at h2
      nlinarith [two_zpow_pos e]
    obtain ⟨aw, bw, hrw, _⟩ := roundNE_le_pow false (4 * m + 3) (e - 2) 51 (by norm_num)
      (by norm_num) (le_trans hW (by rw [hv]; linarith))
    have hsucc := roundNE_three_quarters m e aw bw hm52 hm53 he1 hrw
    have hmono := roundNE_mono false false false false (4 * m + 3) M (e - 2) E aw a bw b hW hrw hr2
    rw [hsucc] at hmono
    have hgt : (m : ℚ) * (2 : ℚ) ^ e < (a : ℚ) * (2 : ℚ) ^ b := by
      refine lt_of_lt_of_le ?_ hmono
      push_cast
      nlinarith [two_zpow_pos e]
    have hEF : F64.max F64.c1_3 (newEF (F64.fin false m e) Easy) = F64.fin false a b := by
      rw [hE, ha, hr2, max_c1_3_fin, if_neg]
      rw [F64.toRat_fin_false]
      linarith
    refine ⟨hdown, ?_, ?_⟩
    · rw [hEF]
      show F64.fin false a b =
        F64.add (F64.fin false m e) (F64.fin false 7205759403792794 (-56))
      rw [ha, hr2]
    · rw [hEF, F64.lt_fin_iff, F64.toRat_fin_false, F64.toRat_fin_false]
      exact hgt

/-- C24 (as amended): for every card state whose ease factor is a `float64`
datum with `1.3 <= ef < 2 ^ 50`: for every rating other than `Easy` the new
ease factor is at most the input one; for `Easy` it is the `float64` sum
`ef + 0.1` and strictly greater than the input one; so the new ease factor is
strictly greater than the input one if and only if the rating is `Easy`. -/
theorem C24_ease_direction (card : CardState) (hc : F64.canonical card.EaseFactor = true)
    (h13 : F64.le F64.c1_3 card.EaseFactor = true)
    (h50 : F64.lt card.EaseFactor (F64.fin false (2 ^ 52) (-2)) = true) :
    (∀ rating : Rating, rating ≠ Easy →
      F64.le (CalculateNextReview card rating).EaseFactor card.EaseFactor = true) ∧
    (CalculateNextReview card Easy).EaseFactor = F64.add card.EaseFactor F64.c0_1 ∧
    F64.lt card.EaseFactor (CalculateNextReview card Easy).EaseFactor = true ∧
    (∀ rating : Rating,
      F64.lt card.EaseFactor (CalculateNextReview card rating).EaseFactor = true ↔
        rating = Easy) := by
  obtain ⟨hdown, hE, hup⟩ := ease_direction card.EaseFactor hc h13 h50
  simp only [CalculateNextReview_ease]
  refine ⟨hdown, hE, hup, ?_⟩
  intro rating
  constructor
  · intro hlt
    by_contra hne
    have hle := hdown rating hne
    have h51 : F64.le card.EaseFactor (F64.fin false (2 ^ 52) (-1)) = true := by
      cases hef : card.EaseFactor with
      | nan => rw [hef] at h50; simp [F64.lt] at h50
      | inf s =>
        rw [hef] at h50
        have hs : s = true := by simpa [F64.lt] using h50
        subst hs
        rfl
      | fin n m e =>
        rw [hef] at h50
        have h1 := (F64.lt_fin_iff _ _ _ _ _ _).1 h50
        rw [F64.le_fin_iff]
        refine le_trans h1.le ?_
        simp only [F64.toRat, F64.signed]
        norm_num
    obtain ⟨a2, b2, hfin, _⟩ := ease_nonnegLe card.EaseFactor rating h51
    rw [hfin] at hlt hle
    cases hef : card.EaseFactor with
    | nan => rw [hef] at h50; simp [F64.lt] at h50
    | inf s =>
      rw [hef] at h50 hle
      cases s
      · simp [F64.lt] at h50
      · simp [F64.le] at hle
    | fin n m e =>
      rw [hef] at hlt hle
      have h1 := (F64.lt_fin_iff _ _ _ _ _ _).1 hlt
      have h2 := (F64.le_fin_iff _ _ _ _ _ _).1 hle
      linarith
  · rintro rfl
    exact hup

set_option maxRecDepth 100000 in
set_option exponentiation.threshold 2100 in
/-- C24, witness: the default ease factor 2.5. -/
theorem C24_ease_direction_witness :
    F64.canonical F64.c2_5 = true ∧ F64.le F64.c1_3 F64.c2_5 = true ∧
      F64.lt F64.c2_5 (F64.fin false (2 ^ 52) (-2)) = true ∧
      F64.lt F64.c2_5
        (CalculateNextReview { EaseFactor := F64.c2_5, Interval := 6, Repetitions := 2 }
          Easy).EaseFactor = true :=
  ⟨by decide, by decide, by decide,
    (C24_ease_direction { EaseFactor := F64.c2_5, Interval := 6, Repetitions := 2 }
      (by decide) (by decide) (by decide)).2.2.1⟩

set_option maxRecDepth 100000 in
set_option exponentiation.threshold 2100 in
/-- C24, counterexample: for the ease factor `2 ^ 50` the rating `Easy`
returns the same ease factor: 0.1 is less than half a unit in the last place
and is rounded away. -/
theorem C24_absorbed_counterexample :
    F64.canonical (F64.fin false (2 ^ 52) (-2)) = true ∧
      F64.le F64.c1_3 (F64.fin false (2 ^ 52) (-2)) = true ∧
      (CalculateNextReview
        { EaseFactor := F64.fin false (2 ^ 52) (-2), Interval := 6, Repetitions := 2 }
        Easy).EaseFactor = F64.fin false (2 ^ 52) (-2) ∧
      F64.lt (F64.fin false (2 ^ 52) (-2))
        (CalculateNextReview
          { EaseFactor := F64.fin false (2 ^ 52) (-2), Interval := 6, Repetitions := 2 }
          Easy).EaseFactor = false := by
  decide

/-! ## C25: ratings outside the defined set in `CalculateNextReview` -/

set_option maxRecDepth 100000 in
set_option exponentiation.threshold 2100 in
/-- C25 (as amended): for every rating outside `{0, 1, 2, 3}` and every card
state, `CalculateNextReview` does not reset the card: the new ease factor is
the `float64` evaluation of `max(1.3, ef + (0.1 - 5 * (0.08 + 5 * 0.02)))`,
that is `max(1.3, ef + (-0.7999999999999999))`, the one `Again` gives; the
repetitions are the prior ones plus one as an `int` (exactly prior + 1 unless
the prior count is the largest `int`); and the interval is the one the
repetition-count rule gives for that new ease factor and that new count, capped
at 365, without a modifier, which is how `Good` computes its interval from its
own new ease factor and count. -/
theorem C25_undefined_rating (card : CardState) (rating : Rating)
    (hA : rating ≠ Again) (hH : rating ≠ Hard) (hG : rating ≠ Good) (hE : rating ≠ Easy) :
    (CalculateNextReview card rating).EaseFactor =
        F64.max F64.c1_3 (F64.add card.EaseFactor (F64.fin true 7205759403792793 (-53))) ∧
      (CalculateNextReview card rating).EaseFactor = (CalculateNextReview card Again).EaseFactor ∧
      (CalculateNextReview card rating).Repetitions = wrap64 (card.Repetitions + 1) ∧
      (-(2 ^ 63) ≤ card.Repetitions → card.Repetitions < 2 ^ 63 - 1 →
        (CalculateNextReview card rating).Repetitions = card.Repetitions + 1) ∧
      (CalculateNextReview card rating).Interval =
        min 365 (baseInterval (CalculateNextReview card rating).Repetitions card.Interval
          (CalculateNextReview card rating).EaseFactor) ∧
      (CalculateNextReview card Good).Interval =
        min 365 (baseInterval (CalculateNextReview card Good).Repetitions card.Interval
          (CalculateNextReview card Good).EaseFactor) := by
  have h0 : specEaseChange F64.c0 = F64.fin true 7205759403792793 (-53) := by decide
  have hgA : (Good = Again) = False := by simp [Good, Again]
  have hgH : (Good = Hard) = False := by simp [Good, Hard]
  have hgE : (Good = Easy) = False := by simp [Good, Easy]
  have hmin : ∀ x : Int, (if x > 365 then 365 else x) = min 365 x := by
    intro x
    rw [min_def]
    split_ifs <;> omega
  refine ⟨?_, ?_, ?_, ?_, ?_, ?_⟩
  · rw [← h0]
    simp only [CalculateNextReview, newEF, quality, specEaseChange, if_neg hA, if_neg hH,
      if_neg hG, if_neg hE]
  · simp only [CalculateNextReview, newEF, quality, if_neg hA, if_neg hH, if_neg hG, if_neg hE,
      if_true]
  · simp only [CalculateNextReview, if_neg hA]
  · intro h1 h2
    simp only [CalculateNextReview, if_neg hA]
    exact wrap64_eq_self _ (by omega) (by omega)
  · simp only [CalculateNextReview, if_neg hA, if_neg hH, if_neg hE]
    exact hmin _
  · simp only [CalculateNextReview, hgA, hgH, hgE, if_false]
    exact hmin _

set_option maxRecDepth 100000 in
set_option exponentiation.threshold 2100 in
/-- C25, witness: the rating 7 on the state `{2.5, 6, 2}`. -/
theorem C25_undefined_rating_witness :
    (CalculateNextReview { EaseFactor := F64.c2_5, Interval := 6, Repetitions := 2 }
        7).Repetitions = 2 + 1 ∧
      (CalculateNextReview { EaseFactor := F64.c2_5, Interval := 6, Repetitions := 2 }
        7).Interval = 10 :=
  ⟨(C25_undefined_rating { EaseFactor := F64.c2_5, Interval := 6, Repetitions := 2 } 7
      (by decide) (by decide) (by decide) (by decide)).2.2.2.1 (by decide) (by decide),
    by decide⟩

set_option maxRecDepth 100000 in
set_option exponentiation.threshold 2100 in
/-- C25, counterexample: for the rating 7 and `ef = 2.5` the new ease factor
is 1.7000000000000002, which is not `max(1.3, 2.5 - 0.8)` evaluated in
`float64` (1.7); and at the largest `int` the repetitions wrap around to
`-2 ^ 63` instead of growing by one. -/
theorem C25_penalty_counterexample :
    (CalculateNextReview { EaseFactor := F64.c2_5, Interval := 6, Repetitions := 2 }
        7).EaseFactor = F64.fin false 7656119366529844 (-52) ∧
      F64.max F64.c1_3 (F64.sub F64.c2_5 F64.c0_8) = F64.c1_7 ∧
      (CalculateNextReview { EaseFactor := F64.c2_5, Interval := 6, Repetitions := 2 }
        7).EaseFactor ≠ F64.max F64.c1_3 (F64.sub F64.c2_5 F64.c0_8) ∧
      (CalculateNextReview { EaseFactor := F64.c2_5, Interval := 6, Repetitions := 2 ^ 63 - 1 }
        7).Repetitions = -(2 ^ 63) ∧
      (CalculateNextReview { EaseFactor := F64.c2_5, Interval := 6, Repetitions := 2 ^ 63 - 1 }
        7).Repetitions ≠ (2 ^ 63 - 1) + 1 := by
  decide

/-! ## C26: the intervals of the first repetitions -/

set_option maxRecDepth 100000 in
set_option exponentiation.threshold 2100 in
/-- The second successful review in a row gives the interval 6, cut to 4 by
`Hard` and raised to 7 by `Easy`. -/
theorem second_review (card : CardState) (rating : Rating) (hA : rating ≠ Again)
    (h : card.Repetitions = 1) :
    (CalculateNextReview card rating).Interval = 4 ∨
      (CalculateNextReview card rating).Interval = 6 ∨
      (CalculateNextReview card rating).Interval = 7 := by
  have hw : wrap64 (1 + 1) = 2 := by decide
  have hH : F64.toInt (F64.max F64.c1 (F64.mul (F64.ofInt 6) F64.c0_8)) = 4 := by decide
  have hE : F64.toInt (F64.mul (F64.ofInt 6) F64.c1_3) = 7 := by decide
  have h21 : ((2 : Int) = 1) = False := by simp
  simp only [CalculateNextReview, if_neg hA, h, hw, baseInterval, h21, if_true, if_false, hH, hE]
  split_ifs <;> omega

/-- The intervals a new card can have after its first repetitions, by the
number of ratings since the last `Again`. -/
theorem applyRatings_early (rs : List Rating) (h : sinceLastAgain rs < 2 ^ 63) :
    (sinceLastAgain rs = 0 → (applyRatings DefaultCardState rs).Interval ≤ 1) ∧
      (sinceLastAgain rs = 1 → (applyRatings DefaultCardState rs).Interval = 1) ∧
      (sinceLastAgain rs = 2 →
        (applyRatings DefaultCardState rs).Interval = 4 ∨
          (applyRatings DefaultCardState rs).Interval = 6 ∨
          (applyRatings DefaultCardState rs).Interval = 7) := by
  rcases List.eq_nil_or_concat rs with rfl | ⟨rs1, r, rfl⟩
  · refine ⟨fun _ => by decide, fun h1 => ?_, fun h2 => ?_⟩
    · simp [sinceLastAgain] at h1
    · simp [sinceLastAgain] at h2
  · rw [List.concat_eq_append] at h ⊢
    rw [sinceLastAgain_append] at h ⊢
    rw [applyRatings_append]
    by_cases hr : r = Again
    · subst hr
      simp only [if_true]
      refine ⟨fun _ => ?_, fun h1 => by omega, fun h2 => by omega⟩
      simp [CalculateNextReview]
    · rw [if_neg hr] at h ⊢
      have hreps := applyRatings_repetitions rs1 (by omega)
      refine ⟨fun h0 => by omega, fun h1 => ?_, fun h2 => ?_⟩
      · exact first_review _ r (by rw [hreps]; omega)
      · exact second_review _ r hr (by rw [hreps]; omega)

/-- C26 (as amended): for every state reached from `DefaultCardState` by a
sequence of ratings with fewer than `2 ^ 63` ratings after its last `Again`:
`repetitions = 0` implies `interval <= 1`, `repetitions = 1` implies
`interval = 1`, and `repetitions = 2` implies that the interval is 4, 6 or 7;
hence `interval > 21` implies `repetitions >= 3`, and a card that
`GetSRSStats` counts as mature (`interval_days > 21`) is counted as learned
(`repetitions > 0`) too: with every card of the user in such a state,
`mature_cards <= learned_cards`. -/
theorem C26_early_intervals (ratings : List Rating) (h : sinceLastAgain ratings < 2 ^ 63) :
    ((applyRatings DefaultCardState ratings).Repetitions = 0 →
        (applyRatings DefaultCardState ratings).Interval ≤ 1) ∧
      ((applyRatings DefaultCardState ratings).Repetitions = 1 →
        (applyRatings DefaultCardState ratings).Interval = 1) ∧
      ((applyRatings DefaultCardState ratings).Repetitions = 2 →
        (applyRatings DefaultCardState ratings).Interval = 4 ∨
          (applyRatings DefaultCardState ratings).Interval = 6 ∨
          (applyRatings DefaultCardState ratings).Interval = 7) ∧
      ((applyRatings DefaultCardState ratings).Interval > 21 →
        3 ≤ (applyRatings DefaultCardState ratings).Repetitions) ∧
      (∀ (avg : List F64 → F64) (db : DB) (userID : Nat) (today : Int),
        (∀ f ∈ userRows db userID, f.IntervalDays > 21 → 3 ≤ f.Repetitions) →
        (GetSRSStats avg db userID today).mature_cards ≤
          (GetSRSStats avg db userID today).learned_cards) := by
  have hreps := applyRatings_repetitions ratings h
  obtain ⟨e0, e1, e2⟩ := applyRatings_early ratings h
  refine ⟨fun h0 => e0 (by omega), fun h1 => e1 (by omega), fun h2 => e2 (by omega),
    fun hi => ?_, ?_⟩
  · by_contra hlt
    have hcase : sinceLastAgain ratings = 0 ∨ sinceLastAgain ratings = 1 ∨
        sinceLastAgain ratings = 2 := by omega
    rcases hcase with hc | hc | hc
    · have := e0 hc; omega
    · have := e1 hc; omega
    · have := e2 hc; omega
  · intro avg db userID today hrows
    simp only [GetSRSStats]
    rw [← List.countP_eq_length_filter, ← List.countP_eq_length_filter]
    have hmono : List.countP (fun f : Flashcard => decide (f.IntervalDays > 21))
        (userRows db userID) ≤
        List.countP (fun f : Flashcard => decide (f.Repetitions > 0)) (userRows db userID) :=
      List.countP_mono_left (by
        intro f hf hp
        have := hrows f hf (by simpa using hp)
        simp only [decide_eq_true_eq]
        omega)
    exact_mod_cast hmono

set_option maxRecDepth 100000 in
set_option exponentiation.threshold 2100 in
/-- C26, witness: `Good, Again, Hard, Easy` leaves 2 repetitions and the
interval 7. -/
theorem C26_early_intervals_witness :
    sinceLastAgain [Good, Again, Hard, Easy] < 2 ^ 63 ∧
      (applyRatings DefaultCardState [Good, Again, Hard, Easy]).Repetitions = 2 ∧
      ((applyRatings DefaultCardState [Good, Again, Hard, Easy]).Interval = 4 ∨
        (applyRatings DefaultCardState [Good, Again, Hard, Easy]).Interval = 6 ∨
        (applyRatings DefaultCardState [Good, Again, Hard, Easy]).Interval = 7) :=
  ⟨by decide, by decide,
    (C26_early_intervals [Good, Again, Hard, Easy] (by decide)).2.2.1 (by decide)⟩

set_option maxRecDepth 100000 in
set_option exponentiation.threshold 2100 in
/-- From the fourth `Good` in a row on, and up to `2 ^ 63` of them, the
interval of a card that was new is at least 23. -/
theorem good_run (n : Nat) (h4 : 4 ≤ n) (hn : n ≤ 2 ^ 63) :
    F64.nonnegLe (applyRatings DefaultCardState (List.replicate n Good)).EaseFactor
        ((2 : ℚ) ^ (50 : Int)) ∧
      23 ≤ (applyRatings DefaultCardState (List.replicate n Good)).Interval ∧
      (applyRatings DefaultCardState (List.replicate n Good)).Interval ≤ 365 := by
  induction n, h4 using Nat.le_induction with
  | base =>
    refine ⟨(applyRatings_reachable _).1, ?_, ?_⟩ <;> decide
  | succ k hk ih =>
    obtain ⟨hef, h23, h365⟩ := ih (by omega)
    have hreps := applyRatings_repetitions (List.replicate k Good)
      (by rw [sinceLastAgain_replicate_Good]; omega)
    rw [sinceLastAgain_replicate_Good] at hreps
    rw [List.replicate_succ', applyRatings_append]
    have hw : wrap64 ((k : Int) + 1) ≠ 1 ∧ wrap64 ((k : Int) + 1) ≠ 2 := by
      unfold wrap64
      constructor <;> omega
    have hle := le_of_nonnegLe_2_50 _ hef
    have he := ease_nonnegLe _ Good hle
    have hb := baseInterval_range (wrap64 ((k : Int) + 1))
      (applyRatings DefaultCardState (List.replicate k Good)).Interval _ (by omega) h365 he
    have hg := (baseInterval_ge (wrap64 ((k : Int) + 1))
      (applyRatings DefaultCardState (List.replicate k Good)).Interval _ (by omega) h365 he
      (max_c1_3_ge _ _ he)).2 hw.1 hw.2
    refine ⟨ease_le_2_50 _ Good hef, ?_, ?_⟩
    · have hGA : (Good = Again) = False := by simp [Good, Again]
      have hGH : (Good = Hard) = False := by simp [Good, Hard]
      have hGE : (Good = Easy) = False := by simp [Good, Easy]
      simp only [CalculateNextReview, hGA, hGH, hGE, if_false, hreps]
      split_ifs <;> omega
    · exact (interval_step _ Good hle (by omega) h365).2

/-- C26, counterexample: after `2 ^ 63` consecutive `Good` ratings the
interval is above 21 while the stored repetitions have wrapped around to
`-2 ^ 63`: the card counts as mature and not as learned. -/
theorem C26_wrap_counterexample :
    (applyRatings DefaultCardState (List.replicate (2 ^ 63) Good)).Interval > 21 ∧
      (applyRatings DefaultCardState (List.replicate (2 ^ 63) Good)).Repetitions = -(2 ^ 63) ∧
      ¬ 3 ≤ (applyRatings DefaultCardState (List.replicate (2 ^ 63) Good)).Repetitions ∧
      ¬ (applyRatings DefaultCardState (List.replicate (2 ^ 63) Good)).Repetitions > 0 := by
  have hreps : (applyRatings DefaultCardState (List.replicate (2 ^ 63) Good)).Repetitions =
      -(2 ^ 63) := by
    have hn : (2 : Nat) ^ 63 = (2 ^ 63 - 1) + 1 := by norm_num
    rw [hn, List.replicate_succ', applyRatings_append, CalculateNextReview_repetitions,
      applyRatings_repetitions _ (by rw [sinceLastAgain_replicate_Good]; norm_num),
      sinceLastAgain_replicate_Good]
    decide
  have hi := (good_run (2 ^ 63) (by norm_num) le_rfl).2.1
  refine ⟨by omega, hreps, ?_, ?_⟩
  · rw [hreps]; norm_num
  · rw [hreps]; norm_num

/-! ## C27: what a review leaves untouched -/

theorem submitPersist_study_materials (db : DB) (userID : Nat) (today now : Int)
    (p : PendingReview) :
    (submitPersist db userID today now p).1.study_materials = db.study_materials := by
  simp only [submitPersist, IncrementCardsReviewed, UpdateCardSRS]
  split_ifs <;> rfl

/-- The rows of `flashcards` before and after `UpdateCardSRS`, one by
one. -/
theorem UpdateCardSRS_rows (db : DB) (cardID : Nat) (ef : F64)
    (interval reps nextReview now : Int) :
    List.Forall₂
      (fun before after =>
        after.ID = before.ID ∧ after.StudyMaterialID = before.StudyMaterialID ∧
        after.Question = before.Question ∧ after.Answer = before.Answer ∧
        (before.ID ≠ cardID → after = before))
      db.flashcards (UpdateCardSRS db cardID ef interval reps nextReview now).flashcards := by
  simp only [UpdateCardSRS]
  rw [List.forall₂_map_right_iff]
  apply List.forall₂_same.2
  intro f _
  by_cases hf : f.ID = cardID
  · simp [hf]
  · simp [hf]

/-- C27: when `SubmitReview` answers 200 for the card `c` of the request,
every row of `flashcards` keeps its key, its material, its question and its
answer, every row of another card is the same after the call as before, and
`study_materials` is unchanged: of the flashcards only the five schedule
columns of `c` can differ. -/
theorem C27_review_frame (db : DB) (userID : Nat) (today now : Int)
    (body : Option ReviewBody) (resp : ReviewResponse)
    (h : (SubmitReview db userID today now body).result = HttpResult.ok resp) :
    ∃ req, bindReviewRequest body = some req ∧ resp.card_id = req.CardID ∧
      List.Forall₂
        (fun before after =>
          after.ID = before.ID ∧ after.StudyMaterialID = before.StudyMaterialID ∧
          after.Question = before.Question ∧ after.Answer = before.Answer ∧
          (before.ID ≠ req.CardID → after = before))
        db.flashcards (SubmitReview db userID today now body).db.flashcards ∧
      (SubmitReview db userID today now body).db.study_materials = db.study_materials := by
  cases hl : (submitLoad db userID today body).2 with
  | rejected r =>
    exfalso
    rw [SubmitReview_of_rejected db userID today now body r hl] at h
    simp only at h
    rcases submitLoad_rejected db userID today body r hl with ⟨hr, _⟩ | ⟨hr, _⟩ <;>
      rw [hr] at h <;> simp at h
  | ready p =>
    obtain ⟨req, card, material, hb, _, _, _, _, hp⟩ :=
      submitLoad_ready db userID today body p hl
    have hid : p.CardID = req.CardID := by rw [hp]
    rw [SubmitReview_of_ready db userID today now body p hl] at h ⊢
    simp only at h ⊢
    injection h with h
    refine ⟨req, hb, ?_, ?_, submitPersist_study_materials db userID today now p⟩
    · rw [← h, ← hid]; rfl
    · rw [submitPersist_flashcards, ← hid]
      exact UpdateCardSRS_rows db p.CardID _ _ _ _ _

set_option maxRecDepth 100000 in
set_option exponentiation.threshold 2100 in
/-- C27, witness: `Good` on `sampleCard`. -/
theorem C27_review_frame_witness :
    (SubmitReview (sampleDB 7) 7 100 8640000 (sampleReview Good)).result =
        HttpResult.ok
          { card_id := 5
            ease_factor := F64.c2_36
            interval_days := 1
            repetitions := 1
            next_review_date := 101 } ∧
      (SubmitReview (sampleDB 7) 7 100 8640000 (sampleReview Good)).db.study_materials =
        (sampleDB 7).study_materials :=
  ⟨by decide, by
    obtain ⟨_, _, _, _, h⟩ :=
      C27_review_frame (sampleDB 7) 7 100 8640000 (sampleReview Good) _
        (by decide :
          (SubmitReview (sampleDB 7) 7 100 8640000 (sampleReview Good)).result =
            HttpResult.ok
              { card_id := 5
                ease_factor := F64.c2_36
                interval_days := 1
                repetitions := 1
                next_review_date := 101 })
    exact h⟩

/-! ## C28: the folder tree -/

/-- C28: `GetFolderTree` loses every folder whose name comes after the name of
its parent.  For the root `a` and its child `b` (an acyclic table in which
every parent is a folder of the same user) the forest returned is `a` alone,
with no children, in either storage order of the two rows: `b` is nowhere in
it.  With the two names exchanged the forest is complete, the child inside
the `Children` of the root.  The second loop copies a root into `roots` when
its turn comes in the order of the names, and the children that are put into
the array element afterwards are not in that copy. -/
theorem C28_late_child_lost :
    Acyclic parentFirst ∧ ParentsOwned parentFirst ∧
      FolderRepository.ListByUser parentFirst 1 =
        [Folder.mk 1 1 none "a" "" [], Folder.mk 2 1 (some 1) "b" "" []] ∧
      FolderRepository.GetFolderTree parentFirst 1 = [Folder.mk 1 1 none "a" "" []] ∧
      FolderRepository.GetFolderTree parentFirst.reverse 1 = [Folder.mk 1 1 none "a" "" []] ∧
      Acyclic childFirst ∧ ParentsOwned childFirst ∧
      FolderRepository.GetFolderTree childFirst 1 =
        [Folder.mk 1 1 none "b" "" [Folder.mk 2 1 (some 1) "a" "" []]] :=
  ⟨by decide, by decide, rfl, rfl, rfl, by decide, by decide, rfl⟩

/-! ## C29: the parent of a folder -/

/-- C29: the only parent that `UpdateFolder` refuses is the folder itself: a
request that names the folder as its own parent is answered 400 or 404 and
leaves the table as it was.  A request that makes a child of the folder its
parent is answered 200: from the acyclic table of the root `a` (1) and its
child `b` (2), `PATCH /folders/1` with `parent_id` 2 stores the parent 2 for
folder 1, after which each folder is an ancestor of itself and `GetFolderTree`
returns no folder at all. -/
theorem C29_cycle_accepted :
    (∀ (folders : List FolderRow) (userID id : Nat) (name color : Option String),
      (HandlerUpdateFolder folders userID (some id)
          (some { Name := name, ParentID := some id, Color := color })).1 = folders ∧
        ((HandlerUpdateFolder folders userID (some id)
            (some { Name := name, ParentID := some id, Color := color })).2 =
            HttpResult.badRequest ∨
          (HandlerUpdateFolder folders userID (some id)
            (some { Name := name, ParentID := some id, Color := color })).2 =
            HttpResult.notFound)) ∧
      Acyclic parentFirst ∧ ParentsOwned parentFirst ∧
      HandlerUpdateFolder parentFirst 1 (some 1) (some { ParentID := some 2 }) =
        (cyclicFolders, HttpResult.ok (Folder.mk 1 1 (some 2) "a" "" [])) ∧
      ¬ Acyclic cyclicFolders ∧
      1 ∈ ancestors cyclicFolders 2 1 ∧
      FolderRepository.GetFolderTree cyclicFolders 1 = [] := by
  refine ⟨?_, by decide, by decide, rfl, by decide, by decide, rfl⟩
  intro folders userID id name color
  cases h : FolderRepository.GetByID folders id with
  | none => simp [HandlerUpdateFolder, h]
  | some folder =>
    by_cases hu : folder.UserID = userID <;> simp [HandlerUpdateFolder, h, hu]

end SRS
